import Mathlib

/-!
Verification development for the Mononoke SSH wire-protocol request parser
(`src/hgproto/src/sshproto/request.rs`) and the revision-set stream engine
(`src/revset/src/ancestors.rs`, `src/revset/src/intersectnodestream.rs`).

Bytes are modelled as `List Nat`; a nom `IResult<&[u8], T>` is modelled by
`PRes T`, where `done n v` records the number of consumed bytes (the nom
"rest" slice is the input with its first `n` bytes dropped), `incomplete`
models `IResult::Incomplete` and `error` models `IResult::Error` (the error
kinds are not needed by any property proved here).
-/

namespace Mononoke

abbrev Bytes := List Nat

inductive PRes (α : Type) : Type where
  | done (n : Nat) (v : α)
  | incomplete
  | error
  deriving DecidableEq, Repr

/-- Sequencing of parsers, as performed by nom's `do_parse!` chains:
the second parser runs on the rest of the input, consumed counts add up,
`Incomplete` and `Error` short-circuit. -/
def pbind (p : Bytes → PRes α) (q : α → Bytes → PRes β) : Bytes → PRes β := fun inp =>
  match p inp with
  | .done n a =>
    match q a (inp.drop n) with
    | .done m b => .done (n + m) b
    | .incomplete => .incomplete
    | .error => .error
  | .incomplete => .incomplete
  | .error => .error

/-- nom `map!`. -/
def pmap (p : Bytes → PRes α) (f : α → β) : Bytes → PRes β := fun inp =>
  match p inp with
  | .done n a => .done n (f a)
  | .incomplete => .incomplete
  | .error => .error

/-- nom `map_res!`: a failing result function turns `Done` into `Error`. -/
def pmapRes (p : Bytes → PRes α) (f : α → Option β) : Bytes → PRes β := fun inp =>
  match p inp with
  | .done n a =>
    match f a with
    | some b => .done n b
    | none => .error
  | .incomplete => .incomplete
  | .error => .error

/-- nom `tag!`: match a literal byte string.  A mismatching byte is an
error; running out of input while all bytes so far matched is incomplete. -/
def tagP : Bytes → Bytes → PRes Unit
  | [], _ => .done 0 ()
  | _ :: _, [] => .incomplete
  | t :: ts, b :: bs =>
    if t = b then
      match tagP ts bs with
      | .done n _ => .done (n + 1) ()
      | .incomplete => .incomplete
      | .error => .error
    else .error

/-- nom `take!`: exactly `len` bytes, incomplete when fewer are available. -/
def takeP (len : Nat) (inp : Bytes) : PRes Bytes :=
  if len ≤ inp.length then .done len (inp.take len) else .incomplete

/-- `request.rs` `digit`: longest run of bytes satisfying `isd`.  Reaching
the end of input is incomplete (more digits may follow); an empty run is an
error; otherwise the run is returned and the first non-digit byte is the
start of the rest. -/
def digitP (isd : Nat → Bool) (inp : Bytes) : PRes Bytes :=
  let k := (inp.takeWhile isd).length
  if k = inp.length then .incomplete
  else if k = 0 then .error
  else .done k (inp.take k)

def isDig (b : Nat) : Bool := 48 ≤ b && b ≤ 57

/-- Decimal value of a run of ASCII digit bytes (`str::from_utf8` +
`usize::from_str` in the source; `Nat` does not overflow). -/
def decValue (ds : Bytes) : Nat := ds.foldl (fun a d => 10 * a + (d - 48)) 0

/-- `request.rs` `integer`. -/
def integerP : Bytes → PRes Nat := pmap (digitP isDig) decValue

def isIdentStart (b : Nat) : Bool := (65 ≤ b && b ≤ 90) || (97 ≤ b && b ≤ 122) || b == 95

def isIdentCont (b : Nat) : Bool := isIdentStart b || (48 ≤ b && b ≤ 57)

/-- `request.rs` `ident`: `[a-zA-Z_][a-zA-Z0-9_]*`, incomplete at the end of
input. -/
def identP (inp : Bytes) : PRes Bytes :=
  match inp with
  | [] => .incomplete
  | b :: _ =>
    if isIdentStart b then
      let k := (inp.takeWhile isIdentCont).length
      if k = inp.length then .incomplete else .done k (inp.take k)
    else .error

/-- `request.rs` `ident_complete`: as `ident`, but the end of input
terminates the identifier. -/
def identCompleteP (inp : Bytes) : PRes Bytes :=
  match identP inp with
  | .incomplete => .done inp.length inp
  | r => r

abbrev PEntries := List (Bytes × Bytes)

/-- Front of a `param_star` entry: `"* " integer "\n"`, yielding the count. -/
def starFront : Bytes → PRes Nat :=
  pbind (tagP [42, 32]) fun _ =>
  pbind integerP fun m =>
  pmap (tagP [10]) fun _ => m

/-- Front of a `param_kv` entry: `ident " " integer "\n"`, yielding the key
and the value byte length. -/
def kvFront : Bytes → PRes (Bytes × Nat) :=
  pbind identP fun key =>
  pbind (tagP [32]) fun _ =>
  pbind integerP fun len =>
  pmap (tagP [10]) fun _ => (key, len)

/-- `request.rs` `param_kv`: a named parameter; the value is exactly the
announced number of bytes, with no terminator.  It contributes a single
(key, value) entry (`iter::once` in the source), so the `have += kv.len()`
in `params` always increments by 1. -/
def paramKV : Bytes → PRes PEntries :=
  pbind kvFront fun kl =>
  pmap (takeP kl.2) fun val => [(kl.1, val)]

/-- `request.rs` `params`, fuel-indexed to make the nested `param_star`
recursion structural.  `paramsF fuel inp count` parses exactly `count`
top-level entries, each an `alt!` of `param_star` (tried first; its
recursive `params` body is inlined here) and `param_kv`; a star counts as
one entry regardless of how many entries it expands to.  Entries are
returned in encounter order; the `HashMap` accumulation of the source is
recovered by `mlookup`, which takes the last binding of a key.  Fuel 0 is
never reached when `fuel > inp.length` (`paramsF_fuel`). -/
def paramsF : Nat → Bytes → Nat → PRes PEntries
  | 0, _, _ => .error
  | fuel + 1, inp, count =>
    match count with
    | 0 => .done 0 []
    | c + 1 =>
      match pbind starFront (fun m rest => paramsF fuel rest m) inp with
      | .done n kv =>
        (match paramsF fuel (inp.drop n) c with
         | .done n2 kv2 => .done (n + n2) (kv ++ kv2)
         | .incomplete => .incomplete
         | .error => .error)
      | .incomplete => .incomplete
      | .error =>
        match paramKV inp with
        | .done n kv =>
          (match paramsF fuel (inp.drop n) c with
           | .done n2 kv2 => .done (n + n2) (kv ++ kv2)
           | .incomplete => .incomplete
           | .error => .error)
        | .incomplete => .incomplete
        | .error => .error

/-- `request.rs` `params` (normal ssh dialect). -/
def params (inp : Bytes) (count : Nat) : PRes PEntries :=
  paramsF (inp.length + 1) inp count

/-- `request.rs` `param_star`: `"* " integer "\n"` followed by that many
further entries, parsed by `params`. -/
def paramStar : Bytes → PRes PEntries :=
  pbind starFront fun m => fun rest => params rest m

/-- Hex digit as accepted by `NodeHash`'s `FromStr`. -/
def isHexB (b : Nat) : Bool := (48 ≤ b && b ≤ 57) || (97 ≤ b && b ≤ 102) || (65 ≤ b && b ≤ 70)

/-- `request.rs` `nodehash`: exactly 40 hex digits (kept in wire form; the
source decodes them into a 20-byte `NodeHash`, an injective reading). -/
def nodehashP : Bytes → PRes Bytes :=
  pmapRes (takeP 40) fun v => if v.all isHexB then some v else none

/-- `request.rs` `pair`: two node hashes separated by `'-'`. -/
def pairP : Bytes → PRes (Bytes × Bytes) :=
  pbind nodehashP fun a =>
  pbind (tagP [45]) fun _ =>
  pmap nodehashP fun b => (a, b)

/-- nom `complete!`: turn `Incomplete` into an error. -/
def completeT (p : Bytes → PRes α) : Bytes → PRes α := fun inp =>
  match p inp with
  | .incomplete => .error
  | r => r

/-- Tail loop of nom `separated_list!(complete!(tag!(sep)), item)`: repeat
separator-then-item; a failing separator or item stops the list (consuming
nothing of the failed tail).  Fueled; items and separators here always
consume at least one byte. -/
def sepTailF (sepTag : Bytes) (item : Bytes → PRes α) : Nat → Bytes → PRes (List α)
  | 0, _ => .error
  | fuel + 1, inp =>
    match completeT (tagP sepTag) inp with
    | .done ns _ =>
      (match item (inp.drop ns) with
       | .done ni v =>
         (match sepTailF sepTag item fuel (inp.drop (ns + ni)) with
          | .done nr vs => .done (ns + ni + nr) (v :: vs)
          | .incomplete => .incomplete
          | .error => .error)
       | .incomplete => .incomplete
       | .error => .done 0 [])
    | _ => .done 0 []

/-- nom `separated_list!(complete!(tag!(sep)), item)`: an erroring first
item yields the empty list. -/
def sepListP (sepTag : Bytes) (item : Bytes → PRes α) (inp : Bytes) : PRes (List α) :=
  match item inp with
  | .done n v =>
    (match sepTailF sepTag item (inp.length + 1) (inp.drop n) with
     | .done nr vs => .done (n + nr) (v :: vs)
     | .incomplete => .incomplete
     | .error => .error)
  | .incomplete => .incomplete
  | .error => .done 0 []

/-- `request.rs` `pairlist`. -/
def pairlistP : Bytes → PRes (List (Bytes × Bytes)) := sepListP [32] pairP

/-- `request.rs` `hashlist`. -/
def hashlistP : Bytes → PRes (List Bytes) := sepListP [32] nodehashP

/-- `request.rs` `commavalues`: split the entire input on `','`; empty
input is the empty list. -/
def commavaluesP (inp : Bytes) : PRes (List Bytes) :=
  if inp.length = 0 then .done 0 []
  else .done inp.length (inp.splitOn 44)

/-- `request.rs` `cmd`: `take_until_and_consume1!(" ")` then
`take_while!(notsemi)`. -/
def cmdP : Bytes → PRes (Bytes × Bytes) := fun inp =>
  let k := (inp.takeWhile (fun b => b ≠ 32)).length
  if k = inp.length then .incomplete
  else if k = 0 then .error
  else
    let rest := inp.drop (k + 1)
    .done (k + 1 + (rest.takeWhile (fun b => b ≠ 59)).length)
      (inp.take k, rest.takeWhile (fun b => b ≠ 59))

/-- `request.rs` `cmdlist`. -/
def cmdlistP : Bytes → PRes (List (Bytes × Bytes)) := sepListP [59] cmdP

/-- `HashMap` lookup on the ordered entry list: the last insertion of a key
wins, as with `HashMap::insert`. -/
def mlookup (m : PEntries) (key : Bytes) : Option Bytes :=
  (m.reverse.find? (fun kv => decide (kv.1 = key))).map (fun kv => kv.2)

/-- `request.rs` `match_eof` (nom `eof!`). -/
def matchEof (inp : Bytes) : PRes Bytes :=
  if inp.length = 0 then .done 0 [] else .error

/-- `request.rs` `parseval`: look the key up; missing key is an error; the
sub-parser must succeed and consume the whole value (`match_eof`), anything
else is an error.  `Result<T>` is modelled as `Option` (`none` = `Err`). -/
def parseval (m : PEntries) (key : Bytes) (p : Bytes → PRes α) : Option α :=
  match mlookup m key with
  | none => none
  | some v =>
    match p v with
    | .done n w =>
      (match matchEof (v.drop n) with
       | .done _ _ => some w
       | _ => none)
    | .incomplete => none
    | .error => none

/-- `request.rs` `parseval_default`: as `parseval`, but a missing key
yields `T::default()` (`default` of the `Inhabited` instance). -/
def parsevalDefault [Inhabited α] (m : PEntries) (key : Bytes) (p : Bytes → PRes α) : Option α :=
  match mlookup m key with
  | none => some default
  | some v =>
    match p v with
    | .done n w =>
      (match matchEof (v.drop n) with
       | .done _ _ => some w
       | _ => none)
    | .incomplete => none
    | .error => none

/-- The `Request` sum (hgproto); `String`-typed fields (`ident_string`) are
kept as their ASCII bytes, and `Debugwireargs` carries the raw map. -/
inductive Request : Type where
  | batch (cmds : List (Bytes × Bytes))
  | between (pairs : List (Bytes × Bytes))
  | branchmap
  | branches (nodes : List Bytes)
  | clonebundles
  | capabilities
  | changegroup (roots : List Bytes)
  | changegroupsubset (heads bases : List Bytes)
  | debugwireargs (one two : Bytes) (allArgs : PEntries)
  | getbundle (heads common : List Bytes) (bundlecaps lkeys : List Bytes)
  | heads
  | hello
  | listkeys (nspace : Bytes)
  | lookup (key : Bytes)
  | known (nodes : List Bytes)
  | pushkey (nspace key old new : Bytes)
  | streamout
  | unbundle (heads : List Bytes)
  deriving DecidableEq, Repr

/-- The post-`params` constructor step of `parse_command`: a failing
constructor function is an `Error` (`ErrorKind::Custom(999999)`), never
incomplete, and consumes nothing. -/
def liftOpt (r : Option α) : Bytes → PRes α := fun _ =>
  match r with
  | some v => .done 0 v
  | none => .error

/-- The input-consuming part of `parse_command` specialized to the
normal-dialect `params` (the only dialect exercised by `parse`): the
literal command name, a newline, then `nargs` parameter entries. -/
def commandFront (cmd : Bytes) (nargs : Nat) : Bytes → PRes PEntries :=
  pbind (tagP cmd) fun _ =>
  pbind (tagP [10]) fun _ =>
  fun rest => params rest nargs

/-- `request.rs` `parse_command`: the front above, then the `Request`
constructor applied to the parameter map. -/
def parseCommand (cmd : Bytes) (nargs : Nat) (func : PEntries → Option α) : Bytes → PRes α :=
  pbind (commandFront cmd nargs) fun kv => liftOpt (func kv)

/-- nom `alt!`: try the branches in order; an error moves to the next
branch, `Done` and `Incomplete` are returned as is. -/
def altP : List (Bytes → PRes α) → Bytes → PRes α
  | [], _ => .error
  | p :: rest, inp =>
    match p inp with
    | .error => altP rest inp
    | r => r

def bBatch : Bytes := [98, 97, 116, 99, 104]
def bBetween : Bytes := [98, 101, 116, 119, 101, 101, 110]
def bBranchmap : Bytes := [98, 114, 97, 110, 99, 104, 109, 97, 112]
def bBranches : Bytes := [98, 114, 97, 110, 99, 104, 101, 115]
def bClonebundles : Bytes := [99, 108, 111, 110, 101, 98, 117, 110, 100, 108, 101, 115]
def bCapabilities : Bytes := [99, 97, 112, 97, 98, 105, 108, 105, 116, 105, 101, 115]
def bChangegroup : Bytes := [99, 104, 97, 110, 103, 101, 103, 114, 111, 117, 112]
def bChangegroupsubset : Bytes := [99, 104, 97, 110, 103, 101, 103, 114, 111, 117, 112, 115, 117, 98, 115, 101, 116]
def bDebugwireargs : Bytes := [100, 101, 98, 117, 103, 119, 105, 114, 101, 97, 114, 103, 115]
def bGetbundle : Bytes := [103, 101, 116, 98, 117, 110, 100, 108, 101]
def bHeads : Bytes := [104, 101, 97, 100, 115]
def bHello : Bytes := [104, 101, 108, 108, 111]
def bListkeys : Bytes := [108, 105, 115, 116, 107, 101, 121, 115]
def bLookup : Bytes := [108, 111, 111, 107, 117, 112]
def bKnown : Bytes := [107, 110, 111, 119, 110]
def bPushkey : Bytes := [112, 117, 115, 104, 107, 101, 121]
def bStreamout : Bytes := [115, 116, 114, 101, 97, 109, 111, 117, 116]
def bUnbundle : Bytes := [117, 110, 98, 117, 110, 100, 108, 101]

def kCmds : Bytes := [99, 109, 100, 115]
def kPairs : Bytes := [112, 97, 105, 114, 115]
def kNodes : Bytes := [110, 111, 100, 101, 115]
def kRoots : Bytes := [114, 111, 111, 116, 115]
def kHeads : Bytes := [104, 101, 97, 100, 115]
def kBases : Bytes := [98, 97, 115, 101, 115]
def kOne : Bytes := [111, 110, 101]
def kTwo : Bytes := [116, 119, 111]
def kCommon : Bytes := [99, 111, 109, 109, 111, 110]
def kBundlecaps : Bytes := [98, 117, 110, 100, 108, 101, 99, 97, 112, 115]
def kListkeys : Bytes := [108, 105, 115, 116, 107, 101, 121, 115]
def kNamespace : Bytes := [110, 97, 109, 101, 115, 112, 97, 99, 101]
def kKey : Bytes := [107, 101, 121]
def kOld : Bytes := [111, 108, 100]
def kNew : Bytes := [110, 101, 119]

def batchFunc (kv : PEntries) : Option Request :=
  (parseval kv kCmds cmdlistP).map Request.batch

def betweenFunc (kv : PEntries) : Option Request :=
  (parseval kv kPairs pairlistP).map Request.between

def branchesFunc (kv : PEntries) : Option Request :=
  (parseval kv kNodes hashlistP).map Request.branches

def changegroupFunc (kv : PEntries) : Option Request :=
  (parseval kv kRoots hashlistP).map Request.changegroup

def changegroupsubsetFunc (kv : PEntries) : Option Request :=
  match parseval kv kHeads hashlistP, parseval kv kBases hashlistP with
  | some h, some b => some (.changegroupsubset h b)
  | _, _ => none

def debugwireargsFunc (kv : PEntries) : Option Request :=
  match parseval kv kOne identCompleteP, parseval kv kTwo identCompleteP with
  | some o, some t => some (.debugwireargs o t kv)
  | _, _ => none

def getbundleFunc (kv : PEntries) : Option Request :=
  match parsevalDefault kv kHeads hashlistP, parsevalDefault kv kCommon hashlistP,
        parsevalDefault kv kBundlecaps commavaluesP, parsevalDefault kv kListkeys commavaluesP with
  | some h, some c, some bc, some lk => some (.getbundle h c bc lk)
  | _, _, _, _ => none

def listkeysFunc (kv : PEntries) : Option Request :=
  (parseval kv kNamespace identCompleteP).map Request.listkeys

def lookupFunc (kv : PEntries) : Option Request :=
  (parseval kv kKey identCompleteP).map Request.lookup

def knownFunc (kv : PEntries) : Option Request :=
  (parseval kv kNodes hashlistP).map Request.known

def pushkeyFunc (kv : PEntries) : Option Request :=
  match parseval kv kNamespace identCompleteP, parseval kv kKey identCompleteP,
        parseval kv kOld nodehashP, parseval kv kNew nodehashP with
  | some ns, some k, some o, some n => some (.pushkey ns k o n)
  | _, _, _, _ => none

def unbundleFunc (kv : PEntries) : Option Request :=
  (parseval kv kHeads hashlistP).map Request.unbundle

/-- The `alt!` branch list of `parse_common`, in source order; `nargs`
counts are the named parameters plus 1 for each `command_star!` star slot
(`batch`, `debugwireargs`, `getbundle`, `known`). -/
def commandTable : List (Bytes → PRes Request) :=
  [ parseCommand bBatch 2 batchFunc
  , parseCommand bBetween 1 betweenFunc
  , parseCommand bBranchmap 0 (fun _ => some .branchmap)
  , parseCommand bBranches 1 branchesFunc
  , parseCommand bClonebundles 0 (fun _ => some .clonebundles)
  , parseCommand bCapabilities 0 (fun _ => some .capabilities)
  , parseCommand bChangegroup 1 changegroupFunc
  , parseCommand bChangegroupsubset 2 changegroupsubsetFunc
  , parseCommand bDebugwireargs 3 debugwireargsFunc
  , parseCommand bGetbundle 1 getbundleFunc
  , parseCommand bHeads 0 (fun _ => some .heads)
  , parseCommand bHello 0 (fun _ => some .hello)
  , parseCommand bListkeys 1 listkeysFunc
  , parseCommand bLookup 1 lookupFunc
  , parseCommand bKnown 2 knownFunc
  , parseCommand bPushkey 4 pushkeyFunc
  , parseCommand bStreamout 0 (fun _ => some .streamout)
  , parseCommand bUnbundle 1 unbundleFunc
  ]

/-- The `alt!` body of `parse_common` with the normal-dialect `params`
(the instantiation used by `parse`; the batch dialect is not exercised by
any property here). -/
def parseCommon : Bytes → PRes Request := altP commandTable

/-- `request.rs` `parse`: on `Done` advance the buffer by exactly the
consumed byte count, on `Incomplete` return `None` with the buffer
untouched, on `Error` fail with `CommandParse` carrying the buffer. -/
def parseBytes (buf : Bytes) : Except Bytes (Option Request × Bytes) :=
  match parseCommon buf with
  | .done n v => .ok (some v, buf.drop n)
  | .incomplete => .ok (none, buf)
  | .error => .error buf

/-!
The revset stream engine.  Node hashes are modelled as `Nat`; the external
repository (parent lookup) and generation cache are a `GenGraph`.  The
futures `poll` machines of `ancestors.rs` and `intersectnodestream.rs` are
embedded deterministically: every repository / generation fetch is ready,
so a sub-stream poll either yields its next item or its end.  The `HashSet`
/ `HashMap` iteration orders of the source, which are unspecified, become
insertion order here; all properties proved below are insensitive to the
order within one generation.
-/

structure GenGraph : Type where
  parents : Nat → List Nat
  gen : Nat → Nat

/-- Generations strictly decrease from child to parent (§3 of the spec:
`gen(p) < gen(c)` for every parent `p` of `c`). -/
def ParentGenLt (G : GenGraph) : Prop :=
  ∀ c p, p ∈ G.parents c → G.gen p < G.gen c

/-- One step of the parent relation: `b` is a parent of `a`. -/
def parentRel (G : GenGraph) (a b : Nat) : Prop := b ∈ G.parents a

/-- The transitive parent-closure of `s`, including `s` itself. -/
def Anc (G : GenGraph) (s x : Nat) : Prop := Relation.ReflTransGen (parentRel G) s x

/-- `AncestorsNodeStream` state: the `BTreeMap<Generation, HashSet<NodeHash>>`
is an association list of buckets, `pending_changesets` is the not yet
bucketed output of `make_pending` (parent hashes, their generations are
recomputed by `GenGraph.gen` when bucketed), `drain` is the current
generation's unsent hashes. -/
structure AncState : Type where
  nextGeneration : List (Nat × List Nat)
  pendingChangesets : List Nat
  drain : List Nat
  deriving DecidableEq, Repr

/-- Insert a hash into its generation's bucket (`HashSet::insert`:
duplicates are dropped). -/
def bucketInsert (m : List (Nat × List Nat)) (g h : Nat) : List (Nat × List Nat) :=
  match m with
  | [] => [(g, [h])]
  | (g', b) :: rest =>
    if g' = g then (g', if h ∈ b then b else b ++ [h]) :: rest
    else (g', b) :: bucketInsert rest g h

/-- Largest key of the bucket map (`keys().max()`); only used on non-empty
maps. -/
def maxKey : List (Nat × List Nat) → Nat
  | [] => 0
  | (g, _) :: rest => max g (maxKey rest)

def bucketGet (m : List (Nat × List Nat)) (g : Nat) : List Nat :=
  match m.find? (fun e => decide (e.1 = g)) with
  | some e => e.2
  | none => []

def bucketErase (m : List (Nat × List Nat)) (g : Nat) : List (Nat × List Nat) :=
  m.filter (fun e => decide (e.1 ≠ g))

/-- `ancestors.rs` `make_pending`: fetch every hash's parents and
concatenate them (their generations are attached when consumed). -/
def makePending (G : GenGraph) (hashes : List Nat) : List Nat :=
  hashes.flatMap G.parents

/-- `AncestorsNodeStream::new`: drain the seed itself, with its parents
pending. -/
def ancInit (G : GenGraph) (hash : Nat) : AncState :=
  { nextGeneration := [], pendingChangesets := makePending G [hash], drain := [hash] }

/-- Classify all pending parents into the generation buckets (the
`pending_changesets` draining loop of `poll`). -/
def bucketAll (G : GenGraph) (m : List (Nat × List Nat)) (p : List Nat) : List (Nat × List Nat) :=
  p.foldl (fun m h => bucketInsert m (G.gen h) h) m

/-- One `poll` of `AncestorsNodeStream`: drain the current generation if
non-empty; otherwise bucket all pending parents, stop if no generation is
left, else pop the bucket with the largest generation, schedule its
parents, and yield its first hash.  (The empty-bucket inner branch mirrors
the source's unreachable `expect`.) -/
def ancPoll (G : GenGraph) (s : AncState) : Option Nat × AncState :=
  match s.drain with
  | h :: rest => (some h, { s with drain := rest })
  | [] =>
    let m := bucketAll G s.nextGeneration s.pendingChangesets
    if m.isEmpty then (none, { nextGeneration := m, pendingChangesets := [], drain := [] })
    else
      let gmax := maxKey m
      let bucket := bucketGet m gmax
      let m' := bucketErase m gmax
      match bucket with
      | [] => (none, { nextGeneration := m', pendingChangesets := [], drain := [] })
      | h :: rest =>
        (some h,
         { nextGeneration := m', pendingChangesets := makePending G bucket, drain := rest })

/-- Poll `AncestorsNodeStream` up to `fuel` times; the flag records whether
end-of-stream was reached. -/
def ancRunF (G : GenGraph) : Nat → AncState → List Nat × Bool
  | 0, _ => ([], false)
  | fuel + 1, s =>
    match ancPoll G s with
    | (some h, s') => let r := ancRunF G fuel s'; (h :: r.1, r.2)
    | (none, _) => ([], true)

/-- A slot of `IntersectNodeStream`: `none` = `NotReady`, `some none` =
`Ready(None)` (ended), `some (some (h, g))` = `Ready(Some((h, g)))`.
Input errors cannot occur in the deterministic embedding. -/
abbrev Slot := Option (Option (Nat × Nat))

structure IntState : Type where
  inputs : List (List Nat × Slot)
  currentGeneration : Option Nat
  accumulator : List (Nat × Nat)
  drain : Option (List (Nat × Nat))
  deriving DecidableEq, Repr

/-- Poll one input whose slot is `NotReady` (`add_generations` tags each
hash with its generation from the cache). -/
def pollOne (G : GenGraph) : List Nat × Slot → List Nat × Slot
  | (rem, none) =>
    (match rem with
     | [] => ([], some none)
     | h :: t => (t, some (some (h, G.gen h))))
  | s => s

/-- `setcommon::poll_all_inputs`. -/
def pollAllInputs (G : GenGraph) (inputs : List (List Nat × Slot)) : List (List Nat × Slot) :=
  inputs.map (pollOne G)

/-- `setcommon::all_inputs_ready`. -/
def allInputsReady (inputs : List (List Nat × Slot)) : Bool :=
  inputs.all (fun p => p.2.isSome)

/-- `IntersectNodeStream::any_input_finished`: vacuously true with no
inputs. -/
def anyInputFinished (inputs : List (List Nat × Slot)) : Bool :=
  if inputs.isEmpty then true
  else inputs.any (fun p => decide (p.2 = some none))

/-- Generations of the slots currently holding an item. -/
def slotGens (inputs : List (List Nat × Slot)) : List Nat :=
  inputs.filterMap (fun p =>
    match p.2 with
    | some (some hg) => some hg.2
    | _ => none)

/-- `IntersectNodeStream::update_current_generation`: the minimum of the
ready heads' generations. -/
def updateCurrentGeneration (s : IntState) : IntState :=
  if allInputsReady s.inputs then
    { s with currentGeneration := (slotGens s.inputs).min? }
  else s

/-- `*self.accumulator.entry(hash).or_insert(0) += 1`. -/
def accAdd (acc : List (Nat × Nat)) (h : Nat) : List (Nat × Nat) :=
  match acc with
  | [] => [(h, 1)]
  | (h', c) :: rest => if h' = h then (h', c + 1) :: rest else (h', c) :: accAdd rest h

/-- The loop body of `accumulate_nodes` over all inputs: an item slot at
exactly the current generation is counted; any item slot at the current
generation or higher is consumed (set back to `NotReady`); the returned
flag is `found_hashes`. -/
def accumulateStep (cur : Nat) :
    List (List Nat × Slot) → List (Nat × Nat) →
    List (List Nat × Slot) × List (Nat × Nat) × Bool
  | [], acc => ([], acc, false)
  | (rem, slot) :: rest, acc =>
    match slot with
    | some (some hg) =>
      let acc1 := if hg.2 = cur then accAdd acc hg.1 else acc
      if cur ≤ hg.2 then
        let r := accumulateStep cur rest acc1
        ((rem, none) :: r.1, r.2.1, true)
      else
        let r := accumulateStep cur rest acc1
        ((rem, slot) :: r.1, r.2.1, r.2.2)
    | _ =>
      let r := accumulateStep cur rest acc
      ((rem, slot) :: r.1, r.2.1, r.2.2)

/-- `IntersectNodeStream::accumulate_nodes`: when no input contributed at
the current generation, the generation is cleared. -/
def accumulateNodes (cur : Nat) (s : IntState) : IntState :=
  let r := accumulateStep cur s.inputs s.accumulator
  { s with
      inputs := r.1
      accumulator := r.2.1
      currentGeneration := if r.2.2 then s.currentGeneration else none }

/-- The drain-flushing `while` of `poll`: pop entries until one whose count
equals the number of inputs (yield it) or the drain is exhausted. -/
def drainGo (n : Nat) : List (Nat × Nat) → Option (Nat × List (Nat × Nat))
  | [] => none
  | (h, c) :: rest => if c = n then some (h, rest) else drainGo n rest

inductive IntStepRes : Type where
  | yield (h : Nat) (s : IntState)
  | finished
  | notReady (s : IntState)
  | cont (s : IntState)
  deriving DecidableEq, Repr

/-- The part of one `IntersectNodeStream::poll` loop iteration after the
drain flush: barrier on not-ready inputs, then either pick a new current
generation / flush the accumulator into the drain, or accumulate at the
current generation; finally the termination check.  (The error-propagation
step of the source is skipped: deterministic inputs never error.) -/
def intStepTail (s : IntState) : IntStepRes :=
  if allInputsReady s.inputs then
    let s' :=
      match s.currentGeneration with
      | none =>
        if s.accumulator.isEmpty then updateCurrentGeneration s
        else { s with drain := some s.accumulator, accumulator := [] }
      | some cur => accumulateNodes cur s
    if s'.drain = none ∧ s'.accumulator = [] ∧ anyInputFinished s'.inputs = true then .finished
    else .cont s'
  else .notReady s

/-- One iteration of the `loop` in `IntersectNodeStream::poll`. -/
def intStep (G : GenGraph) (s : IntState) : IntStepRes :=
  let s0 : IntState := { s with inputs := pollAllInputs G s.inputs }
  match s0.drain with
  | some d =>
    (match drainGo s0.inputs.length d with
     | some (h, d') => .yield h { s0 with drain := some d' }
     | none => intStepTail { s0 with drain := none })
  | none => intStepTail s0

/-- Iterate `intStep` up to `fuel` times, collecting yields; the flag
records whether end-of-stream was reached. -/
def intRunF (G : GenGraph) : Nat → IntState → List Nat × Bool
  | 0, _ => ([], false)
  | fuel + 1, s =>
    match intStep G s with
    | .yield h s' => let r := intRunF G fuel s'; (h :: r.1, r.2)
    | .finished => ([], true)
    | .notReady s' => intRunF G fuel s'
    | .cont s' => intRunF G fuel s'

/-- `IntersectNodeStream::new`: all slots start `NotReady`. -/
def intInit (streams : List (List Nat)) : IntState :=
  { inputs := streams.map (fun l => (l, none))
    currentGeneration := none
    accumulator := []
    drain := none }

/-- The full output of `AncestorsNodeStream` on a seed, given fuel. -/
def ancOutF (G : GenGraph) (fuel : Nat) (seed : Nat) : List Nat :=
  (ancRunF G fuel (ancInit G seed)).1

/-- `ancestors.rs` `common_ancestors`: the intersection of the ancestor
streams of the nodes. -/
def commonAncestorsRunF (G : GenGraph) (f1 f2 : Nat) (nodes : List Nat) : List Nat × Bool :=
  intRunF G f2 (intInit (nodes.map (ancOutF G f1)))

/-- `ancestors.rs` `greatest_common_ancestor`: `common_ancestors(...).take(1)`. -/
def gcaRunF (G : GenGraph) (f1 f2 : Nat) (nodes : List Nat) : List Nat :=
  (commonAncestorsRunF G f1 f2 nodes).1.take 1

/-- One top-level entry of `params`: the `alt!` of `param_star` and
`param_kv` (star tried first, its error falling through to `param_kv`). -/
def paramEntry : Bytes → PRes PEntries := fun xs =>
  match paramStar xs with
  | .done n kv => .done n kv
  | .incomplete => .incomplete
  | .error => paramKV xs

/-- Incremental stability of a parser at one input, the invariant behind
the nom combinators' restartability: a `Done` result has a threshold `T`
(at least its consumption) below which every truncation is `Incomplete`
and at or above which every truncation gives the same result; an
`Incomplete` or `Error` result stays `Incomplete` resp. never turns into
`Done` under truncation. -/
def IncrOn (p : Bytes → PRes α) (xs : Bytes) : Prop :=
  (∀ n v, p xs = .done n v →
     ∃ T, n ≤ T ∧
       (∀ k, k ≤ xs.length → k < T → p (xs.take k) = .incomplete) ∧
       (∀ k, k ≤ xs.length → T ≤ k → p (xs.take k) = .done n v)) ∧
  (p xs = .incomplete → ∀ k, k ≤ xs.length → p (xs.take k) = .incomplete) ∧
  (p xs = .error → ∀ k, k ≤ xs.length → p (xs.take k) = .error ∨ p (xs.take k) = .incomplete)

def Incr (p : Bytes → PRes α) : Prop := ∀ xs, IncrOn p xs



/-- All hashes held in the generation buckets. -/
def bucketElems (m : List (Nat × List Nat)) : List Nat := m.flatMap Prod.snd

/-- Well-formedness of the generation bucket map: distinct keys, and each
bucket non-empty, duplicate-free, holding exactly hashes of its
generation. -/
def AncMapWF (G : GenGraph) (m : List (Nat × List Nat)) : Prop :=
  (m.map Prod.fst).Nodup ∧
  ∀ g bkt, (g, bkt) ∈ m → bkt ≠ [] ∧ bkt.Nodup ∧ ∀ h ∈ bkt, G.gen h = g

/-- `ancRunF` factors through `k` polls that emit `out` and reach `s'`. -/
def AncRunsTo (G : GenGraph) (s : AncState) (k : Nat) (out : List Nat) (s' : AncState) : Prop :=
  ∀ f, ancRunF G (k + f) s = (out ++ (ancRunF G f s').1, (ancRunF G f s').2)

/-- The stream from `s` ends after emitting exactly `out`. -/
def AncDone (G : GenGraph) (s : AncState) (out : List Nat) : Prop :=
  ∃ k, ∀ f, ancRunF G (k + f) s = (out, true)

/-- The virtual remaining stream of one intersect input: a held item slot
still counts as the stream's head. -/
def vstream : List Nat × Slot → List Nat
  | (rem, some (some hg)) => hg.1 :: rem
  | (rem, _) => rem

/-- Well-formedness of one intersect input: slot generations are the cache
generations, an ended slot has no remainder, and the virtual stream is in
non-increasing generation order without duplicates. -/
def InpWF (G : GenGraph) (p : List Nat × Slot) : Prop :=
  (∀ hg, p.2 = some (some hg) → hg.2 = G.gen hg.1) ∧
  (p.2 = some none → p.1 = []) ∧
  List.Chain' (fun a b => G.gen b ≤ G.gen a) (vstream p) ∧ (vstream p).Nodup

/-- `intRunF` from `s` first emits `out` in `k` polls, reaching `s'`. -/
def IntRunsTo (G : GenGraph) (s : IntState) (k : Nat) (out : List Nat) (s' : IntState) : Prop :=
  ∀ f, intRunF G (k + f) s = (out ++ (intRunF G f s').1, (intRunF G f s').2)

/-- The intersect stream from `s` ends after emitting exactly `out`. -/
def IntDone (G : GenGraph) (s : IntState) (out : List Nat) : Prop :=
  ∃ k, ∀ f, intRunF G (k + f) s = (out, true)

/-- Count held for `x` in the accumulator (0 if absent). -/
def accLk (acc : List (Nat × Nat)) (x : Nat) : Nat :=
  match acc.find? (fun e => e.1 == x) with
  | some e => e.2
  | none => 0

/-- Functional form of slot consumption in `accumulate_nodes`. -/
def consumeSlot (b : Nat) (p : List Nat × Slot) : List Nat × Slot :=
  match p.2 with
  | some (some hg) => if b ≤ hg.2 then (p.1, none) else p
  | _ => p

/-- The hashes presented to the accumulator at generation `b`. -/
def presented (b : Nat) (inputs : List (List Nat × Slot)) : List Nat :=
  inputs.filterMap (fun p =>
    match p.2 with
    | some (some hg) => if hg.2 = b then some hg.1 else none
    | _ => none)

/-- Whether some held item has generation at least `b` (the
`found_hashes` flag). -/
def anyGe (b : Nat) (inputs : List (List Nat × Slot)) : Bool :=
  inputs.any (fun p =>
    match p.2 with
    | some (some hg) => decide (b ≤ hg.2)
    | _ => false)

/-- Per-input invariant during one barrier round at generation `b`:
the input is well-formed, the original virtual stream `o` is
generation-sorted, and the current virtual stream is a suffix of `o`
whose consumed prefix lies entirely at generation `b` or above. -/
def PerInp (G : GenGraph) (b : Nat) (o : List Nat) (p : List Nat × Slot) : Prop :=
  InpWF G p ∧
  List.Chain' (fun a c => G.gen c ≤ G.gen a) o ∧
  (∃ j, vstream p = o.drop j ∧ ∀ y ∈ o.take j, b ≤ G.gen y)

/-- Contribution of one input's held slot to `presented`. -/
def presHead (b : Nat) (p : List Nat × Slot) : List Nat :=
  match p.2 with
  | some (some hg) => if hg.2 = b then [hg.1] else []
  | _ => []

/-- The hashes the drain loop will yield: those whose count equals the
input count. -/
def flushOut (n : Nat) (d : List (Nat × Nat)) : List Nat :=
  (d.filter (fun e => e.2 == n)).map Prod.fst

/-- Helper graph for the stream witnesses: a three-node chain 2 → 1 → 0
with the identity generation function. -/
def cwGraph : GenGraph :=
  ⟨fun n => if n = 0 then [] else if n ≤ 2 then [n - 1] else [], fun n => n⟩


/-! ### Theorems -/

/-! Equation and inversion lemmas for the parser combinators. -/

theorem pbind_done {p : Bytes → PRes α} {q : α → Bytes → PRes β} {inp n a m b}
    (hp : p inp = .done n a) (hq : q a (inp.drop n) = .done m b) :
    pbind p q inp = .done (n + m) b := by
  simp [pbind, hp, hq]

theorem pbind_done_incomplete {p : Bytes → PRes α} {q : α → Bytes → PRes β} {inp n a}
    (hp : p inp = .done n a) (hq : q a (inp.drop n) = .incomplete) :
    pbind p q inp = .incomplete := by
  simp [pbind, hp, hq]

theorem pbind_done_error {p : Bytes → PRes α} {q : α → Bytes → PRes β} {inp n a}
    (hp : p inp = .done n a) (hq : q a (inp.drop n) = .error) :
    pbind p q inp = .error := by
  simp [pbind, hp, hq]

theorem pbind_incomplete {p : Bytes → PRes α} {q : α → Bytes → PRes β} {inp}
    (hp : p inp = .incomplete) : pbind p q inp = .incomplete := by
  simp [pbind, hp]

theorem pbind_error {p : Bytes → PRes α} {q : α → Bytes → PRes β} {inp}
    (hp : p inp = .error) : pbind p q inp = .error := by
  simp [pbind, hp]

theorem pbind_done_inv {p : Bytes → PRes α} {q : α → Bytes → PRes β} {inp n b}
    (h : pbind p q inp = .done n b) :
    ∃ n1 a n2, p inp = .done n1 a ∧ q a (inp.drop n1) = .done n2 b ∧ n = n1 + n2 := by
  unfold pbind at h
  split at h
  · next n1 a hp =>
    split at h
    · next n2 b2 hq => cases h; exact ⟨n1, a, n2, hp, hq, rfl⟩
    · cases h
    · cases h
  · cases h
  · cases h

theorem pbind_incomplete_inv {p : Bytes → PRes α} {q : α → Bytes → PRes β} {inp}
    (h : pbind p q inp = .incomplete) :
    p inp = .incomplete ∨ ∃ n a, p inp = .done n a ∧ q a (inp.drop n) = .incomplete := by
  unfold pbind at h
  split at h
  · next n1 a hp =>
    split at h
    · cases h
    · next hq => exact Or.inr ⟨n1, a, hp, hq⟩
    · cases h
  · next hp => exact Or.inl hp
  · cases h

theorem pbind_error_inv {p : Bytes → PRes α} {q : α → Bytes → PRes β} {inp}
    (h : pbind p q inp = .error) :
    p inp = .error ∨ ∃ n a, p inp = .done n a ∧ q a (inp.drop n) = .error := by
  unfold pbind at h
  split at h
  · next n1 a hp =>
    split at h
    · cases h
    · cases h
    · next hq => exact Or.inr ⟨n1, a, hp, hq⟩
  · cases h
  · next hp => exact Or.inl hp

theorem pmap_eq {p : Bytes → PRes α} {f : α → β} {inp} :
    pmap p f inp = match p inp with
      | .done n a => .done n (f a)
      | .incomplete => .incomplete
      | .error => .error := rfl

theorem pmap_done_inv {p : Bytes → PRes α} {f : α → β} {inp n b}
    (h : pmap p f inp = .done n b) : ∃ a, p inp = .done n a ∧ b = f a := by
  unfold pmap at h
  split at h
  · next n1 a hp => cases h; exact ⟨a, hp, rfl⟩
  · cases h
  · cases h

theorem pmap_incomplete_inv {p : Bytes → PRes α} {f : α → β} {inp}
    (h : pmap p f inp = .incomplete) : p inp = .incomplete := by
  unfold pmap at h
  split at h
  · cases h
  · next hp => exact hp
  · cases h

theorem pmap_error_inv {p : Bytes → PRes α} {f : α → β} {inp}
    (h : pmap p f inp = .error) : p inp = .error := by
  unfold pmap at h
  split at h
  · cases h
  · cases h
  · next hp => exact hp

/-- `tag!` consumes exactly the tag. -/
theorem tagP_done_inv {t inp : Bytes} {n : Nat} {v : Unit}
    (h : tagP t inp = .done n v) :
    n = t.length ∧ t.length ≤ inp.length ∧ inp.take t.length = t := by
  induction t generalizing inp n with
  | nil => cases h; exact ⟨rfl, by simp, by simp⟩
  | cons a ts ih =>
    cases inp with
    | nil => cases h
    | cons b bs =>
      unfold tagP at h
      split at h
      · next hab =>
        split at h
        · next m v2 ht =>
          cases h
          obtain ⟨h1, h2, h3⟩ := ih ht
          subst hab
          exact ⟨by simp [h1], by simpa using Nat.succ_le_succ h2, by simp [h3]⟩
        · cases h
        · cases h
      · cases h

/-- Converse: the tag parses at the front of any input extending it. -/
theorem tagP_done_of_take {t inp : Bytes}
    (hlen : t.length ≤ inp.length) (htake : inp.take t.length = t) :
    tagP t inp = .done t.length () := by
  induction t generalizing inp with
  | nil => rfl
  | cons a ts ih =>
    cases inp with
    | nil => simp at hlen
    | cons b bs =>
      simp only [List.length_cons, List.take_succ_cons, List.cons.injEq] at htake
      obtain ⟨hb, hts⟩ := htake
      have hl : ts.length ≤ bs.length := by simpa using hlen
      unfold tagP
      rw [if_pos hb.symm, ih hl hts]
      simp

theorem digitP_done_inv {isd : Nat → Bool} {inp : Bytes} {n : Nat} {v : Bytes}
    (h : digitP isd inp = .done n v) :
    1 ≤ n ∧ n ≤ inp.length ∧ n = (inp.takeWhile isd).length ∧ v = inp.take n := by
  simp only [digitP] at h
  split at h
  · cases h
  · split at h
    · cases h
    · next h2 =>
      cases h
      exact ⟨Nat.one_le_iff_ne_zero.mpr h2, (List.takeWhile_sublist _).length_le, rfl, rfl⟩

theorem identP_done_inv {inp : Bytes} {n : Nat} {v : Bytes}
    (h : identP inp = .done n v) : 1 ≤ n ∧ n ≤ inp.length := by
  cases inp with
  | nil => cases h
  | cons b bs =>
    simp only [identP] at h
    split at h
    · next hstart =>
      split at h
      · cases h
      · next hne =>
        cases h
        refine ⟨?_, (List.takeWhile_sublist _).length_le⟩
        have hc : isIdentCont b = true := by simp [isIdentCont, hstart]
        have hcons : (b :: bs).takeWhile isIdentCont = b :: bs.takeWhile isIdentCont := by
          simp [List.takeWhile_cons, hc]
        rw [hcons, List.length_cons]
        omega
    · cases h

/-! Consumption bounds and fuel irrelevance for `params`. -/

theorem takeP_done_inv {len : Nat} {inp : Bytes} {n : Nat} {v : Bytes}
    (h : takeP len inp = .done n v) : n = len ∧ len ≤ inp.length ∧ v = inp.take len := by
  unfold takeP at h
  split at h
  · next hle => cases h; exact ⟨rfl, hle, rfl⟩
  · cases h

theorem integerP_done_inv {inp : Bytes} {n : Nat} {v : Nat}
    (h : integerP inp = .done n v) : 1 ≤ n ∧ n ≤ inp.length := by
  obtain ⟨a, ha, rfl⟩ := pmap_done_inv h
  obtain ⟨h1, h2, _, _⟩ := digitP_done_inv ha
  exact ⟨h1, h2⟩

theorem starFront_done_inv {inp : Bytes} {n m : Nat}
    (h : starFront inp = .done n m) : 1 ≤ n ∧ n ≤ inp.length := by
  obtain ⟨n1, _, n2, h1, h2, rfl⟩ := pbind_done_inv h
  obtain ⟨hn1, hlen1, _⟩ := tagP_done_inv h1
  obtain ⟨n3, _, n4, h3, h4, rfl⟩ := pbind_done_inv h2
  obtain ⟨hn3, hlen3⟩ := integerP_done_inv h3
  obtain ⟨_, h5, rfl⟩ := pmap_done_inv h4
  obtain ⟨hn5, hlen5, _⟩ := tagP_done_inv h5
  simp only [List.length_drop] at hlen3 hlen5
  subst hn1 hn5
  simp only [List.length_cons, List.length_nil] at *
  omega

theorem kvFront_done_inv {inp : Bytes} {n : Nat} {v : Bytes × Nat}
    (h : kvFront inp = .done n v) : 1 ≤ n ∧ n ≤ inp.length := by
  obtain ⟨n1, _, n2, h1, h2, rfl⟩ := pbind_done_inv h
  obtain ⟨hn1a, hn1b⟩ := identP_done_inv h1
  obtain ⟨n3, _, n4, h3, h4, rfl⟩ := pbind_done_inv h2
  obtain ⟨hn3, hlen3, _⟩ := tagP_done_inv h3
  obtain ⟨n5, _, n6, h5, h6, rfl⟩ := pbind_done_inv h4
  obtain ⟨hn5a, hn5b⟩ := integerP_done_inv h5
  obtain ⟨_, h7, rfl⟩ := pmap_done_inv h6
  obtain ⟨hn7, hlen7, _⟩ := tagP_done_inv h7
  simp only [List.length_drop] at *
  subst hn7
  simp only [List.length_cons, List.length_nil] at *
  omega

theorem paramKV_done_inv {inp : Bytes} {n : Nat} {kv : PEntries}
    (h : paramKV inp = .done n kv) : 1 ≤ n ∧ n ≤ inp.length := by
  obtain ⟨n1, a, n2, h1, h2, rfl⟩ := pbind_done_inv h
  obtain ⟨hn1a, hn1b⟩ := kvFront_done_inv h1
  obtain ⟨_, h3, rfl⟩ := pmap_done_inv h2
  obtain ⟨rfl, hlen3, _⟩ := takeP_done_inv h3
  simp only [List.length_drop] at hlen3
  omega

/-- The fuel of `paramsF` is irrelevant once it exceeds the input length:
every recursive call strictly shrinks the input. -/
theorem paramsF_congr :
    ∀ (L : Nat) (inp : Bytes), inp.length ≤ L →
      ∀ f g count, inp.length < f → inp.length < g →
      paramsF f inp count = paramsF g inp count := by
  intro L
  induction L with
  | zero =>
    intro inp hL f g count hf hg
    have hnil : inp = [] := List.length_eq_zero.mp (Nat.le_zero.mp hL)
    subst hnil
    obtain ⟨f', rfl⟩ : ∃ f', f = f' + 1 := ⟨f - 1, by omega⟩
    obtain ⟨g', rfl⟩ : ∃ g', g = g' + 1 := ⟨g - 1, by omega⟩
    cases count with
    | zero => rfl
    | succ c =>
      have hsf : starFront ([] : Bytes) = .incomplete := rfl
      simp only [paramsF, pbind_incomplete hsf]
  | succ L ih =>
    intro inp hL f g count hf hg
    obtain ⟨f', rfl⟩ : ∃ f', f = f' + 1 := ⟨f - 1, by omega⟩
    obtain ⟨g', rfl⟩ : ∃ g', g = g' + 1 := ⟨g - 1, by omega⟩
    cases count with
    | zero => rfl
    | succ c =>
      have hstar : pbind starFront (fun m rest => paramsF f' rest m) inp
          = pbind starFront (fun m rest => paramsF g' rest m) inp := by
        cases hsf : starFront inp with
        | done ns m =>
          obtain ⟨hns, hnsle⟩ := starFront_done_inv hsf
          have hd : (inp.drop ns).length = inp.length - ns := by simp
          have heq : paramsF f' (inp.drop ns) m = paramsF g' (inp.drop ns) m := by
            have hd : (inp.drop ns).length = inp.length - ns := by simp
            apply ih _ (by omega) _ _ _ (by omega) (by omega)
          simp only [pbind, hsf, heq]
        | incomplete => rw [pbind_incomplete hsf, pbind_incomplete hsf]
        | error => rw [pbind_error hsf, pbind_error hsf]
      simp only [paramsF]
      rw [← hstar]
      cases hres : pbind starFront (fun m rest => paramsF f' rest m) inp with
      | done n kv =>
        simp only [hres]
        obtain ⟨n1, a, n2, h1, h2, hn⟩ := pbind_done_inv hres
        obtain ⟨hn1, hn1le⟩ := starFront_done_inv h1
        have hd : (inp.drop n).length = inp.length - n := by simp
        have heq2 : paramsF f' (inp.drop n) c = paramsF g' (inp.drop n) c := by
          apply ih _ (by omega) _ _ _ (by omega) (by omega)
        rw [heq2]
      | incomplete => simp only [hres]
      | error =>
        simp only [hres]
        cases hkv : paramKV inp with
        | done n kv =>
          simp only [hkv]
          obtain ⟨hn, hnle⟩ := paramKV_done_inv hkv
          have hd : (inp.drop n).length = inp.length - n := by simp
          have heq2 : paramsF f' (inp.drop n) c = paramsF g' (inp.drop n) c := by
            apply ih _ (by omega) _ _ _ (by omega) (by omega)
          rw [heq2]
        | incomplete => simp only [hkv]
        | error => simp only [hkv]

theorem paramsF_eq_params {f : Nat} {inp : Bytes} (hf : inp.length < f) (count : Nat) :
    paramsF f inp count = params inp count :=
  paramsF_congr inp.length inp (le_refl _) f (inp.length + 1) count hf (by omega)

theorem takeWhile_digits_append {isd : Nat → Bool} {ds : Bytes} {b : Nat} {body : Bytes}
    (hds : ∀ d ∈ ds, isd d = true) (hb : isd b = false) :
    (ds ++ b :: body).takeWhile isd = ds := by
  induction ds with
  | nil => simp [List.takeWhile_cons, hb]
  | cons d ds ih =>
    have hd : isd d = true := hds d (by simp)
    simp only [List.cons_append, List.takeWhile_cons, hd, if_true]
    rw [ih (fun x hx => hds x (by simp [hx]))]

theorem digitP_digits {ds body : Bytes} (hne : ds ≠ []) (hds : ∀ d ∈ ds, isDig d = true) :
    digitP isDig (ds ++ 10 :: body) = .done ds.length ds := by
  have htw : ((ds ++ 10 :: body).takeWhile isDig) = ds :=
    takeWhile_digits_append hds (by decide)
  have hlen : (ds ++ 10 :: body).length = ds.length + (body.length + 1) := by simp
  have htake : (ds ++ 10 :: body).take ds.length = ds := List.take_left ds (10 :: body)
  simp only [digitP, htw]
  rw [if_neg (by omega), if_neg (by simpa using hne), htake]

theorem integerP_digits {ds body : Bytes} (hne : ds ≠ []) (hds : ∀ d ∈ ds, isDig d = true) :
    integerP (ds ++ 10 :: body) = .done ds.length (decValue ds) := by
  unfold integerP
  simp only [pmap, digitP_digits hne hds]

theorem starFront_digits {ds body : Bytes} (hne : ds ≠ []) (hds : ∀ d ∈ ds, isDig d = true) :
    starFront (42 :: 32 :: (ds ++ 10 :: body)) = .done (ds.length + 3) (decValue ds) := by
  have h1 : tagP [42, 32] (42 :: 32 :: (ds ++ 10 :: body)) = .done 2 () := rfl
  have h2 : integerP (ds ++ 10 :: body) = .done ds.length (decValue ds) :=
    integerP_digits hne hds
  have hd2 : (ds ++ 10 :: body).drop ds.length = 10 :: body := by
    have h98 : (ds ++ 10 :: body).drop (ds.length + 0) = (10 :: body).drop 0 :=
      List.drop_append 0
    simpa using h98
  have hq2 : (fun m => pmap (tagP [10]) fun _ => m) (decValue ds) ((ds ++ 10 :: body).drop ds.length)
      = .done 1 (decValue ds) := by
    rw [hd2]; rfl
  have hin := pbind_done (q := fun m => pmap (tagP [10]) fun _ => m) h2 hq2
  have hq1 : (fun _ => pbind integerP fun m => pmap (tagP [10]) fun _ => m) ()
      ((42 :: 32 :: (ds ++ 10 :: body)).drop 2) = .done (ds.length + 1) (decValue ds) := hin
  have hall := pbind_done (q := fun _ => pbind integerP fun m => pmap (tagP [10]) fun _ => m) h1 hq1
  unfold starFront
  rw [hall]
  rw [show 2 + (ds.length + 1) = ds.length + 3 by omega]

theorem paramStar_digits {ds body : Bytes} (hne : ds ≠ []) (hds : ∀ d ∈ ds, isDig d = true) :
    paramStar (42 :: 32 :: (ds ++ 10 :: body)) =
      match params body (decValue ds) with
      | .done n2 kv2 => .done (ds.length + 3 + n2) kv2
      | .incomplete => .incomplete
      | .error => .error := by
  have hsf : starFront (42 :: 32 :: (ds ++ 10 :: body)) = .done (ds.length + 3) (decValue ds) :=
    starFront_digits hne hds
  have hdrop : (42 :: 32 :: (ds ++ 10 :: body)).drop (ds.length + 3) = body := by
    show (ds ++ 10 :: body).drop (ds.length + 1) = body
    have h98 : (ds ++ 10 :: body).drop (ds.length + 1) = (10 :: body).drop 1 :=
      List.drop_append 1
    simpa using h98
  unfold paramStar
  simp only [pbind, hsf, hdrop]
  cases params body (decValue ds) <;> rfl

theorem params_star_slot {inp : Bytes} {n : Nat} {kv : PEntries} (count : Nat)
    (h : paramStar inp = .done n kv) :
    params inp (count + 1) =
      match params (inp.drop n) count with
      | .done n2 kv2 => .done (n + n2) (kv ++ kv2)
      | .incomplete => .incomplete
      | .error => .error := by
  obtain ⟨n1, a, n2, h1, h2, hn⟩ := pbind_done_inv h
  obtain ⟨hn1, hn1le⟩ := starFront_done_inv h1
  have hlen1 : 1 ≤ inp.length := le_trans hn1 hn1le
  have hd1 : (inp.drop n1).length = inp.length - n1 := by simp
  have h2f : paramsF inp.length (inp.drop n1) a = .done n2 kv := by
    rw [paramsF_eq_params (by omega)]; exact h2
  have hpb : pbind starFront (fun m rest => paramsF inp.length rest m) inp = .done n kv := by
    have hx := pbind_done (q := fun m rest => paramsF inp.length rest m) h1 h2f
    rw [← hn] at hx
    exact hx
  show paramsF (inp.length + 1) inp (count + 1) = _
  simp only [paramsF, hpb]
  have hdn : (inp.drop n).length = inp.length - n := by simp
  rw [paramsF_eq_params (by omega)]
  all_goals cases params (inp.drop n) count <;> rfl

/-- C5: in the normal dialect a star entry `"* " M "\n"` followed by its
`M` recursively parsed entries consumes exactly one of the `count`
top-level slots of `params`, while every entry of its expansion is
inserted into the same map without counting against `count`; nested star
entries are accepted.  Part 1: a parsed star entry uses one slot and
contributes its whole expansion to the same entry list, the remaining
`count` slots continuing after it.  Part 2: a star entry is `"* "`, a
digit run, `"\n"`, then exactly that many further entries parsed by
`params` itself (so stars nest).  Part 3: the nested-star input
`"* 1\n* 1\nfoo 0\n"` is accepted as a single top-level entry. -/
theorem c5_star_meta_param :
    (∀ (inp : Bytes) (n : Nat) (kv : PEntries) (count : Nat),
        paramStar inp = .done n kv →
        params inp (count + 1) =
          match params (inp.drop n) count with
          | .done n2 kv2 => .done (n + n2) (kv ++ kv2)
          | .incomplete => .incomplete
          | .error => .error) ∧
    (∀ ds body : Bytes, ds ≠ [] → (∀ d ∈ ds, isDig d = true) →
        paramStar (42 :: 32 :: (ds ++ 10 :: body)) =
          match params body (decValue ds) with
          | .done n2 kv2 => .done (ds.length + 3 + n2) kv2
          | .incomplete => .incomplete
          | .error => .error) ∧
    params [42, 32, 49, 10, 42, 32, 49, 10, 102, 111, 111, 32, 48, 10] 1 =
      .done 14 [([102, 111, 111], [])] :=
  ⟨fun _ n kv count h => params_star_slot count h,
   fun _ _ hne hds => paramStar_digits hne hds,
   by decide⟩

/-- Witness for C5 at the concrete star entry `"* 0\n"`. -/
theorem c5_star_meta_param_witness :
    params [42, 32, 48, 10] 1 =
      match params (([42, 32, 48, 10] : Bytes).drop 4) 0 with
      | .done n2 kv2 => .done (4 + n2) (([] : PEntries) ++ kv2)
      | .incomplete => .incomplete
      | .error => .error :=
  c5_star_meta_param.1 [42, 32, 48, 10] 4 [] 0 (by decide)

/-- C6: for a required named field, request construction fails with an
error when the field key is absent from the decoded map, and when the
field sub-parser succeeds but leaves unconsumed trailing bytes in the
value; a failing constructor surfaces as a parse `Error`, never as
`Incomplete`. -/
theorem c6_required_field_errors :
    (∀ (α : Type) (m : PEntries) (key : Bytes) (p : Bytes → PRes α),
        mlookup m key = none → parseval m key p = none) ∧
    (∀ (α : Type) (m : PEntries) (key : Bytes) (p : Bytes → PRes α) (v : Bytes) (n : Nat) (w : α),
        mlookup m key = some v → p v = .done n w → n < v.length →
        parseval m key p = none) ∧
    (∀ (α : Type) (cmd : Bytes) (nargs : Nat) (func : PEntries → Option α)
        (inp : Bytes) (n : Nat) (kv : PEntries),
        commandFront cmd nargs inp = .done n kv → func kv = none →
        parseCommand cmd nargs func inp = .error) := by
  refine ⟨?_, ?_, ?_⟩
  · intro α m key p h
    unfold parseval
    rw [h]
  · intro α m key p v n w hm hp hn
    have hlen : (v.drop n).length = v.length - n := by simp
    have heof : matchEof (v.drop n) = .error := by
      unfold matchEof
      rw [if_neg (by omega)]
    simp only [parseval, hm, hp, heof]
  · intro α cmd nargs func inp n kv hfront hfunc
    unfold parseCommand
    refine pbind_done_error hfront ?_
    show liftOpt (func kv) _ = .error
    rw [hfunc]
    rfl

/-- Witness for C6: a missing `heads` key errors, and a `nodehash` value
with a trailing byte errors. -/
theorem c6_required_field_errors_witness :
    parseval ([] : PEntries) kHeads hashlistP = none ∧
    parseval [(kOld, List.replicate 41 48)] kOld nodehashP = none :=
  ⟨c6_required_field_errors.1 _ [] kHeads hashlistP (by decide),
   c6_required_field_errors.2.1 _ [(kOld, List.replicate 41 48)] kOld nodehashP
     (List.replicate 41 48) 40 (List.replicate 40 48) (by decide) (by decide) (by decide)⟩

/-- C8: for `getbundle`, all of `heads`, `common`, `bundlecaps` and
`listkeys` default to the empty list when their key is absent (via
`parseval_default`), and parsing the exact bytes `"getbundle\n* 0\n"`
yields a `Getbundle` request with all four fields empty, consuming the
whole buffer. -/
theorem c8_getbundle_defaults :
    (∀ (α : Type) [Inhabited α] (m : PEntries) (key : Bytes) (p : Bytes → PRes α),
        mlookup m key = none → parsevalDefault m key p = some default) ∧
    parseBytes (bGetbundle ++ [10, 42, 32, 48, 10]) =
      .ok (some (.getbundle [] [] [] []), []) := by
  constructor
  · intro α _ m key p h
    unfold parsevalDefault
    rw [h]
  · rfl

/-- Witness for C8: a map without `heads` yields the empty hash list. -/
theorem c8_getbundle_defaults_witness :
    parsevalDefault ([] : PEntries) kHeads hashlistP = some ([] : List Bytes) :=
  c8_getbundle_defaults.1 _ [] kHeads hashlistP (by decide)

/-- C10: an `IntersectNodeStream` over an empty collection of inputs
finishes on its very first poll: the step is `finished` (ready
end-of-stream), not an error and not not-ready, and one unit of fuel
already produces the final empty output. -/
theorem c10_empty_intersect (G : GenGraph) :
    intStep G (intInit []) = .finished ∧ intRunF G 1 (intInit []) = ([], true) :=
  ⟨rfl, rfl⟩

theorem incrOn_pbind {p : Bytes → PRes α} {q : α → Bytes → PRes β} {xs : Bytes}
    (hp : IncrOn p xs)
    (hq : ∀ n a, p xs = .done n a → IncrOn (q a) (xs.drop n)) :
    IncrOn (pbind p q) xs := by
  have hdl : ∀ n1, (xs.drop n1).length = xs.length - n1 := fun n1 => by simp
  have htd : ∀ k n1, (xs.take k).drop n1 = (xs.drop n1).take (k - n1) :=
    fun k n1 => List.drop_take k n1 xs
  refine ⟨?_, ?_, ?_⟩
  · intro n b h
    obtain ⟨n1, a, n2, h1, h2, hn⟩ := pbind_done_inv h
    obtain ⟨T1, hT1n, hT1inc, hT1done⟩ := hp.1 n1 a h1
    obtain ⟨T2, hT2n, hT2inc, hT2done⟩ := (hq n1 a h1).1 n2 b h2
    refine ⟨max T1 (n1 + T2), by omega, ?_, ?_⟩
    · intro k hk hkT
      rcases Nat.lt_or_ge k T1 with hlt | hge
      · exact pbind_incomplete (hT1inc k hk hlt)
      · have hdone := hT1done k hk hge
        have hq2 : q a ((xs.take k).drop n1) = .incomplete := by
          rw [htd k n1]
          exact hT2inc (k - n1) (by rw [hdl]; omega) (by omega)
        exact pbind_done_incomplete hdone hq2
    · intro k hk hkT
      have hdone := hT1done k hk (by omega)
      have hq2 : q a ((xs.take k).drop n1) = .done n2 b := by
        rw [htd k n1]
        exact hT2done (k - n1) (by rw [hdl]; omega) (by omega)
      rw [hn]
      exact pbind_done hdone hq2
  · intro h k hk
    rcases pbind_incomplete_inv h with h1 | ⟨n1, a, h1, h2⟩
    · exact pbind_incomplete (hp.2.1 h1 k hk)
    · obtain ⟨T1, hT1n, hT1inc, hT1done⟩ := hp.1 n1 a h1
      rcases Nat.lt_or_ge k T1 with hlt | hge
      · exact pbind_incomplete (hT1inc k hk hlt)
      · have hdone := hT1done k hk hge
        have hq2 : q a ((xs.take k).drop n1) = .incomplete := by
          rw [htd k n1]
          exact (hq n1 a h1).2.1 h2 (k - n1) (by rw [hdl]; omega)
        exact pbind_done_incomplete hdone hq2
  · intro h k hk
    rcases pbind_error_inv h with h1 | ⟨n1, a, h1, h2⟩
    · rcases hp.2.2 h1 k hk with he | hi
      · exact Or.inl (pbind_error he)
      · exact Or.inr (pbind_incomplete hi)
    · obtain ⟨T1, hT1n, hT1inc, hT1done⟩ := hp.1 n1 a h1
      rcases Nat.lt_or_ge k T1 with hlt | hge
      · exact Or.inr (pbind_incomplete (hT1inc k hk hlt))
      · have hdone := hT1done k hk hge
        have hq2 := (hq n1 a h1).2.2 h2 (k - n1) (by rw [hdl]; omega)
        rw [← htd k n1] at hq2
        rcases hq2 with he | hi
        · exact Or.inl (pbind_done_error hdone he)
        · exact Or.inr (pbind_done_incomplete hdone hi)

theorem incrOn_pmap {p : Bytes → PRes α} {f : α → β} {xs : Bytes}
    (hp : IncrOn p xs) : IncrOn (pmap p f) xs := by
  refine ⟨?_, ?_, ?_⟩
  · intro n b h
    obtain ⟨a, ha, rfl⟩ := pmap_done_inv h
    obtain ⟨T, hTn, hTinc, hTdone⟩ := hp.1 n a ha
    refine ⟨T, hTn, ?_, ?_⟩
    · intro k hk hkT
      simp [pmap, hTinc k hk hkT]
    · intro k hk hkT
      simp [pmap, hTdone k hk hkT]
  · intro h k hk
    simp [pmap, hp.2.1 (pmap_incomplete_inv h) k hk]
  · intro h k hk
    rcases hp.2.2 (pmap_error_inv h) k hk with he | hi
    · exact Or.inl (by simp [pmap, he])
    · exact Or.inr (by simp [pmap, hi])

theorem pmapRes_done_inv {p : Bytes → PRes α} {f : α → Option β} {inp n b}
    (h : pmapRes p f inp = .done n b) : ∃ a, p inp = .done n a ∧ f a = some b := by
  unfold pmapRes at h
  split at h
  · next n1 a ha =>
    split at h
    · next hb => cases h; exact ⟨a, ha, hb⟩
    · cases h
  · cases h
  · cases h

theorem pmapRes_incomplete_inv {p : Bytes → PRes α} {f : α → Option β} {inp}
    (h : pmapRes p f inp = .incomplete) : p inp = .incomplete := by
  unfold pmapRes at h
  split at h
  · next n1 a ha =>
    split at h
    · cases h
    · cases h
  · next ha => exact ha
  · cases h

theorem pmapRes_error_inv {p : Bytes → PRes α} {f : α → Option β} {inp}
    (h : pmapRes p f inp = .error) :
    p inp = .error ∨ ∃ n a, p inp = .done n a ∧ f a = none := by
  unfold pmapRes at h
  split at h
  · next n1 a ha =>
    split at h
    · cases h
    · next hb => exact Or.inr ⟨n1, a, ha, hb⟩
  · cases h
  · next ha => exact Or.inl ha

theorem pmapRes_of_done {p : Bytes → PRes α} {f : α → Option β} {inp n a}
    (ha : p inp = .done n a) :
    pmapRes p f inp = (match f a with | some b => .done n b | none => .error) := by
  simp only [pmapRes, ha]
  all_goals cases f a <;> rfl

theorem pmapRes_of_incomplete {p : Bytes → PRes α} {f : α → Option β} {inp}
    (ha : p inp = .incomplete) : pmapRes p f inp = .incomplete := by
  simp [pmapRes, ha]

theorem pmapRes_of_error {p : Bytes → PRes α} {f : α → Option β} {inp}
    (ha : p inp = .error) : pmapRes p f inp = .error := by
  simp [pmapRes, ha]

theorem incrOn_pmapRes {p : Bytes → PRes α} {f : α → Option β} {xs : Bytes}
    (hp : IncrOn p xs) : IncrOn (pmapRes p f) xs := by
  refine ⟨?_, ?_, ?_⟩
  · intro n b h
    obtain ⟨a, ha, hb⟩ := pmapRes_done_inv h
    obtain ⟨T, hTn, hTinc, hTdone⟩ := hp.1 n a ha
    refine ⟨T, hTn, ?_, ?_⟩
    · intro k hk hkT
      rw [pmapRes_of_incomplete (hTinc k hk hkT)]
    · intro k hk hkT
      rw [pmapRes_of_done (hTdone k hk hkT), hb]
  · intro h k hk
    rw [pmapRes_of_incomplete (hp.2.1 (pmapRes_incomplete_inv h) k hk)]
  · intro h k hk
    rcases pmapRes_error_inv h with ha | ⟨n, a, ha, hb⟩
    · rcases hp.2.2 ha k hk with he | hi
      · exact Or.inl (pmapRes_of_error he)
      · exact Or.inr (pmapRes_of_incomplete hi)
    · obtain ⟨T, hTn, hTinc, hTdone⟩ := hp.1 n a ha
      rcases Nat.lt_or_ge k T with hlt | hge
      · exact Or.inr (pmapRes_of_incomplete (hTinc k hk hlt))
      · refine Or.inl ?_
        rw [pmapRes_of_done (hTdone k hk hge), hb]

theorem tagP_incomplete_of_prefix {t inp : Bytes}
    (hlen : inp.length < t.length) (hpre : inp = t.take inp.length) :
    tagP t inp = .incomplete := by
  induction t generalizing inp with
  | nil => simp at hlen
  | cons a ts ih =>
    cases inp with
    | nil => rfl
    | cons b bs =>
      simp only [List.length_cons, List.take_succ_cons, List.cons.injEq] at hpre
      obtain ⟨hb, hbs⟩ := hpre
      have : tagP ts bs = .incomplete := ih (by simpa using hlen) hbs
      unfold tagP
      rw [if_pos hb.symm, this]

theorem tagP_incomplete_inv {t inp : Bytes} (h : tagP t inp = .incomplete) :
    inp.length < t.length ∧ inp = t.take inp.length := by
  induction t generalizing inp with
  | nil => cases h
  | cons a ts ih =>
    cases inp with
    | nil =>
      constructor
      · simp
      · rfl
    | cons b bs =>
      unfold tagP at h
      split at h
      · next hab =>
        split at h
        · cases h
        · next hts =>
          obtain ⟨h1, h2⟩ := ih hts
          subst hab
          refine ⟨by simpa using h1, ?_⟩
          simpa using h2
        · cases h
      · cases h

theorem incr_tagP (t : Bytes) : Incr (tagP t) := by
  intro xs
  refine ⟨?_, ?_, ?_⟩
  · intro n v h
    obtain ⟨hn, hlen, htake⟩ := tagP_done_inv h
    refine ⟨n, le_refl n, ?_, ?_⟩
    · intro k hk hkT
      apply tagP_incomplete_of_prefix
      · simpa [hk] using (by omega : k < t.length)
      · have h1 : (xs.take k).length = k := by simp [hk]
        rw [h1]
        have h2 : xs.take k = (xs.take t.length).take k := by
          rw [List.take_take]
          congr 1
          omega
        rw [h2, htake]
    · intro k hk hkT
      have h2 : (xs.take k).take t.length = t := by
        rw [List.take_take]
        rw [show min t.length k = t.length by omega]
        exact htake
      have h3 : t.length ≤ (xs.take k).length := by simp [hk]; omega
      have := tagP_done_of_take h3 h2
      rw [this, hn]
  · intro h k hk
    obtain ⟨hlen, hpre⟩ := tagP_incomplete_inv h
    apply tagP_incomplete_of_prefix
    · simp [hk]; omega
    · have h1 : (xs.take k).length = k := by simp [hk]
      rw [h1]
      calc xs.take k = (t.take xs.length).take k := by rw [← hpre]
        _ = t.take (min k xs.length) := by rw [List.take_take]
        _ = t.take k := by congr 1; omega
  · intro h k hk
    cases h2 : tagP t (xs.take k) with
    | done n v =>
      obtain ⟨hn, hlen, htake⟩ := tagP_done_inv h2
      have h3 : xs.take t.length = t := by
        have : t.length ≤ k := le_trans hlen (by simp [hk])
        calc xs.take t.length = (xs.take k).take t.length := by
              rw [List.take_take]; congr 1; omega
          _ = t := htake
      have h4 : t.length ≤ xs.length := by
        have : t.length ≤ k := le_trans hlen (by simp [hk])
        omega
      rw [tagP_done_of_take h4 h3] at h
      cases h
    | incomplete => exact Or.inr rfl
    | error => exact Or.inl rfl

theorem incr_takeP (len : Nat) : Incr (takeP len) := by
  intro xs
  refine ⟨?_, ?_, ?_⟩
  · intro n v h
    unfold takeP at h
    split at h
    · next hle =>
      cases h
      refine ⟨len, le_refl _, ?_, ?_⟩
      · intro k hk hkT
        unfold takeP
        rw [if_neg (by simp [hk]; omega)]
      · intro k hk hkT
        unfold takeP
        rw [if_pos (by simp [hk]; omega)]
        congr 1
        rw [List.take_take]
        congr 1
        omega
    · cases h
  · intro h k hk
    unfold takeP at h
    split at h
    · cases h
    · next hgt =>
      unfold takeP
      rw [if_neg (by simp [hk]; omega)]
  · intro h k hk
    unfold takeP at h
    split at h <;> cases h

theorem incr_digitP (isd : Nat → Bool) : Incr (digitP isd) := by
  intro xs
  have htw : ∀ k, (xs.take k).takeWhile isd = (xs.takeWhile isd).take k :=
    fun k => (List.take_takeWhile isd k).symm
  refine ⟨?_, ?_, ?_⟩
  · intro n v h
    simp only [digitP] at h
    split at h
    · cases h
    · next h1 =>
      split at h
      · cases h
      · next h2 =>
        cases h
        have hlt : (xs.takeWhile isd).length < xs.length :=
          lt_of_le_of_ne (List.takeWhile_sublist _).length_le h1
        refine ⟨(xs.takeWhile isd).length + 1, by omega, ?_, ?_⟩
        · intro k hk hkT
          have c1 : ((xs.take k).takeWhile isd).length = (xs.take k).length := by
            rw [htw k, List.length_take, List.length_take]
            omega
          simp only [digitP]
          rw [if_pos c1]
        · intro k hk hkT
          have hlen1 : ((xs.take k).takeWhile isd).length = (xs.takeWhile isd).length := by
            rw [htw k, List.length_take]
            omega
          have c1 : ¬ ((xs.take k).takeWhile isd).length = (xs.take k).length := by
            rw [hlen1, List.length_take]
            omega
          have c2 : ¬ ((xs.take k).takeWhile isd).length = 0 := by
            rw [hlen1]
            omega
          simp only [digitP]
          rw [if_neg c1, if_neg c2, hlen1]
          congr 1
          rw [List.take_take]
          congr 1
          omega
  · intro h k hk
    simp only [digitP] at h
    split at h
    · next h1 =>
      have c1 : ((xs.take k).takeWhile isd).length = (xs.take k).length := by
        rw [htw k, List.length_take, List.length_take, h1]
      simp only [digitP]
      rw [if_pos c1]
    · split at h <;> cases h
  · intro h k hk
    simp only [digitP] at h
    split at h
    · cases h
    · next h1 =>
      split at h
      · next h2 =>
        rcases Nat.eq_zero_or_pos k with rfl | hkpos
        · exact Or.inr (by simp [digitP])
        · have hlen1 : ((xs.take k).takeWhile isd).length = 0 := by
            rw [htw k, List.length_take, h2]
            simp
          refine Or.inl ?_
          simp only [digitP]
          rw [if_neg (by rw [hlen1, List.length_take]; omega), if_pos hlen1]
      · cases h

theorem identP_cons (b : Nat) (bs : Bytes) :
    identP (b :: bs) =
      if isIdentStart b then
        (if ((b :: bs).takeWhile isIdentCont).length = (b :: bs).length
         then .incomplete
         else .done ((b :: bs).takeWhile isIdentCont).length
                ((b :: bs).take ((b :: bs).takeWhile isIdentCont).length))
      else .error := rfl

theorem incr_identP : Incr identP := by
  intro xs
  have htw : ∀ k, (xs.take k).takeWhile isIdentCont = (xs.takeWhile isIdentCont).take k :=
    fun k => (List.take_takeWhile isIdentCont k).symm
  cases xs with
  | nil =>
    refine ⟨?_, ?_, ?_⟩
    · intro n v h
      cases h
    · intro h k hk
      have : k = 0 := by simpa using hk
      subst this
      rfl
    · intro h k hk
      cases h
  | cons b bs =>
    have hcons : ∀ k', (b :: bs).take (k' + 1) = b :: bs.take k' := fun _ => rfl
    refine ⟨?_, ?_, ?_⟩
    · intro n v h
      rw [identP_cons] at h
      split at h
      · next hstart =>
        split at h
        · cases h
        · next h1 =>
          cases h
          have hlt : ((b :: bs).takeWhile isIdentCont).length < (b :: bs).length :=
            lt_of_le_of_ne (List.takeWhile_sublist _).length_le h1
          refine ⟨((b :: bs).takeWhile isIdentCont).length + 1, by omega, ?_, ?_⟩
          · intro k hk hkT
            rcases Nat.eq_zero_or_pos k with rfl | hkpos
            · rfl
            · obtain ⟨k', rfl⟩ : ∃ k', k = k' + 1 := ⟨k - 1, by omega⟩
              rw [hcons k', identP_cons, if_pos hstart, ← hcons k']
              have c1 : (((b :: bs).take (k' + 1)).takeWhile isIdentCont).length
                  = ((b :: bs).take (k' + 1)).length := by
                rw [htw (k' + 1), List.length_take, List.length_take]
                omega
              rw [if_pos c1]
          · intro k hk hkT
            obtain ⟨k', rfl⟩ : ∃ k', k = k' + 1 := ⟨k - 1, by omega⟩
            rw [hcons k', identP_cons, if_pos hstart, ← hcons k']
            have hlen1 : (((b :: bs).take (k' + 1)).takeWhile isIdentCont).length
                = ((b :: bs).takeWhile isIdentCont).length := by
              rw [htw (k' + 1), List.length_take]
              omega
            have c1 : ¬ (((b :: bs).take (k' + 1)).takeWhile isIdentCont).length
                = ((b :: bs).take (k' + 1)).length := by
              rw [hlen1, List.length_take]
              omega
            rw [if_neg c1, hlen1]
            congr 1
            rw [List.take_take]
            congr 1
            omega
      · cases h
    · intro h k hk
      rw [identP_cons] at h
      split at h
      · next hstart =>
        split at h
        · next h1 =>
          rcases Nat.eq_zero_or_pos k with rfl | hkpos
          · rfl
          · obtain ⟨k', rfl⟩ : ∃ k', k = k' + 1 := ⟨k - 1, by omega⟩
            rw [hcons k', identP_cons, if_pos hstart, ← hcons k']
            have c1 : (((b :: bs).take (k' + 1)).takeWhile isIdentCont).length
                = ((b :: bs).take (k' + 1)).length := by
              rw [htw (k' + 1), List.length_take, List.length_take, h1]
            rw [if_pos c1]
        · cases h
      · cases h
    · intro h k hk
      rw [identP_cons] at h
      split at h
      · next hstart =>
        split at h <;> cases h
      · next hstart =>
        rcases Nat.eq_zero_or_pos k with rfl | hkpos
        · exact Or.inr rfl
        · obtain ⟨k', rfl⟩ : ∃ k', k = k' + 1 := ⟨k - 1, by omega⟩
          refine Or.inl ?_
          rw [hcons k', identP_cons, if_neg hstart]

theorem incr_pbind {p : Bytes → PRes α} {q : α → Bytes → PRes β}
    (hp : Incr p) (hq : ∀ a, Incr (q a)) : Incr (pbind p q) :=
  fun xs => incrOn_pbind (hp xs) (fun n a _ => hq a (xs.drop n))

theorem incr_pmap {p : Bytes → PRes α} (f : α → β) (hp : Incr p) : Incr (pmap p f) :=
  fun xs => incrOn_pmap (hp xs)

theorem incr_pmapRes {p : Bytes → PRes α} (f : α → Option β) (hp : Incr p) :
    Incr (pmapRes p f) :=
  fun xs => incrOn_pmapRes (hp xs)

theorem incr_integerP : Incr integerP := incr_pmap _ (incr_digitP isDig)

theorem incr_starFront : Incr starFront :=
  incr_pbind (incr_tagP [42, 32]) fun _ =>
    incr_pbind incr_integerP fun m => incr_pmap _ (incr_tagP [10])

theorem incr_kvFront : Incr kvFront :=
  incr_pbind incr_identP fun key =>
    incr_pbind (incr_tagP [32]) fun _ =>
      incr_pbind incr_integerP fun len => incr_pmap _ (incr_tagP [10])

theorem incr_paramKV : Incr paramKV :=
  incr_pbind incr_kvFront fun kl => incr_pmap _ (incr_takeP kl.2)

theorem incr_liftOpt (r : Option α) : Incr (liftOpt r) := by
  intro xs
  refine ⟨?_, ?_, ?_⟩
  · intro n v h
    cases r with
    | some w =>
      cases h
      exact ⟨0, le_refl _, fun k hk hkT => by omega, fun k hk hkT => rfl⟩
    | none => cases h
  · intro h k hk
    cases r <;> cases h
  · intro h k hk
    cases r with
    | some w => cases h
    | none => exact Or.inl rfl

theorem incrOn_congr {p p' : Bytes → PRes α} (h : ∀ i, p i = p' i) {xs : Bytes}
    (hp : IncrOn p xs) : IncrOn p' xs := by
  refine ⟨?_, ?_, ?_⟩
  · intro n v hd
    obtain ⟨T, hTn, hTinc, hTdone⟩ := hp.1 n v (by rw [h]; exact hd)
    exact ⟨T, hTn, fun k hk hkT => by rw [← h]; exact hTinc k hk hkT,
           fun k hk hkT => by rw [← h]; exact hTdone k hk hkT⟩
  · intro hd k hk
    rw [← h]
    exact hp.2.1 (by rw [h]; exact hd) k hk
  · intro hd k hk
    rcases hp.2.2 (by rw [h]; exact hd) k hk with he | hi
    · exact Or.inl (by rw [← h]; exact he)
    · exact Or.inr (by rw [← h]; exact hi)

theorem paramStar_done_lb {xs : Bytes} {n : Nat} {kv : PEntries}
    (h : paramStar xs = .done n kv) : 1 ≤ n ∧ 1 ≤ xs.length := by
  obtain ⟨n1, a, n2, h1, h2, hn⟩ := pbind_done_inv h
  obtain ⟨hn1, hn1le⟩ := starFront_done_inv h1
  omega

theorem params_succ (xs : Bytes) (c : Nat) :
    params xs (c + 1) =
      pbind paramEntry (fun kv => pmap (fun rest => params rest c) (fun kv2 => kv ++ kv2)) xs := by
  show paramsF (xs.length + 1) xs (c + 1) = _
  simp only [paramsF]
  have hstar : pbind starFront (fun m rest => paramsF xs.length rest m) xs = paramStar xs := by
    cases hsf : starFront xs with
    | done ns m =>
      obtain ⟨hns, hnsle⟩ := starFront_done_inv hsf
      have hd : (xs.drop ns).length = xs.length - ns := by simp
      have heq : paramsF xs.length (xs.drop ns) m = params (xs.drop ns) m :=
        paramsF_eq_params (by omega) m
      unfold paramStar
      simp only [pbind, hsf, heq]
    | incomplete =>
      unfold paramStar
      rw [pbind_incomplete hsf, pbind_incomplete hsf]
    | error =>
      unfold paramStar
      rw [pbind_error hsf, pbind_error hsf]
  rw [hstar]
  cases hps : paramStar xs with
  | done n kv =>
    obtain ⟨hn, hxs⟩ := paramStar_done_lb hps
    have hd : (xs.drop n).length = xs.length - n := by simp
    have heq : paramsF xs.length (xs.drop n) c = params (xs.drop n) c :=
      paramsF_eq_params (by omega) c
    simp only [heq, pbind, pmap, paramEntry, hps]
    cases params (xs.drop n) c <;> rfl
  | incomplete =>
    simp only [pbind, paramEntry, hps]
  | error =>
    simp only [pbind, paramEntry, hps]
    cases hkv : paramKV xs with
    | done n kv =>
      obtain ⟨hn, hnle⟩ := paramKV_done_inv hkv
      have hd : (xs.drop n).length = xs.length - n := by simp
      have heq : paramsF xs.length (xs.drop n) c = params (xs.drop n) c :=
        paramsF_eq_params (by omega) c
      simp only [heq, pmap]
      cases params (xs.drop n) c <;> rfl
    | incomplete => rfl
    | error => rfl

theorem params_consumes :
    ∀ (L : Nat) (xs : Bytes), xs.length ≤ L → ∀ count n v,
      params xs count = .done n v → n ≤ xs.length := by
  intro L
  induction L with
  | zero =>
    intro xs hL count n v h
    have hnil : xs = [] := List.length_eq_zero.mp (Nat.le_zero.mp hL)
    subst hnil
    cases count with
    | zero => cases h; simp
    | succ c =>
      rw [params_succ] at h
      have hsf : starFront ([] : Bytes) = .incomplete := rfl
      have hst : paramStar ([] : Bytes) = .incomplete := pbind_incomplete hsf
      have hent : paramEntry ([] : Bytes) = .incomplete := by
        unfold paramEntry
        rw [hst]
      rw [pbind_incomplete hent] at h
      cases h
  | succ L ih =>
    intro xs hL count n v h
    cases count with
    | zero => cases h; simp
    | succ c =>
      rw [params_succ] at h
      obtain ⟨n1, kv1, n2, h1, h2, hn⟩ := pbind_done_inv h
      obtain ⟨a2, h2d, rfl⟩ := pmap_done_inv h2
      have hent1 : 1 ≤ n1 ∧ 1 ≤ xs.length := by
        unfold paramEntry at h1
        split at h1
        · next hps => cases h1; exact paramStar_done_lb hps
        · cases h1
        · next hps =>
          obtain ⟨ha, hb⟩ := paramKV_done_inv h1
          exact ⟨ha, by omega⟩
      have hd : (xs.drop n1).length = xs.length - n1 := by simp
      have hn2 : n2 ≤ (xs.drop n1).length := ih (xs.drop n1) (by omega) c n2 a2 h2d
      -- n1 itself is bounded by xs.length
      have hn1le : n1 ≤ xs.length := by
        unfold paramEntry at h1
        split at h1
        · next hps =>
          cases h1
          obtain ⟨m1, b1, m2, hh1, hh2, hm⟩ := pbind_done_inv hps
          obtain ⟨hm1, hm1le⟩ := starFront_done_inv hh1
          have hdd : (xs.drop m1).length = xs.length - m1 := by simp
          have := ih (xs.drop m1) (by omega) b1 m2 _ hh2
          omega
        · cases h1
        · next hps => exact (paramKV_done_inv h1).2
      omega

theorem paramStar_done_pos {xs : Bytes} {n : Nat} {kv : PEntries}
    (h : paramStar xs = .done n kv) : 1 ≤ n ∧ n ≤ xs.length := by
  obtain ⟨n1, a, n2, h1, h2, hn⟩ := pbind_done_inv h
  obtain ⟨hn1, hn1le⟩ := starFront_done_inv h1
  have hd : (xs.drop n1).length = xs.length - n1 := by simp
  have hn2 := params_consumes (xs.drop n1).length (xs.drop n1) (le_refl _) a n2 _ h2
  omega

theorem paramEntry_done_pos {xs : Bytes} {n : Nat} {kv : PEntries}
    (h : paramEntry xs = .done n kv) : 1 ≤ n ∧ n ≤ xs.length := by
  unfold paramEntry at h
  split at h
  · next hps => cases h; exact paramStar_done_pos hps
  · cases h
  · next hps => exact paramKV_done_inv h

theorem paramStar_cons_error {b : Nat} {r : Bytes} (hb : ¬ b = 42) :
    paramStar (b :: r) = .error := by
  have h1 : tagP [42, 32] (b :: r) = .error := by
    unfold tagP
    rw [if_neg (fun hx => hb hx.symm)]
  have h2 : starFront (b :: r) = .error := pbind_error h1
  exact pbind_error h2

theorem identP_done_head {xs : Bytes} {n : Nat} {v : Bytes}
    (h : identP xs = .done n v) :
    ∃ b rest, xs = b :: rest ∧ isIdentStart b = true := by
  cases xs with
  | nil => cases h
  | cons b bs =>
    refine ⟨b, bs, rfl, ?_⟩
    simp only [identP] at h
    split at h
    · next hs => exact hs
    · cases h

theorem paramKV_done_head {xs : Bytes} {n : Nat} {kv : PEntries}
    (h : paramKV xs = .done n kv) :
    ∃ b rest, xs = b :: rest ∧ isIdentStart b = true := by
  obtain ⟨n1, a, n2, h1, h2, hn⟩ := pbind_done_inv h
  obtain ⟨n3, a3, n4, h3, h4, hn3⟩ := pbind_done_inv h1
  exact identP_done_head h3

theorem params_zero (xs : Bytes) : params xs 0 = .done 0 [] := rfl

theorem incrOn_paramEntry {xs : Bytes} (hstarOn : IncrOn paramStar xs) :
    IncrOn paramEntry xs := by
  have hkvOn : IncrOn paramKV xs := incr_paramKV xs
  refine ⟨?_, ?_, ?_⟩
  · intro n kv h
    unfold paramEntry at h
    split at h
    · next hps =>
      cases h
      obtain ⟨T, hTn, hTinc, hTdone⟩ := hstarOn.1 _ _ hps
      refine ⟨T, hTn, ?_, ?_⟩
      · intro k hk hkT
        simp only [paramEntry, hTinc k hk hkT]
      · intro k hk hkT
        simp only [paramEntry, hTdone k hk hkT]
    · cases h
    · next hps =>
      obtain ⟨T, hTn, hTinc, hTdone⟩ := hkvOn.1 n kv h
      obtain ⟨b, rest, hxs, hbstart⟩ := paramKV_done_head h
      have hb42 : ¬ b = 42 := by
        intro hb
        subst hb
        exact absurd hbstart (by decide)
      obtain ⟨hn1, hnle⟩ := paramKV_done_inv h
      refine ⟨T, hTn, ?_, ?_⟩
      · intro k hk hkT
        rcases hstarOn.2.2 hps k hk with he | hi
        · simp only [paramEntry, he, hTinc k hk hkT]
        · simp only [paramEntry, hi]
      · intro k hk hkT
        have hk1 : 1 ≤ k := by omega
        have hform : xs.take k = b :: rest.take (k - 1) := by
          subst hxs
          obtain ⟨k2, rfl⟩ : ∃ k2, k = k2 + 1 := ⟨k - 1, by omega⟩
          rfl
        have hse : paramStar (xs.take k) = .error := by
          rw [hform]
          exact paramStar_cons_error hb42
        simp only [paramEntry, hse, hTdone k hk hkT]
  · intro h k hk
    unfold paramEntry at h
    split at h
    · cases h
    · next hps =>
      simp only [paramEntry, hstarOn.2.1 hps k hk]
    · next hps =>
      rcases hstarOn.2.2 hps k hk with he | hi
      · simp only [paramEntry, he, hkvOn.2.1 h k hk]
      · simp only [paramEntry, hi]
  · intro h k hk
    unfold paramEntry at h
    split at h
    · cases h
    · cases h
    · next hps =>
      rcases hstarOn.2.2 hps k hk with he | hi
      · rcases hkvOn.2.2 h k hk with he2 | hi2
        · exact Or.inl (by simp only [paramEntry, he, he2])
        · exact Or.inr (by simp only [paramEntry, he, hi2])
      · exact Or.inr (by simp only [paramEntry, hi])

theorem params_incrOn :
    ∀ (L : Nat) (xs : Bytes), xs.length ≤ L → ∀ count,
      IncrOn (fun i => params i count) xs := by
  intro L
  induction L with
  | zero =>
    intro xs hL count
    have hnil : xs = [] := List.length_eq_zero.mp (Nat.le_zero.mp hL)
    subst hnil
    refine ⟨?_, ?_, ?_⟩
    · intro n v h
      have hn0 : n ≤ 0 := by
        simpa using params_consumes 0 [] (by simp) count n v h
      refine ⟨n, le_refl n, fun k hk hkT => by omega, ?_⟩
      intro k hk hkT
      have hk0 : k = 0 := by simpa using hk
      subst hk0
      exact h
    · intro h k hk
      have hk0 : k = 0 := by simpa using hk
      subst hk0
      exact h
    · intro h k hk
      have hk0 : k = 0 := by simpa using hk
      subst hk0
      exact Or.inl h
  | succ L ih =>
    intro xs hL count
    cases count with
    | zero =>
      refine ⟨?_, ?_, ?_⟩
      · intro n v h
        have h2 : PRes.done 0 ([] : PEntries) = PRes.done n v := h
        cases h2
        exact ⟨0, le_refl _, fun k hk hkT => by omega,
               fun k hk hkT => params_zero _⟩
      · intro h k hk
        have h2 : PRes.done 0 ([] : PEntries) = PRes.incomplete := h
        cases h2
      · intro h k hk
        have h2 : PRes.done 0 ([] : PEntries) = PRes.error := h
        cases h2
    | succ c =>
      have hstarOn : IncrOn paramStar xs := by
        apply incrOn_pbind (incr_starFront xs)
        intro n a ha
        obtain ⟨hn, hnle⟩ := starFront_done_inv ha
        have hd : (xs.drop n).length = xs.length - n := by simp
        exact ih (xs.drop n) (by omega) a
      have hentry : IncrOn paramEntry xs := incrOn_paramEntry hstarOn
      have hmain : IncrOn
          (pbind paramEntry (fun kv => pmap (fun rest => params rest c) (fun kv2 => kv ++ kv2)))
          xs := by
        apply incrOn_pbind hentry
        intro n kv ha
        obtain ⟨hn, hnle⟩ := paramEntry_done_pos ha
        have hd : (xs.drop n).length = xs.length - n := by simp
        exact incrOn_pmap (ih (xs.drop n) (by omega) c)
      exact incrOn_congr (fun i => (params_succ i c).symm) hmain

theorem incr_params (count : Nat) : Incr (fun i => params i count) :=
  fun xs => params_incrOn xs.length xs (le_refl _) count

theorem incr_commandFront (cmd : Bytes) (nargs : Nat) : Incr (commandFront cmd nargs) :=
  incr_pbind (incr_tagP cmd) fun _ =>
    incr_pbind (incr_tagP [10]) fun _ => incr_params nargs

theorem incr_parseCommand (cmd : Bytes) (nargs : Nat) (func : PEntries → Option α) :
    Incr (parseCommand cmd nargs func) :=
  incr_pbind (incr_commandFront cmd nargs) fun kv => incr_liftOpt (func kv)

theorem altP_cons_done {p : Bytes → PRes α} {ps : List (Bytes → PRes α)} {xs n v}
    (h : p xs = .done n v) : altP (p :: ps) xs = .done n v := by
  simp [altP, h]

theorem altP_cons_incomplete {p : Bytes → PRes α} {ps : List (Bytes → PRes α)} {xs}
    (h : p xs = .incomplete) : altP (p :: ps) xs = .incomplete := by
  simp [altP, h]

theorem altP_cons_error {p : Bytes → PRes α} {ps : List (Bytes → PRes α)} {xs}
    (h : p xs = .error) : altP (p :: ps) xs = altP ps xs := by
  simp [altP, h]

/-- nom `alt!` preserves incompleteness of truncations: if the alternation
succeeds consuming `n` bytes, every truncation below `n` is incomplete. -/
theorem altP_done_prefix_incomplete :
    ∀ (ps : List (Bytes → PRes α)) (xs : Bytes) (n : Nat) (v : α) (k : Nat),
      (∀ p ∈ ps, Incr p) → altP ps xs = .done n v → k ≤ xs.length → k < n →
      altP ps (xs.take k) = .incomplete := by
  intro ps
  induction ps with
  | nil =>
    intro xs n v k hall h
    cases h
  | cons p rest ih =>
    intro xs n v k hall h hk hkn
    cases hp : p xs with
    | done n1 v1 =>
      rw [altP_cons_done hp] at h
      rw [PRes.done.injEq] at h
      obtain ⟨rfl, rfl⟩ := h
      obtain ⟨T, hTn, hTinc, _⟩ := (hall p (by simp) xs).1 _ _ hp
      exact altP_cons_incomplete (hTinc k hk (by omega))
    | incomplete =>
      rw [altP_cons_incomplete hp] at h
      cases h
    | error =>
      rw [altP_cons_error hp] at h
      rcases (hall p (by simp) xs).2.2 hp k hk with he | hi
      · rw [altP_cons_error he]
        exact ih xs n v k (fun q hq => hall q (by simp [hq])) h hk hkn
      · exact altP_cons_incomplete hi

theorem incr_commandTable : ∀ p ∈ commandTable, Incr p := by
  intro p hp
  fin_cases hp <;> exact incr_parseCommand _ _ _

/-- C1: for every byte sequence `I` that the normal-dialect parser accepts
as a complete single command (consuming exactly `I`), `parse` on every
proper prefix of `I` returns `Ok(None)` and leaves the buffer unchanged,
while `parse` on `I` itself returns the request and advances the buffer by
exactly `I.length` bytes. -/
theorem c1_parse_incremental :
    ∀ (I : Bytes) (r : Request),
      parseBytes I = .ok (some r, []) →
      (∀ k, k < I.length → parseBytes (I.take k) = .ok (none, I.take k)) ∧
      parseBytes I = .ok (some r, I.drop I.length) := by
  intro I r h
  unfold parseBytes at h
  cases hpc : parseCommon I with
  | done n v =>
    rw [hpc] at h
    simp only [Except.ok.injEq, Prod.mk.injEq, Option.some.injEq] at h
    obtain ⟨rfl, hdrop⟩ := h
    have hlen : I.length ≤ n := by
      by_contra hcon
      have : I.drop n ≠ [] := by
        intro hnil
        have := congrArg List.length hnil
        simp at this
        omega
      exact this hdrop
    constructor
    · intro k hk
      have hinc : parseCommon (I.take k) = .incomplete :=
        altP_done_prefix_incomplete commandTable I n v k incr_commandTable hpc
          (by omega) (by omega)
      unfold parseBytes
      rw [hinc]
    · simp only [parseBytes, hpc, hdrop, List.drop_length]
  | incomplete =>
    rw [hpc] at h
    simp at h
  | error =>
    rw [hpc] at h
    cases h

/-- Witness for C1 at `"hello\n"`, prefix length 3. -/
theorem c1_parse_incremental_witness :
    parseBytes ([104, 101, 108, 108, 111, 10] : Bytes) = .ok (some .hello, []) ∧
    parseBytes (([104, 101, 108, 108, 111, 10] : Bytes).take 3) =
      .ok (none, ([104, 101, 108, 108, 111, 10] : Bytes).take 3) :=
  ⟨rfl, (c1_parse_incremental [104, 101, 108, 108, 111, 10] .hello rfl).1 3 (by decide)⟩

/-- C7 as frozen is refuted by `c7_counterexample_params_error`: a
malformed byte (`'?'`) contains zero complete entries, yet `params` with
`count = 1` returns `Error`, not `Incomplete`.  The amended claim: for
every input that is a strict truncation of the bytes consumed by a
successful `params` run, `params` returns `Incomplete`. -/
theorem c7_params_prefix_incomplete :
    ∀ (xs : Bytes) (count n : Nat) (v : PEntries),
      params xs count = .done n v →
      ∀ k, k ≤ xs.length → k < n → params (xs.take k) count = .incomplete := by
  intro xs count n v h k hk hkn
  obtain ⟨T, hTn, hTinc, _⟩ := (incr_params count xs).1 n v h
  exact hTinc k hk (by omega)

/-- C7, counterexample to the frozen wording: the input `"?"` has fewer
than one complete parameter entry, but `params` returns `Error` rather
than `Incomplete`. -/
theorem c7_counterexample_params_error :
    params [63] 1 = .error ∧ params [63] 1 ≠ .incomplete := by
  constructor
  · decide
  · decide

/-- Witness for the amended C7 at `"x 1\ny"` truncated to 2 bytes. -/
theorem c7_params_prefix_incomplete_witness :
    params (([120, 32, 49, 10, 121] : Bytes).take 2) 1 = .incomplete :=
  c7_params_prefix_incomplete [120, 32, 49, 10, 121] 1 5 [([120], [121])] (by decide)
    2 (by decide) (by decide)


theorem ancRunsTo_rfl (G : GenGraph) (s : AncState) : AncRunsTo G s 0 [] s :=
  fun f => by simp

theorem ancRunsTo_poll_some {G : GenGraph} {s s' : AncState} {h : Nat}
    (hp : ancPoll G s = (some h, s')) : AncRunsTo G s 1 [h] s' := by
  intro f
  rw [Nat.add_comm]
  show ancRunF G (f + 1) s = _
  simp only [ancRunF, hp]
  rfl

theorem ancRunsTo_trans {G : GenGraph} {s s1 s2 : AncState} {k1 k2 : Nat}
    {o1 o2 : List Nat} (h1 : AncRunsTo G s k1 o1 s1) (h2 : AncRunsTo G s1 k2 o2 s2) :
    AncRunsTo G s (k1 + k2) (o1 ++ o2) s2 := by
  intro f
  have e1 := h1 (k2 + f)
  have e2 := h2 f
  rw [show k1 + k2 + f = k1 + (k2 + f) by omega, e1, e2]
  simp

theorem ancDone_of_poll_none {G : GenGraph} {s : AncState} {s' : AncState}
    (hp : ancPoll G s = (none, s')) : AncDone G s [] := by
  refine ⟨1, fun f => ?_⟩
  rw [Nat.add_comm]
  show ancRunF G (f + 1) s = _
  simp only [ancRunF, hp]

theorem ancDone_compose {G : GenGraph} {s s1 : AncState} {k : Nat} {o1 o2 : List Nat}
    (h1 : AncRunsTo G s k o1 s1) (h2 : AncDone G s1 o2) : AncDone G s (o1 ++ o2) := by
  obtain ⟨k2, hk2⟩ := h2
  refine ⟨k + k2, fun f => ?_⟩
  have e1 := h1 (k2 + f)
  rw [show k + k2 + f = k + (k2 + f) by omega, e1, hk2 f]

/-- Draining phase: with `drain = d`, the machine emits `d` in `d.length`
polls and otherwise leaves the state unchanged. -/
theorem ancRunsTo_drain (G : GenGraph) (m : List (Nat × List Nat)) (p : List Nat) :
    ∀ d : List Nat, AncRunsTo G ⟨m, p, d⟩ d.length d ⟨m, p, []⟩ := by
  intro d
  induction d with
  | nil => exact ancRunsTo_rfl G _
  | cons h t ih =>
    have hp : ancPoll G ⟨m, p, h :: t⟩ = (some h, ⟨m, p, t⟩) := rfl
    have h2 := ancRunsTo_trans (ancRunsTo_poll_some hp) ih
    rw [Nat.add_comm 1 t.length] at h2
    simpa using h2

/-! Bucket map lemmas. -/

theorem mem_bucketElems {m : List (Nat × List Nat)} {x : Nat} :
    x ∈ bucketElems m ↔ ∃ g bkt, (g, bkt) ∈ m ∧ x ∈ bkt := by
  unfold bucketElems
  simp only [List.mem_flatMap]
  constructor
  · rintro ⟨⟨g, bkt⟩, hm, hx⟩
    exact ⟨g, bkt, hm, hx⟩
  · rintro ⟨g, bkt, hm, hx⟩
    exact ⟨(g, bkt), hm, hx⟩

theorem bucketInsert_mem {m : List (Nat × List Nat)} {g h x : Nat} :
    x ∈ bucketElems (bucketInsert m g h) ↔ x ∈ bucketElems m ∨ x = h := by
  induction m with
  | nil => simp [bucketInsert, bucketElems, eq_comm]
  | cons e rest ih =>
    obtain ⟨g', b⟩ := e
    unfold bucketInsert
    by_cases hg : g' = g
    · by_cases hh : h ∈ b
      · simp only [if_pos hg, if_pos hh, bucketElems, List.flatMap_cons, List.mem_append]
        constructor
        · tauto
        · rintro ((hx | hx) | rfl) <;> tauto
      · simp only [if_pos hg, if_neg hh, bucketElems, List.flatMap_cons, List.mem_append,
          List.mem_singleton]
        tauto
    · simp only [if_neg hg, bucketElems, List.flatMap_cons, List.mem_append]
      simp only [bucketElems] at ih
      rw [ih]
      tauto

theorem bucketInsert_keys {m : List (Nat × List Nat)} {g h : Nat} {g' : Nat} {b' : List Nat}
    (hmem : (g', b') ∈ bucketInsert m g h) :
    g' = g ∨ g' ∈ m.map Prod.fst := by
  induction m with
  | nil =>
    simp [bucketInsert] at hmem
    exact Or.inl hmem.1
  | cons e rest ih =>
    obtain ⟨g2, b2⟩ := e
    unfold bucketInsert at hmem
    by_cases hg : g2 = g
    · rw [if_pos hg] at hmem
      rcases List.mem_cons.mp hmem with he | he
      · cases he
        exact Or.inl hg
      · exact Or.inr (by simp; right; exact ⟨b', he⟩)
    · rw [if_neg hg] at hmem
      rcases List.mem_cons.mp hmem with he | he
      · cases he
        exact Or.inr (by simp)
      · rcases ih he with hx | hx
        · exact Or.inl hx
        · exact Or.inr (by simp at hx ⊢; right; exact hx)

theorem bucketInsert_wf {G : GenGraph} {m : List (Nat × List Nat)} {g h : Nat}
    (hwf : AncMapWF G m) (hg : G.gen h = g) : AncMapWF G (bucketInsert m g h) := by
  induction m with
  | nil =>
    refine ⟨by simp [bucketInsert], ?_⟩
    intro g' bkt hmem
    simp [bucketInsert] at hmem
    obtain ⟨rfl, rfl⟩ := hmem
    exact ⟨by simp, by simp, by simpa using hg⟩
  | cons e rest ih =>
    obtain ⟨g2, b2⟩ := e
    obtain ⟨hnd, hbuckets⟩ := hwf
    simp only [List.map_cons, List.nodup_cons] at hnd
    obtain ⟨hg2, hndrest⟩ := hnd
    have hwfrest : AncMapWF G rest :=
      ⟨hndrest, fun g' bkt hm => hbuckets g' bkt (List.mem_cons_of_mem _ hm)⟩
    unfold bucketInsert
    by_cases hgg : g2 = g
    · rw [if_pos hgg]
      constructor
      · simp only [List.map_cons, List.nodup_cons]
        exact ⟨hg2, hndrest⟩
      · intro g' bkt hmem
        rcases List.mem_cons.mp hmem with he | he
        · cases he
          obtain ⟨hb1, hb2, hb3⟩ := hbuckets g2 b2 (by simp)
          by_cases hh : h ∈ b2
          · rw [if_pos hh]
            exact ⟨hb1, hb2, hb3⟩
          · rw [if_neg hh]
            refine ⟨by simp, ?_, ?_⟩
            · simpa [List.nodup_append] using ⟨hb2, hh⟩
            · intro x hx
              rcases List.mem_append.mp hx with hx | hx
              · exact hb3 x hx
              · simp at hx
                subst hx
                rw [hg, hgg]
        · exact hbuckets g' bkt (List.mem_cons_of_mem _ he)
    · rw [if_neg hgg]
      obtain ⟨hnd2, hbk2⟩ := ih hwfrest
      constructor
      · simp only [List.map_cons, List.nodup_cons]
        refine ⟨?_, hnd2⟩
        intro hx
        simp at hx
        obtain ⟨b3, hb3⟩ := hx
        rcases bucketInsert_keys hb3 with he | he
        · exact hgg he
        · exact hg2 (by simpa using he)
      · intro g' bkt hmem
        rcases List.mem_cons.mp hmem with he | he
        · cases he
          exact hbuckets g2 b2 (by simp)
        · exact hbk2 g' bkt he

theorem bucketAll_cons (G : GenGraph) (m : List (Nat × List Nat)) (h : Nat) (t : List Nat) :
    bucketAll G m (h :: t) = bucketAll G (bucketInsert m (G.gen h) h) t := rfl

theorem bucketAll_mem {G : GenGraph} {p : List Nat} :
    ∀ {m : List (Nat × List Nat)} {x : Nat},
      x ∈ bucketElems (bucketAll G m p) ↔ x ∈ bucketElems m ∨ x ∈ p := by
  induction p with
  | nil => intro m x; simp [bucketAll]
  | cons h t ih =>
    intro m x
    rw [bucketAll_cons, ih, bucketInsert_mem]
    simp [List.mem_cons]
    tauto

theorem bucketAll_wf {G : GenGraph} {p : List Nat} :
    ∀ {m : List (Nat × List Nat)}, AncMapWF G m → AncMapWF G (bucketAll G m p) := by
  induction p with
  | nil => intro m hwf; exact hwf
  | cons h t ih =>
    intro m hwf
    rw [bucketAll_cons]
    exact ih (bucketInsert_wf hwf rfl)

theorem bucketInsert_key_mem {m : List (Nat × List Nat)} {g h : Nat} {g' : Nat}
    (hmem : g' ∈ (bucketInsert m g h).map Prod.fst) :
    g' = g ∨ g' ∈ m.map Prod.fst := by
  rcases List.mem_map.mp hmem with ⟨⟨a, b⟩, he, rfl⟩
  exact bucketInsert_keys he

theorem bucketAll_keys_lt {G : GenGraph} {p : List Nat} {B : Nat} :
    ∀ {m : List (Nat × List Nat)},
      (∀ g ∈ m.map Prod.fst, g < B) → (∀ h ∈ p, G.gen h < B) →
      ∀ g ∈ (bucketAll G m p).map Prod.fst, g < B := by
  induction p with
  | nil => intro m hm _ g hg; exact hm g hg
  | cons h t ih =>
    intro m hm hp g hg
    rw [bucketAll_cons] at hg
    refine ih ?_ (fun x hx => hp x (by simp [hx])) g hg
    intro g2 hg2
    rcases bucketInsert_key_mem hg2 with rfl | hg2
    · exact hp h (by simp)
    · exact hm g2 hg2

theorem bucketAll_eq_nil {G : GenGraph} {p : List Nat} :
    ∀ {m : List (Nat × List Nat)}, bucketAll G m p = [] → m = [] ∧ p = [] := by
  induction p with
  | nil => intro m hm; exact ⟨hm, rfl⟩
  | cons h t ih =>
    intro m hm
    rw [bucketAll_cons] at hm
    obtain ⟨hins, _⟩ := ih hm
    exfalso
    cases m with
    | nil => cases hins
    | cons e rest =>
      obtain ⟨g2, b2⟩ := e
      unfold bucketInsert at hins
      by_cases hg : g2 = G.gen h
      · rw [if_pos hg] at hins
        cases hins
      · rw [if_neg hg] at hins
        cases hins

theorem maxKey_le {m : List (Nat × List Nat)} : ∀ e ∈ m, e.1 ≤ maxKey m := by
  induction m with
  | nil => intro e he; cases he
  | cons e2 rest ih =>
    obtain ⟨g2, b2⟩ := e2
    intro e he
    rcases List.mem_cons.mp he with rfl | he
    · show g2 ≤ max g2 (maxKey rest)
      exact le_max_left _ _
    · exact le_trans (ih e he) (le_max_right _ _)

theorem maxKey_mem : ∀ {m : List (Nat × List Nat)}, m ≠ [] → maxKey m ∈ m.map Prod.fst := by
  intro m
  induction m with
  | nil => intro h; exact absurd rfl h
  | cons e rest ih =>
    intro _
    obtain ⟨g, b⟩ := e
    show max g (maxKey rest) ∈ _
    cases rest with
    | nil => simp [maxKey, Nat.max_zero]
    | cons e2 rest2 =>
      rcases Nat.le_total (maxKey (e2 :: rest2)) g with hle | hle
      · rw [Nat.max_eq_left hle]
        simp
      · rw [Nat.max_eq_right hle]
        exact List.mem_cons_of_mem _ (ih (by simp))

theorem key_bucket_unique {m : List (Nat × List Nat)} {g : Nat} {b1 b2 : List Nat}
    (hnd : (m.map Prod.fst).Nodup) (h1 : (g, b1) ∈ m) (h2 : (g, b2) ∈ m) : b1 = b2 := by
  induction m with
  | nil => cases h1
  | cons e rest ih =>
    obtain ⟨g2, bb⟩ := e
    simp only [List.map_cons, List.nodup_cons] at hnd
    rcases List.mem_cons.mp h1 with he1 | he1 <;> rcases List.mem_cons.mp h2 with he2 | he2
    · cases he1; cases he2; rfl
    · cases he1
      exact absurd (by simpa using ⟨b2, he2⟩) hnd.1
    · cases he2
      exact absurd (by simpa using ⟨b1, he1⟩) hnd.1
    · exact ih hnd.2 he1 he2

theorem bucketGet_of_mem {m : List (Nat × List Nat)} {g : Nat} {bkt : List Nat}
    (hnd : (m.map Prod.fst).Nodup) (hmem : (g, bkt) ∈ m) : bucketGet m g = bkt := by
  induction m with
  | nil => cases hmem
  | cons e rest ih =>
    obtain ⟨g2, b2⟩ := e
    simp only [List.map_cons, List.nodup_cons] at hnd
    rcases List.mem_cons.mp hmem with he | he
    · cases he
      simp [bucketGet]
    · by_cases hg : g2 = g
      · subst hg
        exact absurd (by simpa using ⟨bkt, he⟩) hnd.1
      · have hfind : bucketGet ((g2, b2) :: rest) g = bucketGet rest g := by
          unfold bucketGet
          rw [List.find?_cons_of_neg]
          simp [hg]
        rw [hfind]
        exact ih hnd.2 he

theorem exists_bucket_of_key {m : List (Nat × List Nat)} {g : Nat}
    (h : g ∈ m.map Prod.fst) : ∃ bkt, (g, bkt) ∈ m := by
  rcases List.mem_map.mp h with ⟨e, he, rfl⟩
  exact ⟨e.2, by cases e; exact he⟩

theorem bucketErase_mem {m : List (Nat × List Nat)} {g : Nat} {e : Nat × List Nat} :
    e ∈ bucketErase m g ↔ e ∈ m ∧ e.1 ≠ g := by
  simp [bucketErase, List.mem_filter]

theorem bucketErase_wf {G : GenGraph} {m : List (Nat × List Nat)} {g : Nat}
    (hwf : AncMapWF G m) : AncMapWF G (bucketErase m g) := by
  obtain ⟨hnd, hb⟩ := hwf
  constructor
  · exact hnd.sublist ((List.filter_sublist m).map Prod.fst)
  · intro g2 b2 hmem
    exact hb g2 b2 ((bucketErase_mem.mp hmem).1)

theorem bucketElems_split {m : List (Nat × List Nat)} {g : Nat} {bkt : List Nat}
    (hnd : (m.map Prod.fst).Nodup) (hmem : (g, bkt) ∈ m) {x : Nat} :
    x ∈ bucketElems m ↔ x ∈ bkt ∨ x ∈ bucketElems (bucketErase m g) := by
  constructor
  · intro hx
    obtain ⟨g2, b2, hm2, hx2⟩ := mem_bucketElems.mp hx
    by_cases hg : g2 = g
    · subst hg
      rw [key_bucket_unique hnd hm2 hmem] at hx2
      exact Or.inl hx2
    · exact Or.inr (mem_bucketElems.mpr ⟨g2, b2, bucketErase_mem.mpr ⟨hm2, hg⟩, hx2⟩)
  · rintro (hx | hx)
    · exact mem_bucketElems.mpr ⟨g, bkt, hmem, hx⟩
    · obtain ⟨g2, b2, hm2, hx2⟩ := mem_bucketElems.mp hx
      exact mem_bucketElems.mpr ⟨g2, b2, (bucketErase_mem.mp hm2).1, hx2⟩

theorem bucketErase_keys_lt {m : List (Nat × List Nat)} {g : Nat}
    (hle : ∀ e ∈ m, e.1 ≤ g) :
    ∀ e ∈ bucketErase m g, e.1 < g := by
  intro e he
  obtain ⟨hm, hne⟩ := bucketErase_mem.mp he
  exact lt_of_le_of_ne (hle e hm) hne

theorem mem_makePending {G : GenGraph} {l : List Nat} {x : Nat} :
    x ∈ makePending G l ↔ ∃ s ∈ l, x ∈ G.parents s := by
  simp [makePending]

theorem anc_head_iff (G : GenGraph) (s x : Nat) :
    Anc G s x ↔ x = s ∨ ∃ p ∈ G.parents s, Anc G p x := by
  constructor
  · intro h
    rcases Relation.ReflTransGen.cases_head h with h | ⟨b, hb, hbx⟩
    · exact Or.inl h.symm
    · exact Or.inr ⟨b, hb, hbx⟩
  · rintro (rfl | ⟨p, hp, hpx⟩)
    · exact Relation.ReflTransGen.refl
    · exact Relation.ReflTransGen.head hp hpx

theorem chain_const_gen (G : GenGraph) (g : Nat) :
    ∀ l : List Nat, (∀ a ∈ l, G.gen a = g) →
      List.Chain' (fun a b => G.gen b ≤ G.gen a) l := by
  intro l
  induction l with
  | nil => intro _; exact List.chain'_nil
  | cons a t ih =>
    intro hl
    rw [List.chain'_cons']
    refine ⟨?_, ih (fun x hx => hl x (by simp [hx]))⟩
    intro y hy
    have hyl : y ∈ t := List.mem_of_mem_head? hy
    rw [hl a (by simp), hl y (by simp [hyl])]

theorem ancPoll_rotate {G : GenGraph} {m : List (Nat × List Nat)} {p : List Nat}
    (hM : bucketAll G m p ≠ []) {b : Nat} {bs : List Nat}
    (hbkt : bucketGet (bucketAll G m p) (maxKey (bucketAll G m p)) = b :: bs) :
    ancPoll G ⟨m, p, []⟩ =
      (some b, ⟨bucketErase (bucketAll G m p) (maxKey (bucketAll G m p)),
                makePending G (b :: bs), bs⟩) := by
  simp [ancPoll, hbkt, hM]

/-- Wave induction for the ancestors machine: from any clean state (empty
drain, well-formed bucket map, all generations below a bound `B`) the stream
finishes, emits exactly the union of the ancestor closures of the stored
hashes, in non-increasing generation order and without duplicates. -/
theorem anc_waves (G : GenGraph) (hpg : ParentGenLt G) :
    ∀ (B : Nat) (m : List (Nat × List Nat)) (p : List Nat),
      AncMapWF G m → (∀ g ∈ m.map Prod.fst, g < B) → (∀ h ∈ p, G.gen h < B) →
      ∃ out, AncDone G ⟨m, p, []⟩ out ∧
        (∀ x, x ∈ out ↔ ∃ s, (s ∈ bucketElems m ∨ s ∈ p) ∧ Anc G s x) ∧
        (∀ x ∈ out, G.gen x < B) ∧
        List.Chain' (fun a b => G.gen b ≤ G.gen a) out ∧ out.Nodup := by
  intro B
  induction B using Nat.strong_induction_on with
  | _ B ih =>
    intro m p hwf hkeys hpgens
    by_cases hM : bucketAll G m p = []
    · obtain ⟨rfl, rfl⟩ := bucketAll_eq_nil hM
      have hpoll : ancPoll G ⟨[], [], []⟩ = (none, ⟨[], [], []⟩) := rfl
      refine ⟨[], ancDone_of_poll_none hpoll, ?_, by simp, by simp, by simp⟩
      intro x
      simp [bucketElems]
    · have hwfM : AncMapWF G (bucketAll G m p) := bucketAll_wf hwf
      have hkeysM : ∀ g ∈ (bucketAll G m p).map Prod.fst, g < B :=
        bucketAll_keys_lt hkeys hpgens
      have hgmem : maxKey (bucketAll G m p) ∈ (bucketAll G m p).map Prod.fst := maxKey_mem hM
      obtain ⟨bkt, hbktmem⟩ := exists_bucket_of_key hgmem
      have hbget : bucketGet (bucketAll G m p) (maxKey (bucketAll G m p)) = bkt :=
        bucketGet_of_mem hwfM.1 hbktmem
      obtain ⟨hbne, hbnd, hbgen⟩ := hwfM.2 _ bkt hbktmem
      obtain ⟨b, bs, rfl⟩ : ∃ b bs, bkt = b :: bs := by
        cases bkt with
        | nil => exact absurd rfl hbne
        | cons b bs => exact ⟨b, bs, rfl⟩
      have hgmaxB : maxKey (bucketAll G m p) < B := hkeysM _ hgmem
      have hpoll := ancPoll_rotate hM hbget
      have hrun1 : AncRunsTo G ⟨m, p, []⟩ (1 + bs.length) (b :: bs)
          ⟨bucketErase (bucketAll G m p) (maxKey (bucketAll G m p)),
           makePending G (b :: bs), []⟩ := by
        have h2 := ancRunsTo_drain G
          (bucketErase (bucketAll G m p) (maxKey (bucketAll G m p)))
          (makePending G (b :: bs)) bs
        have h3 := ancRunsTo_trans (ancRunsTo_poll_some hpoll) h2
        simpa using h3
      have herasewf := bucketErase_wf (g := maxKey (bucketAll G m p)) hwfM
      have herasekeys : ∀ g ∈ (bucketErase (bucketAll G m p)
          (maxKey (bucketAll G m p))).map Prod.fst, g < maxKey (bucketAll G m p) := by
        intro g hg
        rcases List.mem_map.mp hg with ⟨⟨a, bb⟩, he, rfl⟩
        exact bucketErase_keys_lt (fun e hme => maxKey_le e hme) _ he
      have hpendgens : ∀ h ∈ makePending G (b :: bs),
          G.gen h < maxKey (bucketAll G m p) := by
        intro h hh
        rcases mem_makePending.mp hh with ⟨s, hs, hpar⟩
        have hlt := hpg s h hpar
        rw [hbgen s hs] at hlt
        exact hlt
      obtain ⟨out2, hdone2, hiff2, hgen2, hchain2, hnd2⟩ :=
        ih _ hgmaxB _ _ herasewf herasekeys hpendgens
      refine ⟨(b :: bs) ++ out2, ancDone_compose hrun1 hdone2, ?_, ?_, ?_, ?_⟩
      · intro x
        constructor
        · intro hx
          rcases List.mem_append.mp hx with hx | hx
          · have hxM : x ∈ bucketElems (bucketAll G m p) :=
              (bucketElems_split hwfM.1 hbktmem).mpr (Or.inl hx)
            exact ⟨x, bucketAll_mem.mp hxM, Relation.ReflTransGen.refl⟩
          · rcases (hiff2 x).mp hx with ⟨s, hsm, hanc⟩
            rcases hsm with hsm | hsm
            · have hsM : s ∈ bucketElems (bucketAll G m p) :=
                (bucketElems_split hwfM.1 hbktmem).mpr (Or.inr hsm)
              exact ⟨s, bucketAll_mem.mp hsM, hanc⟩
            · rcases mem_makePending.mp hsm with ⟨c, hc, hpar⟩
              have hcM : c ∈ bucketElems (bucketAll G m p) :=
                (bucketElems_split hwfM.1 hbktmem).mpr (Or.inl hc)
              exact ⟨c, bucketAll_mem.mp hcM, Relation.ReflTransGen.head hpar hanc⟩
        · rintro ⟨s, hsm, hanc⟩
          have hsM : s ∈ bucketElems (bucketAll G m p) := bucketAll_mem.mpr hsm
          rcases (bucketElems_split hwfM.1 hbktmem).mp hsM with hs | hs
          · rcases (anc_head_iff G s x).mp hanc with rfl | ⟨pr, hpr, hprx⟩
            · exact List.mem_append.mpr (Or.inl hs)
            · refine List.mem_append.mpr (Or.inr ((hiff2 x).mpr ?_))
              exact ⟨pr, Or.inr (mem_makePending.mpr ⟨s, hs, hpr⟩), hprx⟩
          · exact List.mem_append.mpr (Or.inr ((hiff2 x).mpr ⟨s, Or.inl hs, hanc⟩))
      · intro x hx
        rcases List.mem_append.mp hx with hx | hx
        · rw [hbgen x hx]
          exact hgmaxB
        · exact lt_trans (hgen2 x hx) hgmaxB
      · rw [List.chain'_append]
        refine ⟨chain_const_gen G _ _ hbgen, hchain2, ?_⟩
        intro x hx y hy
        have hxl : x ∈ (b :: bs) := by
          rcases List.mem_getLast?_eq_getLast hx with ⟨h9, rfl⟩
          exact List.getLast_mem h9
        have hyl : y ∈ out2 := List.mem_of_mem_head? hy
        rw [hbgen x hxl]
        exact le_of_lt (hgen2 y hyl)
      · rw [List.nodup_append]
        refine ⟨hbnd, hnd2, ?_⟩
        intro a ha ha2
        have h1 : G.gen a = maxKey (bucketAll G m p) := hbgen a ha
        have h2 : G.gen a < maxKey (bucketAll G m p) := hgen2 a ha2
        omega

/-- End-to-end behaviour of `AncestorsNodeStream` started at `seed`: it
terminates, emits exactly the reflexive-transitive parent closure of the
seed, in non-increasing generation order without duplicates. -/
theorem ancestors_master (G : GenGraph) (hpg : ParentGenLt G) (seed : Nat) :
    ∃ out, AncDone G (ancInit G seed) out ∧
      (∀ x, x ∈ out ↔ Anc G seed x) ∧
      List.Chain' (fun a b => G.gen b ≤ G.gen a) out ∧ out.Nodup := by
  have hpoll : ancPoll G (ancInit G seed) =
      (some seed, ⟨[], makePending G [seed], []⟩) := rfl
  have hrun1 : AncRunsTo G (ancInit G seed) 1 [seed]
      ⟨[], makePending G [seed], []⟩ := ancRunsTo_poll_some hpoll
  have hpend : ∀ h ∈ makePending G [seed], G.gen h < G.gen seed := by
    intro h hh
    rcases mem_makePending.mp hh with ⟨s, hs, hpar⟩
    rcases List.mem_singleton.mp hs with rfl
    exact hpg s h hpar
  obtain ⟨out2, hdone2, hiff2, hgen2, hchain2, hnd2⟩ :=
    anc_waves G hpg (G.gen seed) [] (makePending G [seed])
      ⟨by simp, by intro g bkt h; cases h⟩ (by simp) hpend
  refine ⟨seed :: out2, ?_, ?_, ?_, ?_⟩
  · have := ancDone_compose hrun1 hdone2
    simpa using this
  · intro x
    constructor
    · intro hx
      rcases List.mem_cons.mp hx with rfl | hx
      · exact Relation.ReflTransGen.refl
      · rcases (hiff2 x).mp hx with ⟨s, hsm, hanc⟩
        rcases hsm with hsm | hsm
        · simp [bucketElems] at hsm
        · rcases mem_makePending.mp hsm with ⟨c, hc, hpar⟩
          rcases List.mem_singleton.mp hc with rfl
          exact Relation.ReflTransGen.head hpar hanc
    · intro hanc
      rcases (anc_head_iff G seed x).mp hanc with rfl | ⟨pr, hpr, hprx⟩
      · exact List.mem_cons_self _ _
      · refine List.mem_cons_of_mem _ ((hiff2 x).mpr ?_)
        exact ⟨pr, Or.inr (mem_makePending.mpr ⟨seed, List.mem_singleton_self _, hpr⟩), hprx⟩
  · rw [List.chain'_cons']
    refine ⟨?_, hchain2⟩
    intro y hy
    exact le_of_lt (hgen2 y (List.mem_of_mem_head? hy))
  · rw [List.nodup_cons]
    refine ⟨?_, hnd2⟩
    intro hmem
    exact absurd rfl (Nat.ne_of_lt (hgen2 seed hmem)).elim

theorem intRunsTo_rfl (G : GenGraph) (s : IntState) : IntRunsTo G s 0 [] s := by
  intro f; simp

theorem intRunsTo_yield {G : GenGraph} {s s' : IntState} {h : Nat}
    (hp : intStep G s = .yield h s') : IntRunsTo G s 1 [h] s' := by
  intro f
  rw [Nat.add_comm]
  show intRunF G (f + 1) s = _
  simp [intRunF, hp]

theorem intRunsTo_cont {G : GenGraph} {s s' : IntState}
    (hp : intStep G s = .cont s') : IntRunsTo G s 1 [] s' := by
  intro f
  rw [Nat.add_comm]
  show intRunF G (f + 1) s = _
  simp [intRunF, hp]

theorem intRunsTo_trans {G : GenGraph} {s s1 s2 : IntState} {k1 k2 : Nat}
    {o1 o2 : List Nat} (h1 : IntRunsTo G s k1 o1 s1) (h2 : IntRunsTo G s1 k2 o2 s2) :
    IntRunsTo G s (k1 + k2) (o1 ++ o2) s2 := by
  intro f
  rw [Nat.add_assoc, h1 (k2 + f), h2 f]
  simp

theorem intRunsTo_of_eq {G : GenGraph} {s t : IntState}
    (h : ∀ f, intRunF G f s = intRunF G f t) : IntRunsTo G s 0 [] t := by
  intro f
  simp [h f]

theorem intDone_of_finished {G : GenGraph} {s : IntState}
    (hp : intStep G s = .finished) : IntDone G s [] := by
  refine ⟨1, fun f => ?_⟩
  rw [Nat.add_comm]
  show intRunF G (f + 1) s = _
  simp [intRunF, hp]

theorem intDone_compose {G : GenGraph} {s s1 : IntState} {k : Nat} {o1 o2 : List Nat}
    (h1 : IntRunsTo G s k o1 s1) (h2 : IntDone G s1 o2) : IntDone G s (o1 ++ o2) := by
  obtain ⟨k2, hk2⟩ := h2
  refine ⟨k + k2, fun f => ?_⟩
  rw [Nat.add_assoc, h1 (k2 + f), hk2 f]

theorem vstream_pollOne (G : GenGraph) (p : List Nat × Slot) :
    vstream (pollOne G p) = vstream p := by
  obtain ⟨rem, slot⟩ := p
  match slot with
  | none => cases rem <;> rfl
  | some none => rfl
  | some (some hg) => rfl

theorem pollOne_isSome (G : GenGraph) (p : List Nat × Slot) :
    (pollOne G p).2.isSome := by
  obtain ⟨rem, slot⟩ := p
  match slot with
  | none => cases rem <;> rfl
  | some none => rfl
  | some (some hg) => rfl

theorem pollOne_id_of_isSome {G : GenGraph} {p : List Nat × Slot}
    (h : p.2.isSome) : pollOne G p = p := by
  obtain ⟨rem, slot⟩ := p
  match slot with
  | none => cases h
  | some none => rfl
  | some (some hg) => rfl

theorem InpWF_pollOne {G : GenGraph} {p : List Nat × Slot}
    (h : InpWF G p) : InpWF G (pollOne G p) := by
  obtain ⟨h1, h2, h3, h4⟩ := h
  refine ⟨?_, ?_, by rw [vstream_pollOne]; exact h3, by rw [vstream_pollOne]; exact h4⟩
  · intro hg hh
    obtain ⟨rem, slot⟩ := p
    match slot, rem with
    | none, [] => simp [pollOne] at hh
    | none, a :: t =>
      have hh2 : (some (some (a, G.gen a)) : Slot) = some (some hg) := hh
      simp at hh2
      rw [← hh2]
    | some none, rem => exact h1 hg hh
    | some (some hg2), rem => exact h1 hg hh
  · intro hh
    obtain ⟨rem, slot⟩ := p
    match slot, rem with
    | none, [] => rfl
    | none, a :: t => simp [pollOne] at hh
    | some none, rem => exact h2 hh
    | some (some hg2), rem => exact h2 hh

theorem pollAllInputs_length (G : GenGraph) (inputs : List (List Nat × Slot)) :
    (pollAllInputs G inputs).length = inputs.length := by
  simp [pollAllInputs]

theorem allInputsReady_pollAllInputs (G : GenGraph) (inputs : List (List Nat × Slot)) :
    allInputsReady (pollAllInputs G inputs) = true := by
  rw [allInputsReady, List.all_eq_true]
  intro p hp
  rcases List.mem_map.mp hp with ⟨q, _, rfl⟩
  exact pollOne_isSome G q

theorem pollAllInputs_id {G : GenGraph} {inputs : List (List Nat × Slot)}
    (h : ∀ p ∈ inputs, p.2.isSome) : pollAllInputs G inputs = inputs := by
  induction inputs with
  | nil => rfl
  | cons a t ih =>
    show pollOne G a :: pollAllInputs G t = a :: t
    rw [pollOne_id_of_isSome (h a (by simp)), ih (fun p hp => h p (by simp [hp]))]

theorem InpWF_pollAllInputs {G : GenGraph} {inputs : List (List Nat × Slot)}
    (h : ∀ p ∈ inputs, InpWF G p) : ∀ p ∈ pollAllInputs G inputs, InpWF G p := by
  intro p hp
  rcases List.mem_map.mp hp with ⟨q, hq, rfl⟩
  exact InpWF_pollOne (h q hq)

theorem vstream_pollAllInputs (G : GenGraph) (inputs : List (List Nat × Slot)) :
    (pollAllInputs G inputs).map vstream = inputs.map vstream := by
  rw [pollAllInputs, List.map_map]
  exact List.map_congr_left (fun p _ => vstream_pollOne G p)

/-- Closed form of the `accumulate_nodes` loop body. -/
theorem accumulateStep_eq (b : Nat) : ∀ (inputs : List (List Nat × Slot)) (acc : List (Nat × Nat)),
    accumulateStep b inputs acc =
      (inputs.map (consumeSlot b), (presented b inputs).foldl accAdd acc, anyGe b inputs) := by
  intro inputs
  induction inputs with
  | nil => intro acc; rfl
  | cons p t ih =>
    intro acc
    obtain ⟨rem, slot⟩ := p
    match slot with
    | none =>
      show (let r := accumulateStep b t acc; ((rem, none) :: r.1, r.2.1, r.2.2)) = _
      rw [ih acc]
      simp [consumeSlot, presented, anyGe]
    | some none =>
      show (let r := accumulateStep b t acc; ((rem, some none) :: r.1, r.2.1, r.2.2)) = _
      rw [ih acc]
      simp [consumeSlot, presented, anyGe]
    | some (some hg) =>
      show (let acc1 := if hg.2 = b then accAdd acc hg.1 else acc
            if b ≤ hg.2 then
              let r := accumulateStep b t acc1
              (((rem, some (some hg)).1, none) :: r.1, r.2.1, true)
            else
              let r := accumulateStep b t acc1
              ((rem, some (some hg)) :: r.1, r.2.1, r.2.2)) = _
      by_cases hle : b ≤ hg.2
      · rw [if_pos hle]
        by_cases heq : hg.2 = b
        · simp only [if_pos heq, ih]
          simp [consumeSlot, presented, anyGe, hle, heq]
        · simp only [if_neg heq, ih]
          simp [consumeSlot, presented, anyGe, hle, heq]
      · have heq : ¬ hg.2 = b := by omega
        rw [if_neg hle]
        simp only [if_neg heq, ih]
        simp [consumeSlot, presented, anyGe, hle, heq]

theorem accLk_nil (x : Nat) : accLk [] x = 0 := rfl

theorem accLk_cons (h c : Nat) (rest : List (Nat × Nat)) (x : Nat) :
    accLk ((h, c) :: rest) x = if h = x then c else accLk rest x := by
  by_cases hx : h = x
  · simp [accLk, List.find?, hx]
  · simp only [accLk, List.find?]
    rw [show ((h, c).1 == x) = false by simpa using hx]
    simp [hx]

theorem accLk_accAdd (acc : List (Nat × Nat)) (h x : Nat) :
    accLk (accAdd acc h) x = if x = h then accLk acc x + 1 else accLk acc x := by
  induction acc with
  | nil =>
    show accLk [(h, 1)] x = _
    rw [accLk_cons, accLk_nil]
    by_cases hx : x = h
    · rw [if_pos hx.symm, if_pos hx]
    · rw [if_neg (fun hh => hx hh.symm), if_neg hx]
  | cons e rest ih =>
    obtain ⟨h2, c⟩ := e
    by_cases hhh : h2 = h
    · subst hhh
      rw [show accAdd ((h2, c) :: rest) h2 = (h2, c + 1) :: rest by simp [accAdd]]
      by_cases hx : x = h2
      · subst hx
        rw [accLk_cons, if_pos rfl, if_pos rfl, accLk_cons, if_pos rfl]
      · have hne : ¬ h2 = x := fun hh => hx hh.symm
        rw [if_neg hx, accLk_cons, accLk_cons, if_neg hne, if_neg hne]
    · rw [show accAdd ((h2, c) :: rest) h = (h2, c) :: accAdd rest h by simp [accAdd, hhh]]
      by_cases hx : h2 = x
      · subst hx
        rw [accLk_cons, if_pos rfl, if_neg (show ¬ h2 = h from hhh), accLk_cons, if_pos rfl]
      · rw [accLk_cons, if_neg hx, ih]
        by_cases hxh : x = h
        · rw [if_pos hxh, if_pos hxh, accLk_cons, if_neg hx]
        · rw [if_neg hxh, if_neg hxh, accLk_cons, if_neg hx]

theorem accAdd_keys_mem (acc : List (Nat × Nat)) (h x : Nat) :
    x ∈ (accAdd acc h).map Prod.fst ↔ x ∈ acc.map Prod.fst ∨ x = h := by
  induction acc with
  | nil =>
    show x ∈ ([(h, 1)]).map Prod.fst ↔ _
    simp
  | cons e rest ih =>
    obtain ⟨h2, c⟩ := e
    by_cases hhh : h2 = h
    · subst hhh
      rw [show accAdd ((h2, c) :: rest) h2 = (h2, c + 1) :: rest by simp [accAdd]]
      simp only [List.map_cons, List.mem_cons]
      tauto
    · rw [show accAdd ((h2, c) :: rest) h = (h2, c) :: accAdd rest h by simp [accAdd, hhh]]
      simp only [List.map_cons, List.mem_cons, ih]
      tauto

theorem accAdd_keys_nodup {acc : List (Nat × Nat)} (h : Nat)
    (hnd : (acc.map Prod.fst).Nodup) : ((accAdd acc h).map Prod.fst).Nodup := by
  induction acc with
  | nil =>
    show (([(h, 1)]).map Prod.fst).Nodup
    simp
  | cons e rest ih =>
    obtain ⟨h2, c⟩ := e
    simp only [List.map_cons, List.nodup_cons] at hnd
    by_cases hhh : h2 = h
    · subst hhh
      rw [show accAdd ((h2, c) :: rest) h2 = (h2, c + 1) :: rest by simp [accAdd]]
      simp only [List.map_cons, List.nodup_cons]
      exact hnd
    · rw [show accAdd ((h2, c) :: rest) h = (h2, c) :: accAdd rest h by simp [accAdd, hhh]]
      simp only [List.map_cons, List.nodup_cons]
      refine ⟨?_, ih hnd.2⟩
      intro hmem
      rcases (accAdd_keys_mem rest h h2).mp hmem with hm | hm
      · exact hnd.1 hm
      · exact hhh hm

theorem accAdd_entry_val {acc : List (Nat × Nat)} {e : Nat × Nat} {h : Nat}
    (hmem : e ∈ accAdd acc h) : e.1 = h ∨ e.1 ∈ acc.map Prod.fst := by
  have hk : e.1 ∈ (accAdd acc h).map Prod.fst := List.mem_map.mpr ⟨e, hmem, rfl⟩
  rcases (accAdd_keys_mem acc h e.1).mp hk with hm | hm
  · exact Or.inr hm
  · exact Or.inl hm

theorem acc_entry_det {acc : List (Nat × Nat)} (hnd : (acc.map Prod.fst).Nodup) :
    ∀ e ∈ acc, e.2 = accLk acc e.1 := by
  induction acc with
  | nil => intro e he; cases he
  | cons e2 rest ih =>
    obtain ⟨h2, c⟩ := e2
    simp only [List.map_cons, List.nodup_cons] at hnd
    intro e he
    rcases List.mem_cons.mp he with rfl | he
    · rw [accLk_cons, if_pos rfl]
    · have hne : h2 ≠ e.1 := by
        intro hh
        exact hnd.1 (hh ▸ List.mem_map.mpr ⟨e, he, rfl⟩)
      rw [accLk_cons, if_neg hne]
      exact ih hnd.2 e he

theorem accLk_foldl (l : List Nat) : ∀ (acc : List (Nat × Nat)) (x : Nat),
    accLk (l.foldl accAdd acc) x = accLk acc x + l.count x := by
  induction l with
  | nil => intro acc x; simp
  | cons h t ih =>
    intro acc x
    show accLk (t.foldl accAdd (accAdd acc h)) x = _
    rw [ih, accLk_accAdd, List.count_cons]
    by_cases hx : x = h <;> simp [hx] <;> omega

theorem foldl_keys_mem (l : List Nat) : ∀ (acc : List (Nat × Nat)) (x : Nat),
    x ∈ (l.foldl accAdd acc).map Prod.fst ↔ x ∈ acc.map Prod.fst ∨ x ∈ l := by
  induction l with
  | nil => intro acc x; simp
  | cons h t ih =>
    intro acc x
    show x ∈ (t.foldl accAdd (accAdd acc h)).map Prod.fst ↔ _
    rw [ih, accAdd_keys_mem]
    simp [List.mem_cons]
    tauto

theorem foldl_keys_nodup (l : List Nat) : ∀ {acc : List (Nat × Nat)},
    (acc.map Prod.fst).Nodup → ((l.foldl accAdd acc).map Prod.fst).Nodup := by
  induction l with
  | nil => intro acc h; exact h
  | cons h t ih =>
    intro acc hnd
    exact ih (accAdd_keys_nodup h hnd)

theorem foldl_entry_key (l : List Nat) : ∀ {acc : List (Nat × Nat)} {e : Nat × Nat},
    e ∈ l.foldl accAdd acc → e.1 ∈ acc.map Prod.fst ∨ e.1 ∈ l := by
  induction l with
  | nil => intro acc e he; exact Or.inl (List.mem_map.mpr ⟨e, he, rfl⟩)
  | cons h t ih =>
    intro acc e he
    rcases ih he with hm | hm
    · rcases (accAdd_keys_mem acc h e.1).mp hm with hm2 | hm2
      · exact Or.inl hm2
      · exact Or.inr (by simp [hm2])
    · exact Or.inr (by simp [hm])

theorem drainGo_eq_none {n : Nat} : ∀ {d : List (Nat × Nat)},
    (∀ e ∈ d, e.2 ≠ n) → drainGo n d = none := by
  intro d
  induction d with
  | nil => intro _; rfl
  | cons e rest ih =>
    obtain ⟨h, c⟩ := e
    intro hd
    show (if c = n then some (h, rest) else drainGo n rest) = none
    rw [if_neg (hd (h, c) (by simp))]
    exact ih (fun e he => hd e (by simp [he]))

theorem drainGo_some_inv {n : Nat} : ∀ {d : List (Nat × Nat)} {h : Nat} {d' : List (Nat × Nat)},
    drainGo n d = some (h, d') →
    ∃ pre, d = pre ++ (h, n) :: d' ∧ ∀ e ∈ pre, e.2 ≠ n := by
  intro d
  induction d with
  | nil => intro h d' hd; cases hd
  | cons e rest ih =>
    obtain ⟨h2, c⟩ := e
    intro h d' hd
    rw [show drainGo n ((h2, c) :: rest) = if c = n then some (h2, rest) else drainGo n rest
        from rfl] at hd
    by_cases hc : c = n
    · rw [if_pos hc] at hd
      rw [Option.some.injEq, Prod.mk.injEq] at hd
      obtain ⟨rfl, rfl⟩ := hd
      exact ⟨[], by simp [hc], by simp⟩
    · rw [if_neg hc] at hd
      obtain ⟨pre, hpre, hall⟩ := ih hd
      refine ⟨(h2, c) :: pre, by simp [hpre], ?_⟩
      intro e he
      rcases List.mem_cons.mp he with rfl | he
      · exact hc
      · exact hall e he

theorem drop_eq_dropWhile {G : GenGraph} {b : Nat} :
    ∀ (o : List Nat) (j : Nat), (∀ y ∈ o.take j, b ≤ G.gen y) →
      (∀ y ∈ (o.drop j).head?, G.gen y < b) →
      o.drop j = o.dropWhile (fun y => b ≤ G.gen y) := by
  intro o
  induction o with
  | nil => intro j _ _; simp
  | cons a t ih =>
    intro j hpre hhd
    cases j with
    | zero =>
      have ha : G.gen a < b := hhd a (by simp)
      rw [List.drop_zero, List.dropWhile_cons]
      rw [if_neg (by simpa using Nat.not_le.mpr ha)]
    | succ k =>
      have ha : b ≤ G.gen a := hpre a (by simp)
      rw [show (a :: t).drop (k + 1) = t.drop k from rfl,
          List.dropWhile_cons, if_pos (by simpa using ha)]
      exact ih k (fun y hy => hpre y (by simp [hy])) (by simpa using hhd)

theorem chain_ge_head {G : GenGraph} :
    ∀ {a : Nat} {t : List Nat}, List.Chain' (fun x y => G.gen y ≤ G.gen x) (a :: t) →
      ∀ y ∈ t, G.gen y ≤ G.gen a := by
  intro a t
  induction t generalizing a with
  | nil => intro _ y hy; cases hy
  | cons c t2 ih =>
    intro hch y hy
    have h1 : G.gen c ≤ G.gen a := (List.chain'_cons.mp hch).1
    rcases List.mem_cons.mp hy with rfl | hy
    · exact h1
    · exact le_trans (ih (List.chain'_cons.mp hch).2 y hy) h1

theorem sorted_dropWhile_lt {G : GenGraph} {b : Nat} :
    ∀ {o : List Nat}, List.Chain' (fun a c => G.gen c ≤ G.gen a) o →
      ∀ y ∈ o.dropWhile (fun y => b ≤ G.gen y), G.gen y < b := by
  intro o
  induction o with
  | nil => intro _ y hy; cases hy
  | cons a t ih =>
    intro hs
    rw [List.dropWhile_cons]
    by_cases hb : b ≤ G.gen a
    · rw [if_pos (by simpa using hb)]
      exact ih hs.tail
    · rw [if_neg (by simpa using hb)]
      intro y hy
      rcases List.mem_cons.mp hy with rfl | hy
      · omega
      · exact lt_of_le_of_lt (chain_ge_head hs y hy) (by omega)

theorem presented_cons (b : Nat) (p : List Nat × Slot) (rest : List (List Nat × Slot)) :
    presented b (p :: rest) = presHead b p ++ presented b rest := by
  obtain ⟨rem, slot⟩ := p
  match slot with
  | none => rfl
  | some none => rfl
  | some (some hg) =>
    show List.filterMap _ _ = _
    rw [List.filterMap_cons]
    by_cases hb : hg.2 = b
    · simp [presHead, hb, presented]
    · simp [presHead, hb, presented]

theorem per_step_core (G : GenGraph) (b : Nat) {o : List Nat} {qr : List Nat} {qs : Slot}
    (hwf : InpWF G (qr, qs))
    (hsort : List.Chain' (fun a c => G.gen c ≤ G.gen a) o)
    (hsuf : ∃ j, vstream (qr, qs) = o.drop j ∧ ∀ y ∈ o.take j, b ≤ G.gen y)
    (hsq : qs.isSome) :
    PerInp G b o (consumeSlot b (qr, qs)) ∧
    (∀ x, G.gen x = b →
      (if x ∈ o ∧ x ∉ vstream (consumeSlot b (qr, qs)) then 1 else 0)
        = (if x ∈ o ∧ x ∉ vstream (qr, qs) then 1 else 0)
          + (presHead b (qr, qs)).count x) := by
  obtain ⟨j, hj, hpre⟩ := hsuf
  match qs with
  | none => cases hsq
  | some none =>
    refine ⟨⟨hwf, hsort, j, hj, hpre⟩, ?_⟩
    intro x _
    have hcs : consumeSlot b (qr, some none) = (qr, some none) := rfl
    rw [hcs]
    show _ = _ + (List.count x [])
    simp
  | some (some hg) =>
    have hgen : hg.2 = G.gen hg.1 := hwf.1 hg rfl
    have hvq : vstream (qr, some (some hg)) = hg.1 :: qr := rfl
    have hnd : (hg.1 :: qr).Nodup := by rw [← hvq]; exact hwf.2.2.2
    by_cases hge : b ≤ hg.2
    · have hcs : consumeSlot b (qr, some (some hg)) = (qr, none) := by
        show (if b ≤ hg.2 then (qr, none) else (qr, some (some hg))) = _
        rw [if_pos hge]
      rw [hcs]
      have hdropsucc : o.drop (j + 1) = qr := by
        rw [← List.drop_drop 1 j o, ← hj, hvq, List.drop_one, List.tail_cons]
      have hget : o[j]? = some hg.1 := by
        have h0 : (o.drop j)[0]? = o[j + 0]? := List.getElem?_drop o j 0
        rw [← hj, hvq] at h0
        simpa using h0.symm
      constructor
      · refine ⟨?_, hsort, j + 1, ?_, ?_⟩
        · refine ⟨(by intro hg2 hh; cases hh), (by intro hh; cases hh), ?_, ?_⟩
          · have : List.Chain' (fun a c => G.gen c ≤ G.gen a) (hg.1 :: qr) := by
              rw [← hvq]; exact hwf.2.2.1
            exact this.tail
          · exact (List.nodup_cons.mp hnd).2
        · exact hdropsucc.symm
        · intro y hy
          rw [List.take_succ, hget] at hy
          rcases List.mem_append.mp hy with hy | hy
          · exact hpre y hy
          · simp at hy
            subst hy
            rw [← hgen]
            exact hge
      · intro x hx
        show _ = _ + (List.count x (if hg.2 = b then [hg.1] else []))
        by_cases hxh : x = hg.1
        · subst hxh
          have hb2 : hg.2 = b := by rw [hgen]; exact hx
          rw [if_pos hb2]
          have hmo : hg.1 ∈ o := by
            have h9 : hg.1 ∈ o.drop j := by rw [← hj, hvq]; simp
            exact List.drop_subset j o h9
          have hnq : hg.1 ∉ qr := (List.nodup_cons.mp hnd).1
          rw [if_pos ⟨hmo, hnq⟩, if_neg (by simp [hvq])]
          simp
        · have hc0 : List.count x (if hg.2 = b then [hg.1] else []) = 0 := by
            by_cases hb2 : hg.2 = b <;> simp [hb2, hxh]
          rw [hc0, hvq, show vstream (qr, none) = qr from rfl]
          by_cases h1 : x ∈ o <;> by_cases h2 : x ∈ qr <;>
            simp [h1, h2, hxh, List.mem_cons]
    · have hcs : consumeSlot b (qr, some (some hg)) = (qr, some (some hg)) := by
        show (if b ≤ hg.2 then (qr, none) else (qr, some (some hg))) = _
        rw [if_neg hge]
      rw [hcs]
      refine ⟨⟨hwf, hsort, j, hj, hpre⟩, ?_⟩
      intro x hx
      show _ = _ + (List.count x (if hg.2 = b then [hg.1] else []))
      have hb2 : ¬ hg.2 = b := by omega
      rw [if_neg hb2]
      simp

theorem zip_step (G : GenGraph) (b : Nat) :
    ∀ (origs : List (List Nat)) (inputs : List (List Nat × Slot)),
      origs.length = inputs.length →
      (∀ pr ∈ origs.zip inputs, PerInp G b pr.1 pr.2) →
      (∀ pr ∈ origs.zip ((pollAllInputs G inputs).map (consumeSlot b)), PerInp G b pr.1 pr.2) ∧
      (∀ x, G.gen x = b →
        (origs.zip (((pollAllInputs G inputs).map (consumeSlot b)).map vstream)).countP
            (fun q => decide (x ∈ q.1 ∧ x ∉ q.2))
          = (origs.zip (inputs.map vstream)).countP (fun q => decide (x ∈ q.1 ∧ x ∉ q.2))
            + (presented b (pollAllInputs G inputs)).count x) := by
  intro origs
  induction origs with
  | nil =>
    intro inputs hlen hper
    constructor
    · intro pr hpr
      simp at hpr
    · intro x hx
      have hinp : inputs = [] := List.length_eq_zero.mp hlen.symm
      subst hinp
      simp [pollAllInputs, presented]
  | cons o origs ih =>
    intro inputs hlen hper
    cases inputs with
    | nil => simp at hlen
    | cons p inputs =>
      have hlen2 : origs.length = inputs.length := by simpa using hlen
      have hperh : PerInp G b o p := hper (o, p) (by simp)
      have hpert : ∀ pr ∈ origs.zip inputs, PerInp G b pr.1 pr.2 := by
        intro pr hpr
        exact hper pr (by simp [hpr])
      obtain ⟨ihper, ihcnt⟩ := ih inputs hlen2 hpert
      rcases hq : pollOne G p with ⟨qr, qs⟩
      obtain ⟨hwfp, hsortp, j, hjp, hprep⟩ := hperh
      have hwfq : InpWF G (qr, qs) := by rw [← hq]; exact InpWF_pollOne hwfp
      have hvq : vstream (qr, qs) = vstream p := by rw [← hq]; exact vstream_pollOne G p
      have hsq : qs.isSome := by
        have h9 := pollOne_isSome G p
        rw [hq] at h9
        exact h9
      obtain ⟨hpc, hcnt⟩ :=
        per_step_core G b hwfq hsortp ⟨j, by rw [hvq]; exact hjp, hprep⟩ hsq
      have hpoll_cons : pollAllInputs G (p :: inputs) = (qr, qs) :: pollAllInputs G inputs := by
        show pollOne G p :: _ = _
        rw [hq]
        rfl
      constructor
      · intro pr hpr
        rw [hpoll_cons,
            show ((qr, qs) :: pollAllInputs G inputs).map (consumeSlot b)
              = consumeSlot b (qr, qs) :: (pollAllInputs G inputs).map (consumeSlot b) from rfl,
            List.zip_cons_cons] at hpr
        rcases List.mem_cons.mp hpr with rfl | hpr2
        · exact hpc
        · exact ihper pr hpr2
      · intro x hx
        rw [hpoll_cons,
            show ((qr, qs) :: pollAllInputs G inputs).map (consumeSlot b)
              = consumeSlot b (qr, qs) :: (pollAllInputs G inputs).map (consumeSlot b) from rfl,
            show (consumeSlot b (qr, qs) :: (pollAllInputs G inputs).map (consumeSlot b)).map vstream
              = vstream (consumeSlot b (qr, qs))
                  :: ((pollAllInputs G inputs).map (consumeSlot b)).map vstream from rfl,
            show (p :: inputs).map vstream = vstream p :: inputs.map vstream from rfl,
            List.zip_cons_cons, List.zip_cons_cons, List.countP_cons, List.countP_cons,
            presented_cons, List.count_append]
        simp only [decide_eq_true_eq]
        have h1 := ihcnt x hx
        have h2 := hcnt x hx
        rw [hvq] at h2
        omega

theorem intStep_drain_none (G : GenGraph) (inputs : List (List Nat × Slot))
    (cg : Option Nat) (acc : List (Nat × Nat)) :
    intStep G ⟨inputs, cg, acc, none⟩ =
      intStepTail ⟨pollAllInputs G inputs, cg, acc, none⟩ := rfl

theorem intStep_drain (G : GenGraph) {inputs : List (List Nat × Slot)}
    (hall : ∀ p ∈ inputs, p.2.isSome) (cg : Option Nat) (acc : List (Nat × Nat))
    (d : List (Nat × Nat)) :
    intStep G ⟨inputs, cg, acc, some d⟩ =
      (match drainGo inputs.length d with
       | some (h, d') => .yield h ⟨inputs, cg, acc, some d'⟩
       | none => intStepTail ⟨inputs, cg, acc, none⟩) := by
  have hid : pollAllInputs G inputs = inputs := pollAllInputs_id hall
  have h0 : intStep G ⟨inputs, cg, acc, some d⟩ =
      (match drainGo (pollAllInputs G inputs).length d with
       | some (h, d') => .yield h ⟨pollAllInputs G inputs, cg, acc, some d'⟩
       | none => intStepTail ⟨pollAllInputs G inputs, cg, acc, none⟩) := rfl
  rw [h0, hid]

theorem intRunF_congr_step {G : GenGraph} {s t : IntState}
    (h : intStep G s = intStep G t) : ∀ f, intRunF G f s = intRunF G f t := by
  intro f
  cases f with
  | zero => rfl
  | succ f =>
    show intRunF G (f + 1) s = intRunF G (f + 1) t
    simp only [intRunF, h]

theorem intStepTail_barrier_fin {inputs : List (List Nat × Slot)}
    (hready : allInputsReady inputs = true)
    (hfin : anyInputFinished inputs = true) :
    intStepTail ⟨inputs, none, [], none⟩ = .finished := by
  simp [intStepTail, updateCurrentGeneration, hready, hfin]

theorem intStepTail_barrier_cont {inputs : List (List Nat × Slot)}
    (hready : allInputsReady inputs = true)
    (hfin : anyInputFinished inputs = false) :
    intStepTail ⟨inputs, none, [], none⟩ =
      .cont ⟨inputs, (slotGens inputs).min?, [], none⟩ := by
  simp [intStepTail, updateCurrentGeneration, hready, hfin]

theorem intStepTail_flush {inputs : List (List Nat × Slot)} {acc : List (Nat × Nat)}
    (hready : allInputsReady inputs = true) (hacc : acc ≠ []) :
    intStepTail ⟨inputs, none, acc, none⟩ = .cont ⟨inputs, none, [], some acc⟩ := by
  simp [intStepTail, hready, hacc]

theorem intStepTail_accum {inputs : List (List Nat × Slot)} {b : Nat} {acc : List (Nat × Nat)}
    (hready : allInputsReady inputs = true)
    (hacc : (presented b inputs).foldl accAdd acc ≠ []) :
    intStepTail ⟨inputs, some b, acc, none⟩ =
      .cont ⟨inputs.map (consumeSlot b),
             if anyGe b inputs then some b else none,
             (presented b inputs).foldl accAdd acc, none⟩ := by
  have hstep := accumulateStep_eq b inputs acc
  simp [intStepTail, accumulateNodes, hready, hstep, hacc]

theorem anyGe_false_slots {b : Nat} {inputs : List (List Nat × Slot)}
    (h : anyGe b inputs = false) :
    ∀ p ∈ inputs, ∀ hg, p.2 = some (some hg) → hg.2 < b := by
  intro p hp hg hslot
  rw [anyGe, List.any_eq_false] at h
  have h3 := h p hp
  rw [hslot] at h3
  simp at h3
  omega

theorem consumeSlot_id_of_lt {b : Nat} {p : List Nat × Slot}
    (h : ∀ hg, p.2 = some (some hg) → hg.2 < b) : consumeSlot b p = p := by
  obtain ⟨rem, slot⟩ := p
  match slot with
  | none => rfl
  | some none => rfl
  | some (some hg) =>
    show (if b ≤ hg.2 then (rem, none) else (rem, some (some hg))) = _
    rw [if_neg (by have h9 := h hg rfl; omega)]

theorem presented_nil_of_anyGe_false {b : Nat} :
    ∀ {inputs : List (List Nat × Slot)},
      anyGe b inputs = false → presented b inputs = [] := by
  intro inputs
  induction inputs with
  | nil => intro _; rfl
  | cons p t ih =>
    intro h
    have h2 : (p :: t).any (fun p => match p.2 with
        | some (some hg) => decide (b ≤ hg.2)
        | _ => false) = false := h
    rw [List.any_cons, Bool.or_eq_false_iff] at h2
    have hh : presHead b p = [] := by
      obtain ⟨rem, slot⟩ := p
      match slot with
      | none => rfl
      | some none => rfl
      | some (some hg) =>
        have h3 := h2.1
        simp at h3
        show (if hg.2 = b then [hg.1] else []) = []
        rw [if_neg (by omega)]
    rw [presented_cons, hh, ih h2.2]
    rfl

theorem anyGe_true_witness {b : Nat} {inputs : List (List Nat × Slot)}
    (h : anyGe b inputs = true) :
    ∃ p ∈ inputs, ∃ hg, p.2 = some (some hg) ∧ b ≤ hg.2 := by
  rw [anyGe, List.any_eq_true] at h
  obtain ⟨p, hp, hpred⟩ := h
  refine ⟨p, hp, ?_⟩
  obtain ⟨rem, slot⟩ := p
  match slot with
  | none => simp at hpred
  | some none => simp at hpred
  | some (some hg) =>
    refine ⟨hg, rfl, ?_⟩
    simpa using hpred

theorem vstream_consume_len_le (b : Nat) (p : List Nat × Slot) :
    (vstream (consumeSlot b p)).length ≤ (vstream p).length := by
  obtain ⟨rem, slot⟩ := p
  match slot with
  | none => exact le_refl _
  | some none => exact le_refl _
  | some (some hg) =>
    show (vstream (if b ≤ hg.2 then (rem, none) else (rem, some (some hg)))).length ≤ _
    by_cases hle : b ≤ hg.2
    · rw [if_pos hle]
      show rem.length ≤ (hg.1 :: rem).length
      simp
    · rw [if_neg hle]

theorem vstream_consume_len_lt {b : Nat} {p : List Nat × Slot} {hg : Nat × Nat}
    (hs : p.2 = some (some hg)) (hge : b ≤ hg.2) :
    (vstream (consumeSlot b p)).length < (vstream p).length := by
  obtain ⟨rem, slot⟩ := p
  have hs2 : slot = some (some hg) := hs
  subst hs2
  show (vstream (if b ≤ hg.2 then (rem, none) else (rem, some (some hg)))).length < _
  rw [if_pos hge]
  show rem.length < (hg.1 :: rem).length
  simp

theorem accAdd_ne_nil (acc : List (Nat × Nat)) (h : Nat) : accAdd acc h ≠ [] := by
  cases acc with
  | nil => simp [accAdd]
  | cons e rest =>
    obtain ⟨h2, c⟩ := e
    by_cases hh : h2 = h <;> simp [accAdd, hh]

theorem foldl_accAdd_ne_nil : ∀ (l : List Nat) (acc : List (Nat × Nat)),
    (acc ≠ [] ∨ l ≠ []) → l.foldl accAdd acc ≠ [] := by
  intro l
  induction l with
  | nil =>
    intro acc h
    rcases h with h | h
    · exact h
    · exact absurd rfl h
  | cons a t ih =>
    intro acc _
    show t.foldl accAdd (accAdd acc a) ≠ []
    exact ih _ (Or.inl (accAdd_ne_nil acc a))

theorem mem_presented {b x : Nat} : ∀ {inputs : List (List Nat × Slot)},
    x ∈ presented b inputs ↔ ∃ p ∈ inputs, p.2 = some (some (x, b)) := by
  intro inputs
  induction inputs with
  | nil => simp [presented]
  | cons p t ih =>
    rw [presented_cons, List.mem_append, ih]
    constructor
    · rintro (hx | ⟨p2, hp2, hs⟩)
      · obtain ⟨rem, slot⟩ := p
        match slot with
        | none => simp [presHead] at hx
        | some none => simp [presHead] at hx
        | some (some hg) =>
          by_cases hb : hg.2 = b
          · have hx2 : x = hg.1 := by simpa [presHead, hb] using hx
            refine ⟨(rem, some (some hg)), by simp, ?_⟩
            show some (some hg) = some (some (x, b))
            rw [show (x, b) = hg from by rw [hx2, ← hb]]
          · simp [presHead, hb] at hx
      · exact ⟨p2, by simp [hp2], hs⟩
    · rintro ⟨p2, hp2, hs⟩
      rcases List.mem_cons.mp hp2 with rfl | hp2
      · left
        rw [show presHead b p2 = (if ((x : Nat), b).2 = b then [((x : Nat), b).1] else [])
            from by simp [presHead, hs]]
        simp
      · right
        exact ⟨p2, hp2, hs⟩

theorem presented_gen {G : GenGraph} {b x : Nat} {inputs : List (List Nat × Slot)}
    (hwf : ∀ p ∈ inputs, InpWF G p) (hx : x ∈ presented b inputs) : G.gen x = b := by
  rcases mem_presented.mp hx with ⟨p, hp, hs⟩
  have h9 := (hwf p hp).1 (x, b) hs
  simpa using h9.symm

theorem exit_map (G : GenGraph) (b : Nat) :
    ∀ (origs : List (List Nat)) (inputs : List (List Nat × Slot)),
      origs.length = inputs.length →
      (∀ pr ∈ origs.zip inputs, PerInp G b pr.1 pr.2) →
      (∀ p ∈ inputs, ∀ hg, p.2 = some (some hg) → hg.2 < b) →
      (∀ p ∈ inputs, p.2.isSome) →
      inputs.map vstream = origs.map (fun o => o.dropWhile (fun y => b ≤ G.gen y)) := by
  intro origs
  induction origs with
  | nil =>
    intro inputs hlen _ _ _
    have h9 : inputs = [] := List.length_eq_zero.mp hlen.symm
    subst h9
    rfl
  | cons o origs ih =>
    intro inputs hlen hper hlt hsome
    cases inputs with
    | nil => simp at hlen
    | cons p inputs =>
      have hlen2 : origs.length = inputs.length := by simpa using hlen
      obtain ⟨hwf, hsort, j, hj, hpre⟩ := hper (o, p) (by simp)
      have hhd : ∀ y ∈ (o.drop j).head?, G.gen y < b := by
        intro y hy
        rw [← hj] at hy
        obtain ⟨rem, slot⟩ := p
        match slot with
        | none =>
          have h9 := hsome (rem, none) (by simp)
          simp at h9
        | some none =>
          have hrem : rem = [] := hwf.2.1 rfl
          subst hrem
          cases hy
        | some (some hg) =>
          have hy2 : y = hg.1 := by
            have h9 : hg.1 = y := by simpa [vstream] using hy
            exact h9.symm
          subst hy2
          have h1 := hwf.1 hg rfl
          have h2 := hlt (rem, some (some hg)) (by simp) hg rfl
          omega
      show vstream p :: inputs.map vstream = _
      rw [show ((o :: origs).map (fun o => o.dropWhile (fun y => b ≤ G.gen y)))
            = o.dropWhile (fun y => b ≤ G.gen y) :: origs.map
                (fun o => o.dropWhile (fun y => b ≤ G.gen y)) from rfl]
      rw [hj, drop_eq_dropWhile o j hpre hhd]
      congr 1
      exact ih inputs hlen2 (fun pr hpr => hper pr (by simp [hpr]))
        (fun p2 hp2 => hlt p2 (by simp [hp2])) (fun p2 hp2 => hsome p2 (by simp [hp2]))

theorem InpWF_consumeSlot {G : GenGraph} {b : Nat} {p : List Nat × Slot}
    (h : InpWF G p) : InpWF G (consumeSlot b p) := by
  obtain ⟨rem, slot⟩ := p
  match slot with
  | none => exact h
  | some none => exact h
  | some (some hg) =>
    show InpWF G (if b ≤ hg.2 then (rem, none) else (rem, some (some hg)))
    by_cases hle : b ≤ hg.2
    · rw [if_pos hle]
      have hv : vstream (rem, some (some hg)) = hg.1 :: rem := rfl
      refine ⟨(by intro hg2 hh; cases hh), (by intro hh; cases hh), ?_, ?_⟩
      · have h9 := h.2.2.1
        rw [hv] at h9
        exact h9.tail
      · have h9 := h.2.2.2
        rw [hv] at h9
        exact (List.nodup_cons.mp h9).2
    · rw [if_neg hle]
      exact h

/-- The accumulate loop of one barrier round: starting at current
generation `b` it makes no emission, consumes from every input exactly
the prefix of generation at least `b`, and ends holding per-hash counts
of the inputs containing that hash, with the generation cleared. -/
theorem inner_loop (G : GenGraph) (b : Nat) :
    ∀ (L : Nat) (origs : List (List Nat)) (inputs : List (List Nat × Slot))
      (acc : List (Nat × Nat)),
      ((inputs.map vstream).map List.length).sum ≤ L →
      origs.length = inputs.length →
      (∀ pr ∈ origs.zip inputs, PerInp G b pr.1 pr.2) →
      (∀ p ∈ inputs, InpWF G p) →
      (∀ o ∈ origs, List.Chain' (fun a c => G.gen c ≤ G.gen a) o) →
      (acc.map Prod.fst).Nodup →
      (∀ e ∈ acc, G.gen e.1 = b) →
      (∀ x, G.gen x = b → accLk acc x =
        (origs.zip (inputs.map vstream)).countP (fun q => decide (x ∈ q.1 ∧ x ∉ q.2))) →
      (acc ≠ [] ∨ ∃ p ∈ pollAllInputs G inputs, ∃ hx : Nat, p.2 = some (some (hx, b))) →
      ∃ k inputs' acc',
        IntRunsTo G ⟨inputs, some b, acc, none⟩ k [] ⟨inputs', none, acc', none⟩ ∧
        inputs'.length = inputs.length ∧
        (∀ p ∈ inputs', InpWF G p ∧ p.2.isSome) ∧
        inputs'.map vstream = origs.map (fun o => o.dropWhile (fun y => b ≤ G.gen y)) ∧
        acc' ≠ [] ∧
        (acc'.map Prod.fst).Nodup ∧
        (∀ e ∈ acc', G.gen e.1 = b) ∧
        (∀ x, G.gen x = b → accLk acc' x = origs.countP (fun o => decide (x ∈ o))) := by
  intro L
  induction L using Nat.strong_induction_on with
  | _ L ih =>
    intro origs inputs acc hL hlen hper hwfall hsorted hnd hgen hcnt hne
    have hready := allInputsReady_pollAllInputs G inputs
    obtain ⟨hper2, hcnt2⟩ := zip_step G b origs inputs hlen hper
    have hwfpolled : ∀ p ∈ pollAllInputs G inputs, InpWF G p := InpWF_pollAllInputs hwfall
    have haccne : (presented b (pollAllInputs G inputs)).foldl accAdd acc ≠ [] := by
      rcases hne with hne | ⟨p, hp, hx, hs⟩
      · exact foldl_accAdd_ne_nil _ _ (Or.inl hne)
      · refine foldl_accAdd_ne_nil _ _ (Or.inr ?_)
        intro hnil
        have h9 : hx ∈ presented b (pollAllInputs G inputs) := mem_presented.mpr ⟨p, hp, hs⟩
        rw [hnil] at h9
        cases h9
    have hstep : intStep G ⟨inputs, some b, acc, none⟩ =
        .cont ⟨(pollAllInputs G inputs).map (consumeSlot b),
               if anyGe b (pollAllInputs G inputs) then some b else none,
               (presented b (pollAllInputs G inputs)).foldl accAdd acc, none⟩ := by
      rw [intStep_drain_none]
      exact intStepTail_accum hready haccne
    have hnd2 : (((presented b (pollAllInputs G inputs)).foldl accAdd acc).map
        Prod.fst).Nodup := foldl_keys_nodup _ hnd
    have hgen2 : ∀ e ∈ (presented b (pollAllInputs G inputs)).foldl accAdd acc,
        G.gen e.1 = b := by
      intro e he
      rcases foldl_entry_key _ he with hk | hk
      · rcases List.mem_map.mp hk with ⟨e2, he2, heq⟩
        rw [← heq]
        exact hgen e2 he2
      · exact presented_gen hwfpolled hk
    have haccLk2 : ∀ x, G.gen x = b →
        accLk ((presented b (pollAllInputs G inputs)).foldl accAdd acc) x =
          (origs.zip ((((pollAllInputs G inputs).map (consumeSlot b)).map vstream))).countP
            (fun q => decide (x ∈ q.1 ∧ x ∉ q.2)) := by
      intro x hx
      rw [accLk_foldl, hcnt x hx, hcnt2 x hx]
    by_cases hGe : anyGe b (pollAllInputs G inputs) = true
    · -- at least one slot consumed: recurse on the smaller measure
      have hmeas : ((((pollAllInputs G inputs).map (consumeSlot b)).map vstream).map
          List.length).sum < ((inputs.map vstream).map List.length).sum := by
        rw [show ((inputs.map vstream).map List.length).sum
              = (((pollAllInputs G inputs).map vstream).map List.length).sum from by
            rw [vstream_pollAllInputs]]
        rw [List.map_map, List.map_map, List.map_map]
        refine List.sum_lt_sum _ _ ?_ ?_
        · intro p _
          exact vstream_consume_len_le b p
        · obtain ⟨p, hp, hg, hs, hge⟩ := anyGe_true_witness hGe
          exact ⟨p, hp, vstream_consume_len_lt hs hge⟩
      have hlt : ((((pollAllInputs G inputs).map (consumeSlot b)).map vstream).map
          List.length).sum < L := lt_of_lt_of_le hmeas hL
      have hlen3 : origs.length = ((pollAllInputs G inputs).map (consumeSlot b)).length := by
        rw [List.length_map, pollAllInputs_length]
        exact hlen
      have hwf3 : ∀ p ∈ (pollAllInputs G inputs).map (consumeSlot b), InpWF G p := by
        intro p hp
        rcases List.mem_map.mp hp with ⟨q, hq, rfl⟩
        exact InpWF_consumeSlot (hwfpolled q hq)
      rw [if_pos hGe] at hstep
      obtain ⟨k, inputs', acc', hrun, hlen', hwf', hmap', hne', hnd', hgen', hcnt'⟩ :=
        ih _ hlt origs _ _ (le_refl _) hlen3 hper2 hwf3 hsorted hnd2 hgen2 haccLk2
          (Or.inl haccne)
      refine ⟨1 + k, inputs', acc', ?_, ?_, hwf', hmap', hne', hnd', hgen', hcnt'⟩
      · have h9 := intRunsTo_trans (intRunsTo_cont hstep) hrun
        simpa using h9
      · rw [hlen', List.length_map, pollAllInputs_length]
    · -- round over: no held item reaches generation b
      have hGe2 : anyGe b (pollAllInputs G inputs) = false := by
        cases h9 : anyGe b (pollAllInputs G inputs)
        · rfl
        · exact absurd h9 hGe
      have haccne0 : acc ≠ [] := by
        rcases hne with hne | ⟨p, hp, hx, hs⟩
        · exact hne
        · have h9 := anyGe_false_slots hGe2 p hp (hx, b) hs
          omega
      have hid : (pollAllInputs G inputs).map (consumeSlot b) = pollAllInputs G inputs := by
        have h9 : ∀ p ∈ pollAllInputs G inputs, consumeSlot b p = p := by
          intro p hp
          exact consumeSlot_id_of_lt (anyGe_false_slots hGe2 p hp)
        have h10 := List.map_congr_left h9
        simpa using h10
      have hpres : presented b (pollAllInputs G inputs) = [] :=
        presented_nil_of_anyGe_false hGe2
      have hstep2 : intStep G ⟨inputs, some b, acc, none⟩ =
          .cont ⟨pollAllInputs G inputs, none, acc, none⟩ := by
        rw [hstep, hid, hpres, if_neg (by simp [hGe2]), List.foldl_nil]
      have hsome3 : ∀ p ∈ pollAllInputs G inputs, p.2.isSome := by
        intro p hp
        rcases List.mem_map.mp hp with ⟨q, _, rfl⟩
        exact pollOne_isSome G q
      have hper3 : ∀ pr ∈ origs.zip (pollAllInputs G inputs), PerInp G b pr.1 pr.2 := by
        rw [← hid]
        exact hper2
      have hlen4 : origs.length = (pollAllInputs G inputs).length := by
        rw [pollAllInputs_length]
        exact hlen
      have hmapfin : (pollAllInputs G inputs).map vstream =
          origs.map (fun o => o.dropWhile (fun y => b ≤ G.gen y)) :=
        exit_map G b origs _ hlen4 hper3 (anyGe_false_slots hGe2) hsome3
      refine ⟨1, pollAllInputs G inputs, acc, intRunsTo_cont hstep2, pollAllInputs_length G _,
             (fun p hp => ⟨hwfpolled p hp, hsome3 p hp⟩), hmapfin, haccne0, hnd, hgen, ?_⟩
      intro x hx
      have hzipmap : origs.zip (origs.map (fun o => o.dropWhile (fun y => b ≤ G.gen y)))
          = origs.map (fun o => (o, o.dropWhile (fun y => b ≤ G.gen y))) := by
        have h9 := List.zip_map' (fun o => o)
          (fun o : List Nat => o.dropWhile (fun y => b ≤ G.gen y)) origs
        simpa using h9
      rw [hcnt x hx,
          show inputs.map vstream = (pollAllInputs G inputs).map vstream from
            (vstream_pollAllInputs G inputs).symm,
          hmapfin, hzipmap, List.countP_map]
      refine List.countP_congr ?_
      intro o ho
      show (decide (x ∈ o ∧ x ∉ o.dropWhile (fun y => b ≤ G.gen y)) = true)
        ↔ (decide (x ∈ o) = true)
      simp only [decide_eq_true_eq]
      constructor
      · intro h9
        exact h9.1
      · intro h9
        refine ⟨h9, ?_⟩
        intro hmem
        have h10 := sorted_dropWhile_lt (hsorted o ho) x hmem
        omega

theorem drainGo_none_inv {n : Nat} : ∀ {d : List (Nat × Nat)},
    drainGo n d = none → ∀ e ∈ d, e.2 ≠ n := by
  intro d
  induction d with
  | nil =>
    intro _ e he
    cases he
  | cons e2 rest ih =>
    obtain ⟨h, c⟩ := e2
    intro hd e he
    rw [show drainGo n ((h, c) :: rest) = if c = n then some (h, rest) else drainGo n rest
        from rfl] at hd
    by_cases hc : c = n
    · rw [if_pos hc] at hd
      cases hd
    · rw [if_neg hc] at hd
      rcases List.mem_cons.mp he with rfl | he
      · exact hc
      · exact ih hd e he

theorem mem_flushOut {n x : Nat} {d : List (Nat × Nat)} :
    x ∈ flushOut n d ↔ ∃ e ∈ d, e.2 = n ∧ e.1 = x := by
  rw [flushOut]
  simp only [List.mem_map, List.mem_filter]
  constructor
  · rintro ⟨e, ⟨he, hn⟩, hx⟩
    exact ⟨e, he, by simpa using hn, hx⟩
  · rintro ⟨e, he, hn, hx⟩
    exact ⟨e, ⟨he, by simpa using hn⟩, hx⟩

theorem flushOut_nodup {n : Nat} {d : List (Nat × Nat)}
    (hnd : (d.map Prod.fst).Nodup) : (flushOut n d).Nodup := by
  rw [flushOut]
  exact hnd.sublist ((List.filter_sublist d).map Prod.fst)

theorem nat_foldl_min_le (t : List Nat) :
    ∀ (c : Nat), t.foldl min c ≤ c ∧ ∀ b ∈ t, t.foldl min c ≤ b := by
  induction t with
  | nil =>
    intro c
    exact ⟨le_refl c, by intro b hb; cases hb⟩
  | cons d t ih =>
    intro c
    obtain ⟨h1, h2⟩ := ih (min c d)
    refine ⟨le_trans h1 (min_le_left c d), ?_⟩
    intro b hb
    rcases List.mem_cons.mp hb with rfl | hb
    · exact le_trans h1 (min_le_right c b)
    · exact h2 b hb

theorem nat_min?_le {l : List Nat} {a : Nat} (h : l.min? = some a) : ∀ b ∈ l, a ≤ b := by
  cases l with
  | nil => cases h
  | cons c t =>
    rw [List.min?_cons', Option.some.injEq] at h
    subst h
    intro b hb
    rcases List.mem_cons.mp hb with rfl | hb
    · exact (nat_foldl_min_le t b).1
    · exact (nat_foldl_min_le t c).2 b hb

theorem nat_min?_mem {l : List Nat} {a : Nat} (h : l.min? = some a) : a ∈ l :=
  List.min?_mem (fun a b => min_choice a b) h

theorem accLk_zero_of_not_mem {acc : List (Nat × Nat)} {x : Nat}
    (h : x ∉ acc.map Prod.fst) : accLk acc x = 0 := by
  induction acc with
  | nil => rfl
  | cons e rest ih =>
    obtain ⟨h2, c⟩ := e
    simp only [List.map_cons, List.mem_cons] at h
    rw [accLk_cons, if_neg (fun hh => h (Or.inl hh.symm))]
    exact ih (fun hh => h (Or.inr hh))

theorem mem_keys_of_accLk_pos {acc : List (Nat × Nat)} {x : Nat}
    (h : accLk acc x ≠ 0) : x ∈ acc.map Prod.fst := by
  by_contra hmem
  exact h (accLk_zero_of_not_mem hmem)

/-- Flushing the drain yields exactly the full-count entries, in order. -/
theorem drain_flush (G : GenGraph) {inputs : List (List Nat × Slot)}
    (hall : ∀ p ∈ inputs, p.2.isSome) (cg : Option Nat) (acc : List (Nat × Nat)) :
    ∀ (L : Nat) (d : List (Nat × Nat)), d.length ≤ L →
      IntRunsTo G ⟨inputs, cg, acc, some d⟩ (flushOut inputs.length d).length
        (flushOut inputs.length d) ⟨inputs, cg, acc, none⟩ := by
  intro L
  induction L with
  | zero =>
    intro d hd
    have hdnil : d = [] := List.length_eq_zero.mp (Nat.le_zero.mp hd)
    subst hdnil
    show IntRunsTo G _ (List.length []) [] _
    refine intRunsTo_of_eq (intRunF_congr_step ?_)
    rw [intStep_drain G hall cg acc [], intStep_drain_none, pollAllInputs_id hall]
    rfl
  | succ L ihL =>
    intro d hd
    rcases hdg : drainGo inputs.length d with _ | ⟨h, d'⟩
    · have hflush : flushOut inputs.length d = [] := by
        rw [flushOut]
        rw [List.filter_eq_nil_iff.mpr ?_]
        · rfl
        · intro e he
          simpa using drainGo_none_inv hdg e he
      rw [hflush]
      show IntRunsTo G _ (List.length ([] : List Nat)) [] _
      refine intRunsTo_of_eq (intRunF_congr_step ?_)
      rw [intStep_drain G hall cg acc d, hdg, intStep_drain_none, pollAllInputs_id hall]
    · obtain ⟨pre, hpre_eq, hpre_ne⟩ := drainGo_some_inv hdg
      have hstep : intStep G ⟨inputs, cg, acc, some d⟩ =
          .yield h ⟨inputs, cg, acc, some d'⟩ := by
        rw [intStep_drain G hall cg acc d, hdg]
      have hlen9 : d'.length ≤ L := by
        subst hpre_eq
        rw [List.length_append] at hd
        simp at hd
        omega
      have hrest := ihL d' hlen9
      have htrans := intRunsTo_trans (intRunsTo_yield hstep) hrest
      have hflush : flushOut inputs.length d = h :: flushOut inputs.length d' := by
        subst hpre_eq
        rw [flushOut, List.filter_append,
            List.filter_eq_nil_iff.mpr (fun e he => by simpa using hpre_ne e he)]
        simp [flushOut]
      rw [hflush,
          show (h :: flushOut inputs.length d').length
            = 1 + (flushOut inputs.length d').length from by simp [Nat.add_comm]]
      exact htrans

theorem vstream_nil_of_end {G : GenGraph} {p : List Nat × Slot} (hwf : InpWF G p)
    (h : p.2 = some none) : vstream p = [] := by
  obtain ⟨rem, slot⟩ := p
  have h2 : slot = some none := h
  subst h2
  exact hwf.2.1 rfl

theorem anyInputFinished_true_inv {l : List (List Nat × Slot)}
    (h : anyInputFinished l = true) : l = [] ∨ ∃ p ∈ l, p.2 = some none := by
  rw [anyInputFinished] at h
  by_cases hemp : l.isEmpty = true
  · left
    exact List.isEmpty_iff.mp hemp
  · right
    rw [if_neg hemp, List.any_eq_true] at h
    obtain ⟨p, hp, hpred⟩ := h
    exact ⟨p, hp, by simpa using hpred⟩

theorem anyInputFinished_false_inv {l : List (List Nat × Slot)}
    (h : anyInputFinished l = false) : ∀ p ∈ l, ¬ p.2 = some none := by
  intro p hp hend
  rw [anyInputFinished] at h
  by_cases hemp : l.isEmpty = true
  · rw [if_pos hemp] at h
    cases h
  · rw [if_neg hemp, List.any_eq_false] at h
    have h9 := h p hp
    simp [hend] at h9

theorem mem_slotGens {g : Nat} {l : List (List Nat × Slot)} :
    g ∈ slotGens l ↔ ∃ p ∈ l, ∃ x, p.2 = some (some (x, g)) := by
  rw [slotGens]
  simp only [List.mem_filterMap]
  constructor
  · rintro ⟨p, hp, hmatch⟩
    refine ⟨p, hp, ?_⟩
    match hs : p.2 with
    | none => rw [hs] at hmatch; cases hmatch
    | some none => rw [hs] at hmatch; cases hmatch
    | some (some hg) =>
      rw [hs] at hmatch
      have hmatch2 : some hg.2 = some g := hmatch
      rw [Option.some.injEq] at hmatch2
      have h9 : (hg.1, g) = hg := by rw [← hmatch2]
      refine ⟨hg.1, ?_⟩
      rw [h9]
  · rintro ⟨p, hp, x, hs⟩
    exact ⟨p, hp, by rw [hs]⟩

theorem allInputsReady_of_some {l : List (List Nat × Slot)}
    (h : ∀ p ∈ l, p.2.isSome) : allInputsReady l = true := by
  rw [allInputsReady, List.all_eq_true]
  exact h

/-- Master theorem for `IntersectNodeStream`: on well-formed inputs it
terminates and emits exactly the common hashes, in non-increasing
generation order without duplicates. -/
theorem int_master (G : GenGraph) :
    ∀ (L : Nat) (inputs : List (List Nat × Slot)),
      ((inputs.map vstream).map List.length).sum ≤ L →
      inputs ≠ [] →
      (∀ p ∈ inputs, InpWF G p) →
      ∃ out, IntDone G ⟨inputs, none, [], none⟩ out ∧
        (∀ x, x ∈ out ↔ ∀ p ∈ inputs, x ∈ vstream p) ∧
        List.Chain' (fun a c => G.gen c ≤ G.gen a) out ∧ out.Nodup := by
  intro L
  induction L using Nat.strong_induction_on with
  | _ L ih =>
    intro inputs hL hne hwf
    have hready := allInputsReady_pollAllInputs G inputs
    have hwfpolled := InpWF_pollAllInputs hwf
    have hpolled_some : ∀ p ∈ pollAllInputs G inputs, p.2.isSome := by
      intro p hp
      rcases List.mem_map.mp hp with ⟨q, _, rfl⟩
      exact pollOne_isSome G q
    by_cases hfin : anyInputFinished (pollAllInputs G inputs) = true
    · have hstep : intStep G ⟨inputs, none, [], none⟩ = .finished := by
        rw [intStep_drain_none]
        exact intStepTail_barrier_fin hready hfin
      refine ⟨[], intDone_of_finished hstep, ?_, List.chain'_nil, List.nodup_nil⟩
      intro x
      simp only [List.not_mem_nil, false_iff]
      intro hforall
      rcases anyInputFinished_true_inv hfin with hemp | ⟨p, hp, hend⟩
      · have h9 := pollAllInputs_length G inputs
        rw [hemp] at h9
        exact hne (List.length_eq_zero.mp h9.symm)
      · rcases List.mem_map.mp hp with ⟨q, hq, rfl⟩
        have hv0 : vstream (pollOne G q) = [] :=
          vstream_nil_of_end (InpWF_pollOne (hwf q hq)) hend
        have hvq : vstream q = [] := by
          rw [← vstream_pollOne G q]
          exact hv0
        have h9 := hforall q hq
        rw [hvq] at h9
        cases h9
    · have hfin2 : anyInputFinished (pollAllInputs G inputs) = false := by
        cases h9 : anyInputFinished (pollAllInputs G inputs)
        · rfl
        · exact absurd h9 hfin
      have hnoend := anyInputFinished_false_inv hfin2
      have hitem : ∀ p ∈ pollAllInputs G inputs, ∃ hg, p.2 = some (some hg) := by
        intro p hp
        have h1 : p.2.isSome := hpolled_some p hp
        match hslot : p.2 with
        | none => rw [hslot] at h1; cases h1
        | some none => exact absurd hslot (hnoend p hp)
        | some (some hg) => exact ⟨hg, rfl⟩
      have hpne : pollAllInputs G inputs ≠ [] := by
        intro h9
        have h10 := pollAllInputs_length G inputs
        rw [h9] at h10
        exact hne (List.length_eq_zero.mp h10.symm)
      obtain ⟨p0, hp0⟩ : ∃ p, p ∈ pollAllInputs G inputs := by
        cases hpp : pollAllInputs G inputs with
        | nil => exact absurd hpp hpne
        | cons a t => exact ⟨a, by simp⟩
      obtain ⟨hg0, hs0⟩ := hitem p0 hp0
      have hg0mem : hg0.2 ∈ slotGens (pollAllInputs G inputs) := by
        refine mem_slotGens.mpr ⟨p0, hp0, hg0.1, ?_⟩
        rw [hs0]
      rcases hmin : (slotGens (pollAllInputs G inputs)).min? with _ | b
      · rw [List.min?_eq_none_iff] at hmin
        rw [hmin] at hg0mem
        cases hg0mem
      · obtain ⟨pstar, hpstar, xstar, hsstar⟩ := mem_slotGens.mp (nat_min?_mem hmin)
        have hstep : intStep G ⟨inputs, none, [], none⟩ =
            .cont ⟨pollAllInputs G inputs, some b, [], none⟩ := by
          rw [intStep_drain_none, intStepTail_barrier_cont hready hfin2, hmin]
        have hpp_id : pollAllInputs G (pollAllInputs G inputs) = pollAllInputs G inputs :=
          pollAllInputs_id hpolled_some
        have hzipself : ((pollAllInputs G inputs).map vstream).zip (pollAllInputs G inputs)
            = (pollAllInputs G inputs).map (fun p => (vstream p, p)) := by
          have h9 := List.zip_map' vstream (fun p => p) (pollAllInputs G inputs)
          simpa using h9
        have hper0 : ∀ pr ∈ ((pollAllInputs G inputs).map vstream).zip
            (pollAllInputs G inputs), PerInp G b pr.1 pr.2 := by
          intro pr hpr
          rw [hzipself] at hpr
          rcases List.mem_map.mp hpr with ⟨q, hq, rfl⟩
          exact ⟨hwfpolled q hq, (hwfpolled q hq).2.2.1, 0, by simp, by simp⟩
        have hcnt0 : ∀ x, G.gen x = b → accLk [] x =
            (((pollAllInputs G inputs).map vstream).zip
              ((pollAllInputs G inputs).map vstream)).countP
                (fun q => decide (x ∈ q.1 ∧ x ∉ q.2)) := by
          intro x _
          rw [accLk_nil]
          symm
          have hzip2 : ((pollAllInputs G inputs).map vstream).zip
              ((pollAllInputs G inputs).map vstream)
              = (pollAllInputs G inputs).map (fun p => (vstream p, vstream p)) :=
            List.zip_map' vstream vstream _
          rw [hzip2, List.countP_eq_zero]
          intro q hq
          rcases List.mem_map.mp hq with ⟨p, _, rfl⟩
          simp
        have hmeasP : (((pollAllInputs G inputs).map vstream).map List.length).sum
            = ((inputs.map vstream).map List.length).sum := by
          rw [vstream_pollAllInputs]
        obtain ⟨k1, inputs', acc', hrun, hlen', hwf', hmap', haccne', hnd', hgen', hcnt'⟩ :=
          inner_loop G b ((((pollAllInputs G inputs).map vstream).map List.length).sum)
            ((pollAllInputs G inputs).map vstream) (pollAllInputs G inputs) []
            (le_refl _) (List.length_map _ _) hper0 hwfpolled
            (fun o ho => by
              rcases List.mem_map.mp ho with ⟨q, hq, rfl⟩
              exact (hwfpolled q hq).2.2.1)
            (by simp) (by intro e he; cases he) hcnt0
            (Or.inr ⟨pstar, by rw [hpp_id]; exact hpstar, xstar, hsstar⟩)
        have hsome' : ∀ p ∈ inputs', p.2.isSome := fun p hp => (hwf' p hp).2
        have hready' : allInputsReady inputs' = true := allInputsReady_of_some hsome'
        have hstep_flush : intStep G ⟨inputs', none, acc', none⟩ =
            .cont ⟨inputs', none, [], some acc'⟩ := by
          rw [intStep_drain_none, pollAllInputs_id hsome']
          exact intStepTail_flush hready' haccne'
        have hflushrun := drain_flush G hsome' none ([] : List (Nat × Nat))
          acc'.length acc' (le_refl _)
        have hlNN : inputs'.length = inputs.length := by
          rw [hlen', pollAllInputs_length]
        have horiglen : ((pollAllInputs G inputs).map vstream).length = inputs.length := by
          rw [List.length_map, pollAllInputs_length]
        -- the minimum is attained with generation b at pstar
        have hxstar_gen : G.gen xstar = b := by
          have h9 := (hwfpolled pstar hpstar).1 (xstar, b) hsstar
          exact h9.symm
        have hvstar : vstream pstar = xstar :: pstar.1 := by
          obtain ⟨rem, slot⟩ := pstar
          have h9 : slot = some (some (xstar, b)) := hsstar
          subst h9
          rfl
        -- strict measure decrease
        have hmeas' : ((inputs'.map vstream).map List.length).sum
            < ((inputs.map vstream).map List.length).sum := by
          rw [hmap', ← hmeasP, List.map_map, List.map_map, List.map_map]
          refine List.sum_lt_sum _ _ ?_ ?_
          · intro p _
            simp only [Function.comp]
            exact (List.dropWhile_sublist _).length_le
          · refine ⟨pstar, hpstar, ?_⟩
            simp only [Function.comp]
            rw [hvstar]
            show ((xstar :: pstar.1).dropWhile (fun y => b ≤ G.gen y)).length
              < (xstar :: pstar.1).length
            rw [List.dropWhile_cons, if_pos (by simp [hxstar_gen])]
            have h9 := (List.dropWhile_sublist (l := pstar.1)
              (p := fun y => decide (b ≤ G.gen y))).length_le
            simp only [List.length_cons]
            omega
        obtain ⟨out', hdone', hiff', hchain', hnd2'⟩ :=
          ih _ (lt_of_lt_of_le hmeas' hL) inputs' (le_refl _)
            (by intro h9; rw [h9] at hlNN; exact hne (List.length_eq_zero.mp hlNN.symm))
            (fun p hp => (hwf' p hp).1)
        -- compose the run
        have h12 := intRunsTo_trans (intRunsTo_cont hstep) hrun
        have h13 := intRunsTo_trans h12 (intRunsTo_cont hstep_flush)
        have h14 := intRunsTo_trans h13 hflushrun
        have hdone : IntDone G ⟨inputs, none, [], none⟩
            ((flushOut inputs'.length acc') ++ out') := intDone_compose h14 hdone'
        -- membership characterisations
        have hmemorig : ∀ o ∈ (pollAllInputs G inputs).map vstream,
            ∃ p ∈ inputs, o = vstream p := by
          intro o ho
          rcases List.mem_map.mp ho with ⟨q, hq, rfl⟩
          rcases List.mem_map.mp hq with ⟨p, hp, rfl⟩
          exact ⟨p, hp, vstream_pollOne G p⟩
        have horigall : ∀ x, (∀ p ∈ inputs, x ∈ vstream p) →
            ∀ o ∈ (pollAllInputs G inputs).map vstream, x ∈ o := by
          intro x hx o ho
          rcases hmemorig o ho with ⟨p, hp, rfl⟩
          exact hx p hp
        have hEchar : ∀ x, x ∈ flushOut inputs'.length acc' ↔
            (G.gen x = b ∧ ∀ p ∈ inputs, x ∈ vstream p) := by
          intro x
          constructor
          · intro hx
            rcases mem_flushOut.mp hx with ⟨e, he, hcount, hkey⟩
            have hgenx : G.gen x = b := by
              rw [← hkey]
              exact hgen' e he
            refine ⟨hgenx, ?_⟩
            have hdet := acc_entry_det hnd' e he
            have haccx : accLk acc' x = inputs.length := by
              rw [← hkey, ← hdet, hcount, hlNN]
            have hcountP := hcnt' x hgenx
            rw [haccx] at hcountP
            have hall2 := List.countP_eq_length.mp (by rw [← hcountP, horiglen])
            intro p hp
            have h9 : vstream (pollOne G p) ∈ (pollAllInputs G inputs).map vstream :=
              List.mem_map.mpr ⟨pollOne G p, List.mem_map.mpr ⟨p, hp, rfl⟩, rfl⟩
            have h10 := hall2 _ h9
            rw [vstream_pollOne] at h10
            simpa using h10
          · rintro ⟨hgenx, hall⟩
            have hcountP := hcnt' x hgenx
            have hallo := horigall x hall
            have hlenP : ((pollAllInputs G inputs).map vstream).countP
                (fun o => decide (x ∈ o)) = ((pollAllInputs G inputs).map vstream).length :=
              List.countP_eq_length.mpr (fun o ho => by simpa using hallo o ho)
            have haccx : accLk acc' x = inputs.length := by
              rw [hcountP, hlenP, horiglen]
            have hpos : accLk acc' x ≠ 0 := by
              rw [haccx]
              intro h9
              exact hne (List.length_eq_zero.mp h9)
            have hkey := mem_keys_of_accLk_pos hpos
            rcases List.mem_map.mp hkey with ⟨e, he, hk⟩
            refine mem_flushOut.mpr ⟨e, he, ?_, hk⟩
            rw [acc_entry_det hnd' e he, hk, haccx, hlNN]
        have hout'lt : ∀ x ∈ out', G.gen x < b := by
          intro x hx
          have hall := (hiff' x).mp hx
          obtain ⟨q0, hq0⟩ : ∃ q, q ∈ inputs' := by
            cases hqq : inputs' with
            | nil =>
              rw [hqq] at hlNN
              exact absurd (List.length_eq_zero.mp hlNN.symm) hne
            | cons a t => exact ⟨a, by simp⟩
          have hx9 : x ∈ vstream q0 := hall q0 hq0
          have h9 : vstream q0 ∈ inputs'.map vstream := List.mem_map.mpr ⟨q0, hq0, rfl⟩
          rw [hmap'] at h9
          rcases List.mem_map.mp h9 with ⟨o, ho, heq⟩
          rw [← heq] at hx9
          rcases hmemorig o ho with ⟨p, hp, rfl⟩
          exact sorted_dropWhile_lt (hwf p hp).2.2.1 x hx9
        have hout'iff : ∀ x, x ∈ out' ↔ (G.gen x < b ∧ ∀ p ∈ inputs, x ∈ vstream p) := by
          intro x
          constructor
          · intro hx
            refine ⟨hout'lt x hx, ?_⟩
            have hall := (hiff' x).mp hx
            intro p hp
            have ho : vstream (pollOne G p) ∈ (pollAllInputs G inputs).map vstream :=
              List.mem_map.mpr ⟨pollOne G p, List.mem_map.mpr ⟨p, hp, rfl⟩, rfl⟩
            have hdw : (vstream (pollOne G p)).dropWhile (fun y => b ≤ G.gen y)
                ∈ inputs'.map vstream := by
              rw [hmap']
              exact List.mem_map.mpr ⟨vstream (pollOne G p), ho, rfl⟩
            rcases List.mem_map.mp hdw with ⟨p', hp', heq⟩
            have hx9 : x ∈ vstream p' := hall p' hp'
            rw [heq] at hx9
            have h10 : x ∈ vstream (pollOne G p) :=
              (List.dropWhile_sublist _).subset hx9
            rw [vstream_pollOne] at h10
            exact h10
          · rintro ⟨hlt, hall⟩
            refine (hiff' x).mpr ?_
            intro p' hp'
            have h9 : vstream p' ∈ inputs'.map vstream := List.mem_map.mpr ⟨p', hp', rfl⟩
            rw [hmap'] at h9
            rcases List.mem_map.mp h9 with ⟨o, ho, heq⟩
            have hxo : x ∈ o := horigall x hall o ho
            have hxdw : x ∈ o.dropWhile (fun y => b ≤ G.gen y) := by
              have hsplit := List.takeWhile_append_dropWhile
                (p := fun y => decide (b ≤ G.gen y)) (l := o)
              rw [← hsplit] at hxo
              rcases List.mem_append.mp hxo with h10 | h10
              · have h11 := List.mem_takeWhile_imp h10
                simp at h11
                omega
              · exact h10
            rw [heq] at hxdw
            exact hxdw
        refine ⟨flushOut inputs'.length acc' ++ out', hdone, ?_, ?_, ?_⟩
        · intro x
          constructor
          · intro hx
            rcases List.mem_append.mp hx with hx | hx
            · exact ((hEchar x).mp hx).2
            · exact ((hout'iff x).mp hx).2
          · intro hall
            -- every common hash has generation at most b
            rcases List.mem_map.mp hpstar with ⟨qstar, hqstar, hqeq⟩
            have hxin : x ∈ vstream pstar := by
              rw [← hqeq, vstream_pollOne]
              exact hall qstar hqstar
            have hgle : G.gen x ≤ b := by
              rw [hvstar] at hxin
              rcases List.mem_cons.mp hxin with rfl | hxin
              · rw [hxstar_gen]
              · have hch : List.Chain' (fun a c => G.gen c ≤ G.gen a) (xstar :: pstar.1) := by
                  rw [← hvstar]
                  exact (hwfpolled pstar hpstar).2.2.1
                have h9 := chain_ge_head hch x hxin
                rw [hxstar_gen] at h9
                exact h9
            rcases Nat.lt_or_ge (G.gen x) b with hlt | hge
            · exact List.mem_append.mpr (Or.inr ((hout'iff x).mpr ⟨hlt, hall⟩))
            · have hgeq : G.gen x = b := le_antisymm hgle hge
              exact List.mem_append.mpr (Or.inl ((hEchar x).mpr ⟨hgeq, hall⟩))
        · rw [List.chain'_append]
          refine ⟨?_, hchain', ?_⟩
          · exact chain_const_gen G b _ (fun a ha => ((hEchar a).mp ha).1)
          · intro x hx y hy
            have hxl : x ∈ flushOut inputs'.length acc' := by
              rcases List.mem_getLast?_eq_getLast hx with ⟨h9, rfl⟩
              exact List.getLast_mem h9
            have hyl : y ∈ out' := List.mem_of_mem_head? hy
            rw [((hEchar x).mp hxl).1]
            exact le_of_lt (hout'lt y hyl)
        · rw [List.nodup_append]
          refine ⟨flushOut_nodup hnd', hnd2', ?_⟩
          intro a ha ha2
          have h1 := ((hEchar a).mp ha).1
          have h2 := hout'lt a ha2
          omega

theorem intStepTail_no_yield {s : IntState} {h : Nat} {s' : IntState}
    (heq : intStepTail s = .yield h s') : False := by
  rw [intStepTail] at heq
  by_cases h1 : allInputsReady s.inputs = true
  · rw [if_pos h1] at heq
    have heq2 : (fun s2 : IntState =>
        if s2.drain = none ∧ s2.accumulator = [] ∧ anyInputFinished s2.inputs = true
        then IntStepRes.finished else IntStepRes.cont s2)
        (match s.currentGeneration with
         | none => if s.accumulator.isEmpty = true then updateCurrentGeneration s
                   else { s with drain := some s.accumulator, accumulator := [] }
         | some cur => accumulateNodes cur s) = .yield h s' := heq
    set t := (match s.currentGeneration with
         | none => if s.accumulator.isEmpty = true then updateCurrentGeneration s
                   else { s with drain := some s.accumulator, accumulator := [] }
         | some cur => accumulateNodes cur s) with ht
    simp only [] at heq2
    by_cases h2 : t.drain = none ∧ t.accumulator = [] ∧ anyInputFinished t.inputs = true
    · rw [if_pos h2] at heq2
      cases heq2
    · rw [if_neg h2] at heq2
      cases heq2
  · rw [if_neg h1] at heq
    cases heq

theorem intStep_yield_inv {G : GenGraph} {s : IntState} {h : Nat} {s' : IntState}
    (heq : intStep G s = .yield h s') :
    ∃ d pre d', s.drain = some d ∧ d = pre ++ (h, s.inputs.length) :: d' ∧
      ∀ e ∈ pre, e.2 ≠ s.inputs.length := by
  obtain ⟨si, scg, sacc, sd⟩ := s
  rcases sd with _ | d
  · exfalso
    rw [intStep_drain_none] at heq
    exact intStepTail_no_yield heq
  · have h0 : intStep G ⟨si, scg, sacc, some d⟩ =
        (match drainGo (pollAllInputs G si).length d with
         | some (h2, d2) => .yield h2 ⟨pollAllInputs G si, scg, sacc, some d2⟩
         | none => intStepTail ⟨pollAllInputs G si, scg, sacc, none⟩) := rfl
    rw [h0] at heq
    rcases hdg : drainGo (pollAllInputs G si).length d with _ | ⟨h2, d2⟩
    · rw [hdg] at heq
      exact absurd heq (fun hh => intStepTail_no_yield hh)
    · rw [hdg] at heq
      rw [IntStepRes.yield.injEq] at heq
      obtain ⟨rfl, rfl⟩ := heq
      obtain ⟨pre, hpre, hprene⟩ := drainGo_some_inv hdg
      rw [pollAllInputs_length] at hpre hprene
      exact ⟨d, pre, d2, rfl, hpre, hprene⟩

theorem intInit_wf {G : GenGraph} {streams : List (List Nat)}
    (hs : ∀ l ∈ streams, List.Chain' (fun a c => G.gen c ≤ G.gen a) l)
    (hn : ∀ l ∈ streams, l.Nodup) :
    ∀ p ∈ streams.map (fun l => ((l, none) : List Nat × Slot)), InpWF G p := by
  intro p hp
  rcases List.mem_map.mp hp with ⟨l, hl, rfl⟩
  exact ⟨(by intro hg hh; cases hh), (by intro hh; cases hh), hs l hl, hn l hl⟩

theorem intInit_master (G : GenGraph) (streams : List (List Nat))
    (hne : streams ≠ [])
    (hs : ∀ l ∈ streams, List.Chain' (fun a c => G.gen c ≤ G.gen a) l)
    (hn : ∀ l ∈ streams, l.Nodup) :
    ∃ fuel out, (∀ extra, intRunF G (fuel + extra) (intInit streams) = (out, true)) ∧
      (∀ x, x ∈ out ↔ ∀ l ∈ streams, x ∈ l) ∧
      List.Chain' (fun a c => G.gen c ≤ G.gen a) out ∧ out.Nodup := by
  have hmapne : streams.map (fun l => ((l, none) : List Nat × Slot)) ≠ [] := by
    intro h9
    exact hne (List.map_eq_nil_iff.mp h9)
  obtain ⟨out, ⟨k, hk⟩, hiff, hchain, hnd⟩ :=
    int_master G (((streams.map (fun l => ((l, none) : List Nat × Slot))).map
      vstream).map List.length).sum
      (streams.map (fun l => (l, none))) (le_refl _) hmapne (intInit_wf hs hn)
  refine ⟨k, out, hk, ?_, hchain, hnd⟩
  intro x
  rw [hiff x]
  constructor
  · intro h9 l hl
    have h10 := h9 (l, none) (List.mem_map.mpr ⟨l, hl, rfl⟩)
    exact h10
  · intro h9 p hp
    rcases List.mem_map.mp hp with ⟨l, hl, rfl⟩
    exact h9 l hl

/-- C2: `AncestorsNodeStream(h)` emits, as a set, exactly the transitive
parent-closure of the seed (seed included), reaching end-of-stream. -/
theorem c2_ancestors_closure (G : GenGraph) (hpg : ParentGenLt G) (seed : Nat) :
    ∃ fuel out, (∀ extra, ancRunF G (fuel + extra) (ancInit G seed) = (out, true)) ∧
      ∀ x, x ∈ out ↔ Anc G seed x := by
  obtain ⟨out, ⟨k, hk⟩, hiff, _, _⟩ := ancestors_master G hpg seed
  exact ⟨k, out, hk, hiff⟩

theorem cwGraph_pg : ParentGenLt cwGraph := by
  intro c p hp
  show p < c
  by_cases h0 : c = 0
  · rw [show cwGraph.parents c = [] from by simp [cwGraph, h0]] at hp
    cases hp
  · by_cases h2 : c ≤ 2
    · rw [show cwGraph.parents c = [c - 1] from by simp [cwGraph, h0, h2]] at hp
      rcases List.mem_singleton.mp hp with rfl
      omega
    · rw [show cwGraph.parents c = [] from by simp [cwGraph, h0, h2]] at hp
      cases hp

theorem c2_ancestors_closure_witness :
    ∃ fuel out, (∀ extra, ancRunF cwGraph (fuel + extra) (ancInit cwGraph 2) = (out, true)) ∧
      ∀ x, x ∈ out ↔ Anc cwGraph 2 x :=
  c2_ancestors_closure cwGraph cwGraph_pg 2

/-- C3: on a non-empty family of generation-sorted duplicate-free streams,
`IntersectNodeStream` ends having emitted exactly the hashes common to all
inputs; and every emission goes through the drain at an entry whose count
equals the number of inputs. -/
theorem c3_intersection (G : GenGraph) (streams : List (List Nat))
    (hne : streams ≠ [])
    (hs : ∀ l ∈ streams, List.Chain' (fun a c => G.gen c ≤ G.gen a) l)
    (hn : ∀ l ∈ streams, l.Nodup) :
    (∃ fuel out, (∀ extra, intRunF G (fuel + extra) (intInit streams) = (out, true)) ∧
       ∀ x, x ∈ out ↔ ∀ l ∈ streams, x ∈ l) ∧
    (∀ (s : IntState) (h : Nat) (s' : IntState), intStep G s = IntStepRes.yield h s' →
       ∃ d pre d', s.drain = some d ∧ d = pre ++ (h, s.inputs.length) :: d' ∧
         ∀ e ∈ pre, e.2 ≠ s.inputs.length) := by
  constructor
  · obtain ⟨fuel, out, hrun, hiff, _, _⟩ := intInit_master G streams hne hs hn
    exact ⟨fuel, out, hrun, hiff⟩
  · intro s h s' heq
    exact intStep_yield_inv heq

theorem c3_intersection_witness :
    ([[2, 1, 0], [1, 0]] : List (List Nat)) ≠ [] ∧
    ((∃ fuel out, (∀ extra, intRunF cwGraph (fuel + extra)
        (intInit [[2, 1, 0], [1, 0]]) = (out, true)) ∧
       ∀ x, x ∈ out ↔ ∀ l ∈ ([[2, 1, 0], [1, 0]] : List (List Nat)), x ∈ l) ∧
     (∀ (s : IntState) (h : Nat) (s' : IntState),
        intStep cwGraph s = IntStepRes.yield h s' →
        ∃ d pre d', s.drain = some d ∧ d = pre ++ (h, s.inputs.length) :: d' ∧
          ∀ e ∈ pre, e.2 ≠ s.inputs.length)) :=
  ⟨by decide, c3_intersection cwGraph [[2, 1, 0], [1, 0]] (by decide)
    (by simp [List.chain'_cons, cwGraph]) (by decide)⟩

/-- C4: both stream operators emit in non-increasing generation order and
yield each hash at most once over the stream's lifetime. -/
theorem c4_stream_invariants (G : GenGraph) (hpg : ParentGenLt G) :
    (∀ seed : Nat, ∃ fuel out,
       (∀ extra, ancRunF G (fuel + extra) (ancInit G seed) = (out, true)) ∧
       List.Chain' (fun a c => G.gen c ≤ G.gen a) out ∧ out.Nodup) ∧
    (∀ streams : List (List Nat), streams ≠ [] →
       (∀ l ∈ streams, List.Chain' (fun a c => G.gen c ≤ G.gen a) l) →
       (∀ l ∈ streams, l.Nodup) →
       ∃ fuel out, (∀ extra, intRunF G (fuel + extra) (intInit streams) = (out, true)) ∧
         List.Chain' (fun a c => G.gen c ≤ G.gen a) out ∧ out.Nodup) := by
  constructor
  · intro seed
    obtain ⟨out, ⟨k, hk⟩, _, hchain, hnd⟩ := ancestors_master G hpg seed
    exact ⟨k, out, hk, hchain, hnd⟩
  · intro streams hne hs hn
    obtain ⟨fuel, out, hrun, _, hchain, hnd⟩ := intInit_master G streams hne hs hn
    exact ⟨fuel, out, hrun, hchain, hnd⟩

theorem c4_stream_invariants_witness :
    ParentGenLt cwGraph ∧
    ((∀ seed : Nat, ∃ fuel out,
       (∀ extra, ancRunF cwGraph (fuel + extra) (ancInit cwGraph seed) = (out, true)) ∧
       List.Chain' (fun a c => cwGraph.gen c ≤ cwGraph.gen a) out ∧ out.Nodup) ∧
    (∀ streams : List (List Nat), streams ≠ [] →
       (∀ l ∈ streams, List.Chain' (fun a c => cwGraph.gen c ≤ cwGraph.gen a) l) →
       (∀ l ∈ streams, l.Nodup) →
       ∃ fuel out, (∀ extra, intRunF cwGraph (fuel + extra) (intInit streams) = (out, true)) ∧
         List.Chain' (fun a c => cwGraph.gen c ≤ cwGraph.gen a) out ∧ out.Nodup)) :=
  ⟨cwGraph_pg, c4_stream_invariants cwGraph cwGraph_pg⟩

theorem anc_uniform (G : GenGraph) (hpg : ParentGenLt G) (nodes : List Nat) :
    ∃ F, ∀ n ∈ nodes, ∃ out,
      (∀ extra, ancRunF G (F + extra) (ancInit G n) = (out, true)) ∧
      (∀ x, x ∈ out ↔ Anc G n x) ∧
      List.Chain' (fun a c => G.gen c ≤ G.gen a) out ∧ out.Nodup := by
  induction nodes with
  | nil => exact ⟨0, fun n hn => absurd hn (List.not_mem_nil n)⟩
  | cons m t ih =>
    obtain ⟨F, hF⟩ := ih
    obtain ⟨out, ⟨k, hk⟩, hiff, hchain, hnd⟩ := ancestors_master G hpg m
    refine ⟨F + k, ?_⟩
    intro n hn
    rcases List.mem_cons.mp hn with rfl | hn
    · refine ⟨out, ?_, hiff, hchain, hnd⟩
      intro extra
      rw [show F + k + extra = k + (F + extra) from by omega]
      exact hk (F + extra)
    · obtain ⟨out2, hrun2, hiff2, hch2, hnd2⟩ := hF n hn
      refine ⟨out2, ?_, hiff2, hch2, hnd2⟩
      intro extra
      rw [show F + k + extra = F + (k + extra) from by omega]
      exact hrun2 (k + extra)

/-- C9: `greatest_common_ancestor` yields the head of `common_ancestors`
(at most one element); when common ancestors exist it is one of highest
generation, and with no common ancestor nothing is yielded. -/
theorem c9_gca (G : GenGraph) (hpg : ParentGenLt G) (nodes : List Nat) :
    ∃ f1 f2,
      (commonAncestorsRunF G f1 f2 nodes).2 = true ∧
      (∀ x, x ∈ (commonAncestorsRunF G f1 f2 nodes).1 ↔
        (nodes ≠ [] ∧ ∀ n ∈ nodes, Anc G n x)) ∧
      gcaRunF G f1 f2 nodes = (commonAncestorsRunF G f1 f2 nodes).1.take 1 ∧
      (gcaRunF G f1 f2 nodes).length ≤ 1 ∧
      ((commonAncestorsRunF G f1 f2 nodes).1 = [] → gcaRunF G f1 f2 nodes = []) ∧
      (∀ h t, (commonAncestorsRunF G f1 f2 nodes).1 = h :: t →
        gcaRunF G f1 f2 nodes = [h] ∧
        ∀ x ∈ (commonAncestorsRunF G f1 f2 nodes).1, G.gen x ≤ G.gen h) := by
  cases nodes with
  | nil =>
    refine ⟨0, 1, rfl, ?_, rfl, by exact Nat.zero_le 1, ?_, ?_⟩
    · intro x
      constructor
      · intro hx
        have h9 : (commonAncestorsRunF G 0 1 []).1 = [] := rfl
        rw [h9] at hx
        cases hx
      · rintro ⟨h9, _⟩
        exact absurd rfl h9
    · intro _
      rfl
    · intro h t hht
      have h9 : (commonAncestorsRunF G 0 1 []).1 = [] := rfl
      rw [h9] at hht
      cases hht
  | cons m rest =>
    obtain ⟨F, hF⟩ := anc_uniform G hpg (m :: rest)
    have hout_eq : ∀ n ∈ m :: rest, ∃ out, ancOutF G F n = out ∧
        (∀ x, x ∈ out ↔ Anc G n x) ∧
        List.Chain' (fun a c => G.gen c ≤ G.gen a) out ∧ out.Nodup := by
      intro n hn
      obtain ⟨out, hrun, hiff, hch, hnd⟩ := hF n hn
      refine ⟨out, ?_, hiff, hch, hnd⟩
      show (ancRunF G F (ancInit G n)).1 = out
      rw [show ancRunF G F (ancInit G n) = (out, true) from hrun 0]
    have hne9 : (m :: rest).map (ancOutF G F) ≠ [] := by
      intro h9
      cases h9
    have hs9 : ∀ l ∈ (m :: rest).map (ancOutF G F),
        List.Chain' (fun a c => G.gen c ≤ G.gen a) l := by
      intro l hl
      rcases List.mem_map.mp hl with ⟨n, hn, rfl⟩
      obtain ⟨out, heq, _, hch, _⟩ := hout_eq n hn
      rw [heq]
      exact hch
    have hn9 : ∀ l ∈ (m :: rest).map (ancOutF G F), l.Nodup := by
      intro l hl
      rcases List.mem_map.mp hl with ⟨n, hn, rfl⟩
      obtain ⟨out, heq, _, _, hnd⟩ := hout_eq n hn
      rw [heq]
      exact hnd
    obtain ⟨k, out, hrun, hiff, hchain, hnd⟩ :=
      intInit_master G ((m :: rest).map (ancOutF G F)) hne9 hs9 hn9
    have hCA : commonAncestorsRunF G F k (m :: rest) = (out, true) := hrun 0
    refine ⟨F, k, by rw [hCA], ?_, rfl, ?_, ?_, ?_⟩
    · intro x
      rw [show (commonAncestorsRunF G F k (m :: rest)).1 = out from by rw [hCA]]
      rw [hiff x]
      constructor
      · intro h9
        refine ⟨(by intro hh; cases hh), ?_⟩
        intro n hn
        obtain ⟨outn, heq, hiffn, _, _⟩ := hout_eq n hn
        have h10 := h9 (ancOutF G F n) (List.mem_map.mpr ⟨n, hn, rfl⟩)
        rw [heq] at h10
        exact (hiffn x).mp h10
      · rintro ⟨_, h9⟩
        intro l hl
        rcases List.mem_map.mp hl with ⟨n, hn, rfl⟩
        obtain ⟨outn, heq, hiffn, _, _⟩ := hout_eq n hn
        rw [heq]
        exact (hiffn x).mpr (h9 n hn)
    · show ((commonAncestorsRunF G F k (m :: rest)).1.take 1).length ≤ 1
      rw [List.length_take]
      omega
    · intro h9
      show (commonAncestorsRunF G F k (m :: rest)).1.take 1 = []
      rw [h9]
      rfl
    · intro h t hht
      constructor
      · show (commonAncestorsRunF G F k (m :: rest)).1.take 1 = [h]
        rw [hht]
        rfl
      · intro x hx
        rw [hht] at hx
        have hch : List.Chain' (fun a c => G.gen c ≤ G.gen a) (h :: t) := by
          rw [← hht, show (commonAncestorsRunF G F k (m :: rest)).1 = out from by rw [hCA]]
          exact hchain
        rcases List.mem_cons.mp hx with rfl | hx
        · exact le_refl _
        · exact chain_ge_head hch x hx

theorem c9_gca_witness :
    ∃ f1 f2,
      (commonAncestorsRunF cwGraph f1 f2 [2, 1]).2 = true ∧
      (∀ x, x ∈ (commonAncestorsRunF cwGraph f1 f2 [2, 1]).1 ↔
        (([2, 1] : List Nat) ≠ [] ∧ ∀ n ∈ ([2, 1] : List Nat), Anc cwGraph n x)) ∧
      gcaRunF cwGraph f1 f2 [2, 1] = (commonAncestorsRunF cwGraph f1 f2 [2, 1]).1.take 1 ∧
      (gcaRunF cwGraph f1 f2 [2, 1]).length ≤ 1 ∧
      ((commonAncestorsRunF cwGraph f1 f2 [2, 1]).1 = [] →
        gcaRunF cwGraph f1 f2 [2, 1] = []) ∧
      (∀ h t, (commonAncestorsRunF cwGraph f1 f2 [2, 1]).1 = h :: t →
        gcaRunF cwGraph f1 f2 [2, 1] = [h] ∧
        ∀ x ∈ (commonAncestorsRunF cwGraph f1 f2 [2, 1]).1,
          cwGraph.gen x ≤ cwGraph.gen h) :=
  c9_gca cwGraph cwGraph_pg [2, 1]

end Mononoke
